import Mathlib

/-!
Verification of the furigana (ruby) generation core of LDDC
(`LDDC/core/ruby/`): character classification, the original/normalized
index mapper, the romaji-to-hiragana converter, the tokenizer, the
fuzzy-variant rule engine and the alignment pipeline `generate_ruby`.

Strings are embedded as `List Char` (Python strings are sequences of
codepoints).  Two pieces of data used by the core are not part of the
core's sources and are treated as parameters, faithful to the spec:

* the Unicode NFKC table (`unicodedata.normalize("NFKC", ·)`), embedded
  as a per-character parameter `nc : Char → List Char` (the mapper in
  `mapper.py` itself normalizes character by character);
* the read-only dictionary index (`LDDC/core/ruby/dictionary.py` is not
  among the sources), embedded as a finite word → readings table with
  the two query operations the spec describes (longest-first prefix
  match enumeration and exact lookup).
-/

namespace LDDC

/- The rational operations of the float model must evaluate inside
proofs by `decide` and `rfl`. -/
attribute [local semireducible] Rat.mul Rat.inv

/-- Python strings are sequences of codepoints. -/
abbrev Str := List Char

/-- The apostrophe character (codepoint 39). -/
def apos : Char := Char.ofNat 39

/-- Whitespace as recognized by Python's `str.strip` / `str.isspace`:
the ASCII whitespace U+0009-U+000D, the separators U+001C-U+001F, the
space, and the Unicode spaces, notably the ideographic space U+3000. -/
def isPySpace (c : Char) : Bool :=
  (9 ≤ c.toNat && c.toNat ≤ 13) || (0x1c ≤ c.toNat && c.toNat ≤ 0x20) ||
  c.toNat = 0x85 || c.toNat = 0xa0 ||
  c.toNat = 0x1680 || (0x2000 ≤ c.toNat && c.toNat ≤ 0x200a) ||
  c.toNat = 0x2028 || c.toNat = 0x2029 || c.toNat = 0x202f ||
  c.toNat = 0x205f || c.toNat = 0x3000

/-- Python `str.lower`, on the ASCII letters.  Other characters are
returned unchanged, so this is faithful only away from the non-ASCII
cased letters; every theorem below that quantifies over non-ASCII
characters confines itself to uncased ranges (digits, circled digit
symbols, kana, CJK ideographs), where Python's lowercasing is also the
identity. -/
def pyLowerChar (c : Char) : Char :=
  if 'A' ≤ c && c ≤ 'Z' then Char.ofNat (c.toNat + 32) else c

/-- Hiragana block test, `"぀" <= c <= "ゟ"` in the source. -/
def isHira (c : Char) : Bool := 0x3040 ≤ c.toNat && c.toNat ≤ 0x309f

/-- Katakana block test, `"゠" <= c <= "ヿ"` in the source. -/
def isKata (c : Char) : Bool := 0x30a0 ≤ c.toNat && c.toNat ≤ 0x30ff

/-- CJK unified ideograph test, `"一" <= c <= "鿿"` in the source. -/
def isKanjiChar (c : Char) : Bool := 0x4e00 ≤ c.toNat && c.toNat ≤ 0x9fff

/-- `contains_Kanji` from `core/ruby/__init__.py`. -/
def contains_Kanji (s : Str) : Bool := s.any isKanjiChar

/-- Character classes, `CharType` from `core/ruby/models.py`. -/
inductive CharType where
  | KANJI | HIRAGANA | KATAKANA | SYMBOL | OTHER
deriving DecidableEq, Repr

/-- The fixed punctuation set of `get_char_type` in `core/ruby/char_utils.py`. -/
def SYMBOL_CHARS : Str := ("「」『』【】、。，．・〜？！（）(),.?!\x27\"：:").toList

/-- `get_char_type` from `core/ruby/char_utils.py`. -/
def get_char_type (c : Char) : CharType :=
  if isKanjiChar c then .KANJI
  else if c = '々' then .KANJI
  else if c ∈ SYMBOL_CHARS then .SYMBOL
  else if isHira c then .HIRAGANA
  else if isKata c then .KATAKANA
  else .OTHER

/-- `katakana_to_hiragana` from `core/ruby/char_utils.py`: characters in
ァ..ヶ are shifted down by 96 codepoints, everything else is unchanged. -/
def katakana_to_hiragana (s : Str) : Str :=
  s.map (fun c => if 'ァ' ≤ c && c ≤ 'ヶ' then Char.ofNat (c.toNat - 96) else c)

/-- `is_latin` from `core/ruby/char_utils.py`: more than half of the
non-whitespace characters are Latin letters. -/
def is_latin (s : Str) : Bool :=
  let stripped := s.filter (fun c => !isPySpace c)
  if stripped = [] then false
  else
    let latin := (stripped.filter (fun c =>
      'a' ≤ pyLowerChar c && pyLowerChar c ≤ 'z')).length
    decide (2 * latin > stripped.length)

/-! ## IndexMapper (`core/ruby/mapper.py`)

`IndexMapper._build_map` normalizes the original string character by
character and records, for every normalized position, the index of the
original character it came from. -/

/-- `IndexMapper._build_map`, parameterized by the per-character NFKC
table `nc`.  Returns the normalized text together with the
normalized-index → original-index table. -/
def build_map (nc : Char → List Char) : Str → Nat → Str × List Nat
  | [], _ => ([], [])
  | c :: rest, i =>
    let e := nc c
    let (ntext, mp) := build_map nc rest (i + 1)
    (e ++ ntext, List.replicate e.length i ++ mp)

/-- `IndexMapper.to_original_indices` from `core/ruby/mapper.py`:
translate a normalized-coordinate half-open range into original
coordinates.  `origLen` is `len(self.original_text)` and `mp` is
`self._normalized_to_original_map`. -/
def to_original_indices (origLen : Nat) (mp : List Nat) (start stop : Nat) :
    Nat × Nat :=
  if mp = [] then (start, stop)
  else if start ≥ mp.length then (origLen, origLen)
  else
    let original_start := mp.getD start 0
    let original_end :=
      if 0 < stop ∧ stop ≤ mp.length then mp.getD (stop - 1) 0 + 1
      else origLen
    (original_start, original_end)

/-! Basic facts about the map table. -/

theorem build_map_fst (nc : Char → List Char) :
    ∀ (s : Str) (i : Nat), (build_map nc s i).1 = s.flatMap nc := by
  intro s
  induction s with
  | nil => intro i; simp [build_map]
  | cons c rest ih => intro i; simp [build_map, ih]

theorem build_map_snd_length (nc : Char → List Char) :
    ∀ (s : Str) (i : Nat),
      (build_map nc s i).2.length = (build_map nc s i).1.length := by
  intro s
  induction s with
  | nil => intro i; simp [build_map]
  | cons c rest ih => intro i; simp [build_map, ih]

theorem build_map_snd_bounds (nc : Char → List Char) :
    ∀ (s : Str) (i : Nat) (v : Nat), v ∈ (build_map nc s i).2 →
      i ≤ v ∧ v < i + s.length := by
  intro s
  induction s with
  | nil => intro i v hv; simp [build_map] at hv
  | cons c rest ih =>
    intro i v hv
    simp only [build_map, List.mem_append] at hv
    rcases hv with hv | hv
    · have := List.eq_of_mem_replicate hv
      subst this; constructor <;> simp
    · have h := ih (i + 1) v hv
      simp only [List.length_cons]
      constructor <;> omega

theorem build_map_snd_sorted (nc : Char → List Char) :
    ∀ (s : Str) (i : Nat), (build_map nc s i).2.Sorted (· ≤ ·) := by
  intro s
  induction s with
  | nil => intro i; simp [build_map]
  | cons c rest ih =>
    intro i
    simp only [build_map]
    rw [List.Sorted, List.pairwise_append]
    refine ⟨?_, ih (i + 1), ?_⟩
    · simp [List.pairwise_replicate]
    · intro a ha b hb
      have ha' := List.eq_of_mem_replicate ha
      have hb' := (build_map_snd_bounds nc rest (i + 1) b hb).1
      omega

theorem build_map_snd_ne_nil (nc : Char → List Char) (h : ∀ c, nc c ≠ [])
    (c : Char) (rest : Str) (i : Nat) : (build_map nc (c :: rest) i).2 ≠ [] := by
  simp only [build_map]
  intro hcon
  rcases List.append_eq_nil.1 hcon with ⟨h1, _⟩
  have := h c
  rcases hnc : nc c with _ | ⟨x, xs⟩
  · exact this hnc
  · rw [hnc] at h1; simp [List.replicate] at h1

/-- C10: `katakana_to_hiragana` shifts every character in the range ァ..ヶ
down by 96 codepoints (its hiragana counterpart), leaves every other
character unchanged — in particular the long-vowel mark ー and the
katakana ヷ..ヺ pass through untouched — and preserves the length of the
input. -/
theorem katakana_to_hiragana_spec : ∀ (s : Str),
    (katakana_to_hiragana s).length = s.length ∧
    (∀ (i : Nat) (c : Char), s[i]? = some c →
      (katakana_to_hiragana s)[i]? =
        some (if 'ァ' ≤ c ∧ c ≤ 'ヶ' then Char.ofNat (c.toNat - 96) else c)) ∧
    katakana_to_hiragana ['ー', 'ヷ', 'ヸ', 'ヹ', 'ヺ'] = ['ー', 'ヷ', 'ヸ', 'ヹ', 'ヺ'] ∧
    katakana_to_hiragana ['ァ', 'カ', 'ヶ'] = ['ぁ', 'か', 'ゖ'] := by
  intro s
  refine ⟨by simp [katakana_to_hiragana], ?_, by decide, by decide⟩
  intro i c hc
  simp only [katakana_to_hiragana, List.getElem?_map, hc, Option.map_some]
  by_cases h1 : 'ァ' ≤ c <;> by_cases h2 : c ≤ 'ヶ' <;> simp [h1, h2]

/-- Witness for C10 at a concrete input. -/
theorem katakana_to_hiragana_spec_witness :
    (katakana_to_hiragana ['カ', 'x'])[0]? = some 'か' := by
  have h := (katakana_to_hiragana_spec ['カ', 'x']).2.1 0 'カ' rfl
  rw [h]; decide

/-- C9: for an `IndexMapper` built from a non-empty original string (with
a normalization that never erases a character, as NFKC does not),
`to_original_indices` is total; a `start` at or beyond the normalized
length yields the empty range `(len original, len original)`; an `end`
of `0` or beyond the normalized length is clamped so that the returned
end coordinate is `len original`; and both returned coordinates always
lie within `[0, len original]`, so a returned range may be empty. -/
theorem to_original_indices_spec (nc : Char → List Char) (orig : Str)
    (start stop : Nat) (horig : orig ≠ []) (hnc : ∀ c, nc c ≠ []) :
    (start ≥ (build_map nc orig 0).1.length →
      to_original_indices orig.length (build_map nc orig 0).2 start stop =
        (orig.length, orig.length)) ∧
    ((stop = 0 ∨ stop > (build_map nc orig 0).1.length) →
      (to_original_indices orig.length (build_map nc orig 0).2 start stop).2 =
        orig.length) ∧
    (to_original_indices orig.length (build_map nc orig 0).2 start stop).1 ≤
      orig.length ∧
    (to_original_indices orig.length (build_map nc orig 0).2 start stop).2 ≤
      orig.length := by
  rcases orig with _ | ⟨c, rest⟩
  · exact absurd rfl horig
  have hne : (build_map nc (c :: rest) 0).2 ≠ [] :=
    build_map_snd_ne_nil nc hnc c rest 0
  have hlen : (build_map nc (c :: rest) 0).2.length =
      (build_map nc (c :: rest) 0).1.length :=
    build_map_snd_length nc (c :: rest) 0
  have hgetlt : ∀ k, k < (build_map nc (c :: rest) 0).2.length →
      (build_map nc (c :: rest) 0).2.getD k 0 < (c :: rest).length := by
    intro k hk
    rw [List.getD_eq_getElem _ _ hk]
    have hmem := List.getElem_mem (l := (build_map nc (c :: rest) 0).2) hk
    have := build_map_snd_bounds nc (c :: rest) 0 _ hmem
    omega
  refine ⟨?_, ?_, ?_, ?_⟩
  · intro hstart
    simp only [to_original_indices, if_neg hne]
    rw [if_pos (by omega)]
  · intro hstop
    simp only [to_original_indices, if_neg hne]
    by_cases hs : start ≥ (build_map nc (c :: rest) 0).2.length
    · rw [if_pos hs]
    · rw [if_neg hs,
        if_neg (by omega : ¬(0 < stop ∧ stop ≤ (build_map nc (c :: rest) 0).2.length))]
  · simp only [to_original_indices, if_neg hne]
    by_cases hs : start ≥ (build_map nc (c :: rest) 0).2.length
    · rw [if_pos hs]
    · rw [if_neg hs]
      have := hgetlt start (by omega)
      simp only
      omega
  · simp only [to_original_indices, if_neg hne]
    by_cases hs : start ≥ (build_map nc (c :: rest) 0).2.length
    · rw [if_pos hs]
    · rw [if_neg hs]
      by_cases he : 0 < stop ∧ stop ≤ (build_map nc (c :: rest) 0).2.length
      · have := hgetlt (stop - 1) (by omega)
        simp only [if_pos he]
        omega
      · simp only [if_neg he]
        omega

/-- Witness for C9 at a concrete input: out-of-range queries against the
mapper of the two-character string "ab" are clamped. -/
theorem to_original_indices_spec_witness :
    to_original_indices ("ab".toList).length
      (build_map (fun c => [c]) "ab".toList 0).2 5 7 = (2, 2) := by
  have h := (to_original_indices_spec (fun c => [c]) "ab".toList 5 7
    (by decide) (fun c => by simp)).1
  exact h (by decide)

/-! ## RomajiConverter (`core/ruby/romaji_converter.py`) -/

/-- `ROMA_HIRA_MAP` from `core/ruby/romaji_converter.py`: the static
romanized-syllable → hiragana table, tried longest first by the main loop. -/
def ROMA_HIRA_MAP : List (String × String) := [
  ("cha", "ちゃ"), ("chu", "ちゅ"), ("cho", "ちょ"),
  ("sha", "しゃ"), ("shu", "しゅ"), ("sho", "しょ"),
  ("hya", "ひゃ"), ("hyu", "ひゅ"), ("hyo", "ひょ"),
  ("kya", "きゃ"), ("kyu", "きゅ"), ("kyo", "きょ"),
  ("gya", "ぎゃ"), ("gyu", "ぎゅ"), ("gyo", "ぎょ"),
  ("nya", "にゃ"), ("nyu", "にゅ"), ("nyo", "にょ"),
  ("rya", "りゃ"), ("ryu", "りゅ"), ("ryo", "りょ"),
  ("pya", "ぴゃ"), ("pyu", "ぴゅ"), ("pyo", "ぴょ"),
  ("bya", "びゃ"), ("byu", "びゅ"), ("byo", "びょ"),
  ("mya", "みゃ"), ("myu", "みゅ"), ("myo", "みょ"),
  ("ja", "じゃ"), ("ju", "じゅ"), ("jo", "じょ"),
  ("ssu", "っす"),
  ("tsa", "つぁ"), ("tsi", "つぃ"), ("tse", "つぇ"), ("tso", "つぉ"),
  ("thi", "てぃ"), ("dhi", "でぃ"),
  ("she", "しぇ"), ("che", "ちぇ"),
  ("fa", "ふぁ"), ("fi", "ふぃ"), ("fe", "ふぇ"), ("fo", "ふぉ"),
  ("wi", "うぃ"), ("we", "うぇ"),
  ("va", "ゔぁ"), ("vi", "ゔぃ"), ("ve", "ゔぇ"), ("vo", "ゔぉ"),
  ("je", "じぇ"),
  ("shi", "し"), ("tsu", "つ"), ("chi", "ち"),
  ("za", "ざ"), ("ze", "ぜ"), ("zo", "ぞ"),
  ("da", "だ"), ("de", "で"), ("do", "ど"),
  ("ba", "ば"), ("bi", "び"), ("bu", "ぶ"), ("be", "べ"), ("bo", "ぼ"),
  ("pa", "ぱ"), ("pi", "ぴ"), ("pu", "ぷ"), ("pe", "ぺ"), ("po", "ぽ"),
  ("ga", "が"), ("gi", "ぎ"), ("gu", "ぐ"), ("ge", "げ"), ("go", "ご"),
  ("ka", "か"), ("ki", "き"), ("ku", "く"), ("ke", "け"), ("ko", "こ"),
  ("sa", "さ"), ("su", "す"), ("se", "せ"), ("so", "そ"),
  ("ta", "た"), ("te", "て"), ("to", "と"),
  ("na", "な"), ("ni", "に"), ("nu", "ぬ"), ("ne", "ね"), ("no", "の"),
  ("ha", "は"), ("hi", "ひ"), ("fu", "ふ"), ("he", "へ"), ("ho", "ほ"),
  ("ma", "ま"), ("mi", "み"), ("mu", "む"), ("me", "め"), ("mo", "も"),
  ("ya", "や"), ("yu", "ゆ"), ("yo", "よ"),
  ("ra", "ら"), ("ri", "り"), ("ru", "る"), ("re", "れ"), ("ro", "ろ"),
  ("wa", "わ"), ("wo", "を"),
  ("ji", "じ"), ("zu", "ず"),
  ("di", "ぢ"), ("du", "づ"),
  ("aa", "ああ"), ("ii", "いい"), ("uu", "うう"), ("ee", "ええ"), ("oo", "おお"),
  ("ou", "おう"),
  ("si", "し"), ("ti", "ち"), ("tu", "つ"), ("hu", "ふ"),
  ("la", "ら"), ("li", "り"), ("lu", "る"), ("le", "れ"), ("lo", "ろ"),
  ("xi", "し"), ("qi", "ち"), ("cu", "つ"),
  ("a", "あ"), ("i", "い"), ("u", "う"), ("e", "え"), ("o", "お"),
  ("n", "ん")]

/-- Exact-key lookup into `ROMA_HIRA_MAP` (Python `sub in ROMA_HIRA_MAP`
followed by `ROMA_HIRA_MAP[sub]`). -/
def roma_lookup (s : Str) : Option Str :=
  (ROMA_HIRA_MAP.find? (fun p => p.1.toList == s)).map (fun p => p.2.toList)

/-- `VOWELS` from `core/ruby/romaji_converter.py`. -/
def VOWELS : Str := "aiueo".toList

/-- `CONSONANTS` from `core/ruby/romaji_converter.py`. -/
def CONSONANTS : Str := "bcdfghjklmnpqrstvwxyz".toList

/-- Python `str.strip()`: remove leading and trailing whitespace. -/
def pyStrip (s : Str) : Str :=
  ((s.dropWhile isPySpace).reverse.dropWhile isPySpace).reverse

/-- The `re.sub(r"([a-z])-", replace_long_vowel, text)` pass of
`_preprocess_romaji`: every hyphen directly preceded by a lowercase
letter is consumed together with that letter; if the letter is a vowel
the pair is replaced by the doubled vowel, otherwise it is kept
unchanged.  Matches are non-overlapping and found left to right, as
with `re.sub`. -/
def expand_long_vowels : Str → Str
  | [] => []
  | [a] => [a]
  | a :: b :: rest =>
    if b = '-' && 'a' ≤ a && a ≤ 'z' then
      if VOWELS.contains a then a :: a :: expand_long_vowels rest
      else a :: '-' :: expand_long_vowels rest
    else a :: expand_long_vowels (b :: rest)

/-- Regex word-constituent test.  Python's `\w` is Unicode-aware
(alphanumeric or underscore); it is modelled here over the character
classes this development ranges over: ASCII alphanumerics and
underscore, the Latin-1 letters and numeric signs, the circled digit
symbols, kana, and the CJK ideographs. -/
def isWordChar (c : Char) : Bool :=
  ('a' ≤ c && c ≤ 'z') || ('A' ≤ c && c ≤ 'Z') || ('0' ≤ c && c ≤ '9') ||
  c = '_' || c.toNat = 0xaa || c.toNat = 0xb2 || c.toNat = 0xb3 ||
  c.toNat = 0xb5 || c.toNat = 0xb9 || c.toNat = 0xba ||
  (0xbc ≤ c.toNat && c.toNat ≤ 0xbe) ||
  (0xc0 ≤ c.toNat && c.toNat ≤ 0xff && !(c.toNat = 0xd7) && !(c.toNat = 0xf7)) ||
  (0x2460 ≤ c.toNat && c.toNat ≤ 0x24b5) ||
  (0x3041 ≤ c.toNat && c.toNat ≤ 0x3096) ||
  (0x309d ≤ c.toNat && c.toNat ≤ 0x309f) ||
  (0x30a1 ≤ c.toNat && c.toNat ≤ 0x30fa) ||
  (0x30fc ≤ c.toNat && c.toNat ≤ 0x30ff) ||
  (0x4e00 ≤ c.toNat && c.toNat ≤ 0x9fff)

/-- The `re.sub(r"\buta\b", "futa", text)` pass of `_preprocess_romaji`:
replace every standalone word `uta` by `futa`, scanning left to right.
`prevIsWord` records whether the previous character is a word
constituent (the `\b` context). -/
def sub_uta (prevIsWord : Bool) : Str → Str
  | 'u' :: 't' :: 'a' :: rest =>
    if !prevIsWord && !(rest.head?.elim false isWordChar) then
      'f' :: 'u' :: 't' :: 'a' :: sub_uta true rest
    else 'u' :: sub_uta (isWordChar 'u') ('t' :: 'a' :: rest)
  | c :: rest => c :: sub_uta (isWordChar c) rest
  | [] => []

/-- `_preprocess_romaji` from `core/ruby/romaji_converter.py`. -/
def preprocess_romaji (s : Str) : Str :=
  let text := pyStrip (s.map pyLowerChar)
  let text := if text.getLast? = some apos then pyStrip text.dropLast else text
  sub_uta false (expand_long_vowels text)

/-- What the main loop of `roma_to_hiragana` emits when it consumes the
single character `c` (the 1-letter table hit, the sokuon rule, the
moraic-nasal rule, the apostrophe rule and the literal fallback — all of
which advance the scan position by exactly one).  `prev` is the
character at `i - 1`, `rest` is the text after `c`. -/
def roma_step1 (prev : Option Char) (c : Char) (rest : Str) : Str :=
  match roma_lookup [c] with
  | some h1 => h1
  | none =>
    if CONSONANTS.contains c && rest.head? = some c then ['っ']
    else if (c = 'n' || (c = 'm' &&
        rest.head?.elim false (fun d =>
          !VOWELS.contains d && !(d = 'y' || d = apos || d = ' ')))) &&
        !rest.head?.elim false (fun d =>
          VOWELS.contains d || d = 'y' || d = apos) then
      ['ん']
    else if c = apos then
      if prev = some 'n' then [] else ['っ']
    else
      [c]

/-- Main loop of `roma_to_hiragana` from `core/ruby/romaji_converter.py`.
Longest (3-, then 2-, then 1-letter) syllables are tried first, guarded
by the available length, exactly as `i + length <= n` guards the slices
in the source.  `fuel` bounds the number of iterations; every iteration
consumes at least one character, so any `fuel ≥ s.length` computes the
full loop (the callers pass the input length). -/
def roma_loop (fuel : Nat) (prev : Option Char) (s : Str) : Str :=
  match fuel with
  | 0 => []
  | fuel + 1 =>
    match s with
    | [] => []
    | c :: rest =>
      if isPySpace c then c :: roma_loop fuel (some c) rest
      else
        match rest with
        | d :: e :: rest3 =>
          match roma_lookup [c, d, e] with
          | some h3 => h3 ++ roma_loop fuel (some e) rest3
          | none =>
            match roma_lookup [c, d] with
            | some h2 => h2 ++ roma_loop fuel (some d) (e :: rest3)
            | none => roma_step1 prev c rest ++ roma_loop fuel (some c) rest
        | [d] =>
          match roma_lookup [c, d] with
          | some h2 => h2 ++ roma_loop fuel (some d) []
          | none => roma_step1 prev c rest ++ roma_loop fuel (some c) rest
        | [] => roma_step1 prev c rest ++ roma_loop fuel (some c) rest

/-- `roma_to_hiragana` from `core/ruby/romaji_converter.py`. -/
def roma_to_hiragana (s : Str) : Str :=
  roma_loop (preprocess_romaji s).length none (preprocess_romaji s)

/-! ### Facts about the preprocessing pipeline -/

theorem consonant_facts : ∀ c ∈ CONSONANTS,
    isPySpace c = false ∧ ('A' ≤ c && c ≤ 'Z') = false ∧
    ('a' ≤ c && c ≤ 'z') = true ∧ VOWELS.contains c = false ∧
    c ≠ apos ∧ c ≠ '-' ∧ c ≠ 'u' ∧ c ≠ 'a' := by decide

theorem vowel_facts : ∀ c ∈ VOWELS,
    isPySpace c = false ∧ ('A' ≤ c && c ≤ 'Z') = false ∧
    ('a' ≤ c && c ≤ 'z') = true ∧ VOWELS.contains c = true ∧
    c ≠ apos ∧ c ≠ '-' := by decide

theorem pyLowerChar_eq_self (c : Char) (h : ('A' ≤ c && c ≤ 'Z') = false) :
    pyLowerChar c = c := by
  simp [pyLowerChar, h]

theorem map_pyLower_id (s : Str) (h : ∀ c ∈ s, ('A' ≤ c && c ≤ 'Z') = false) :
    s.map pyLowerChar = s := by
  induction s with
  | nil => rfl
  | cons c rest ih =>
    simp only [List.map_cons, List.cons.injEq]
    exact ⟨pyLowerChar_eq_self c (h c (by simp)),
      ih (fun x hx => h x (by simp [hx]))⟩

theorem dropWhile_eq_self_of_all (p : Char → Bool) (s : Str)
    (h : ∀ c ∈ s, p c = false) : s.dropWhile p = s := by
  cases s with
  | nil => rfl
  | cons c rest => simp [List.dropWhile, h c (by simp)]

theorem pyStrip_id (s : Str) (h : ∀ c ∈ s, isPySpace c = false) :
    pyStrip s = s := by
  unfold pyStrip
  rw [dropWhile_eq_self_of_all _ _ h,
    dropWhile_eq_self_of_all _ _ (fun c hc => h c (List.mem_reverse.1 hc)),
    List.reverse_reverse]

theorem getLast?_ne_of_all (s : Str) (a : Char) (h : ∀ c ∈ s, c ≠ a) :
    s.getLast? ≠ some a := by
  intro hcon
  rcases List.getLast?_eq_some_iff.1 hcon with ⟨l', rfl⟩
  exact h a (by simp) rfl

theorem expand_long_vowels_id (s : Str)
    (h : ∀ x ∈ s, ('a' ≤ x && x ≤ 'z') = false) : expand_long_vowels s = s := by
  induction s using expand_long_vowels.induct with
  | case1 => rfl
  | case2 a => rfl
  | case3 a b rest hcond h2 ih =>
    exfalso
    have := h a (by simp)
    simp only [Bool.and_eq_true, decide_eq_true_eq] at hcond
    simp [hcond.1.2, hcond.2] at this
  | case4 a b rest hcond h2 ih =>
    exfalso
    have := h a (by simp)
    simp only [Bool.and_eq_true, decide_eq_true_eq] at hcond
    simp [hcond.1.2, hcond.2] at this
  | case5 a b rest hcond ih =>
    simp only [expand_long_vowels, if_neg hcond, List.cons.injEq, true_and]
    exact ih (fun x hx => h x (by simp at hx ⊢; tauto))

theorem expand_long_vowels_append (u t : Str)
    (hu : ∀ x ∈ u, x ∈ CONSONANTS) (ht : t.head? ≠ some '-') :
    expand_long_vowels (u ++ t) = u ++ expand_long_vowels t := by
  induction u with
  | nil => rfl
  | cons a u' ih =>
    have hu' : ∀ x ∈ u', x ∈ CONSONANTS := fun x hx => hu x (by simp [hx])
    have hcons : expand_long_vowels (u' ++ t) = u' ++ expand_long_vowels t :=
      ih hu'
    cases hshape : u' ++ t with
    | nil =>
      have hu0 : u' = [] := by cases u' <;> simp_all
      have ht0 : t = [] := by
        rcases List.append_eq_nil.1 hshape with ⟨_, h2⟩; exact h2
      subst hu0; subst ht0
      rfl
    | cons b rest =>
      have hb : b ≠ '-' := by
        cases u' with
        | nil =>
          simp only [List.nil_append] at hshape
          intro hb
          apply ht
          rw [hshape, hb]; rfl
        | cons c u'' =>
          have hc := consonant_facts c (hu' c (by simp))
          simp only [List.cons_append, List.cons.injEq] at hshape
          rw [← hshape.1]
          exact hc.2.2.2.2.2.1
      show expand_long_vowels (a :: (u' ++ t)) = a :: (u' ++ expand_long_vowels t)
      rw [hshape, expand_long_vowels, if_neg (by simp [hb]), ← hshape, hcons]

theorem expand_long_vowels_nohyphen (s : Str) (h : ∀ x ∈ s, x ≠ '-') :
    expand_long_vowels s = s := by
  induction s using expand_long_vowels.induct with
  | case1 => rfl
  | case2 a => rfl
  | case3 a b rest hcond h2 ih =>
    exfalso
    simp only [Bool.and_eq_true, decide_eq_true_eq] at hcond
    exact h b (by simp) hcond.1.1
  | case4 a b rest hcond h2 ih =>
    exfalso
    simp only [Bool.and_eq_true, decide_eq_true_eq] at hcond
    exact h b (by simp) hcond.1.1
  | case5 a b rest hcond ih =>
    simp only [expand_long_vowels, if_neg hcond, List.cons.injEq, true_and]
    exact ih (fun x hx => h x (by simp at hx ⊢; tauto))

theorem sub_uta_id (b : Bool) (s : Str) (h : 'u' ∉ s ∨ 'a' ∉ s) :
    sub_uta b s = s := by
  induction b, s using sub_uta.induct with
  | case1 b rest hcond ih =>
    exfalso
    rcases h with h | h
    · exact h (by simp)
    · exact h (by simp)
  | case2 b rest hcond ih =>
    exfalso
    rcases h with h | h
    · exact h (by simp)
    · exact h (by simp)
  | case3 b c rest hne ih =>
    rw [sub_uta.eq_2 b c rest hne]
    simp only [List.cons.injEq, true_and]
    apply ih
    rcases h with h | h
    · exact Or.inl (fun hx => h (by simp [hx]))
    · exact Or.inr (fun hx => h (by simp [hx]))
  | case4 b => rfl

theorem preprocess_nolast (s : Str)
    (hnws : ∀ x ∈ s.map pyLowerChar, isPySpace x = false)
    (hnapos : ∀ x ∈ s.map pyLowerChar, x ≠ apos) :
    preprocess_romaji s = sub_uta false (expand_long_vowels (s.map pyLowerChar)) := by
  unfold preprocess_romaji
  rw [pyStrip_id _ hnws]
  have h2 : (if (s.map pyLowerChar).getLast? = some apos
      then pyStrip (s.map pyLowerChar).dropLast else s.map pyLowerChar) =
      s.map pyLowerChar := if_neg (getLast?_ne_of_all _ apos hnapos)
  simp only [h2]

theorem preprocess_plain (s : Str)
    (hnup : ∀ x ∈ s, ('A' ≤ x && x ≤ 'Z') = false)
    (hnws : ∀ x ∈ s, isPySpace x = false)
    (hnapos : ∀ x ∈ s, x ≠ apos) :
    preprocess_romaji s = sub_uta false (expand_long_vowels s) := by
  rw [preprocess_nolast s
    (by rw [map_pyLower_id s hnup]; exact hnws)
    (by rw [map_pyLower_id s hnup]; exact hnapos),
    map_pyLower_id s hnup]

/-- C8 (counterexample): the preprocessing expands a vowel-hyphen pair
even when the hyphen is not at the end of the input — `"a-ka"` becomes
`"aaka"`, whereas the claim (only the trailing hyphen is expanded, other
hyphens are kept) would leave `"a-ka"` unchanged. -/
theorem preprocess_romaji_cex :
    preprocess_romaji ("a-ka".toList) = "aaka".toList ∧
    preprocess_romaji ("a-ka".toList) ≠ "a-ka".toList := by
  exact ⟨by decide, by decide⟩

/-- C8 (amended): romanization preprocessing lowercases the input (and
strips surrounding whitespace), strips a single trailing apostrophe,
expands every hyphen that immediately follows a vowel letter — trailing
or not — into a doubling of that vowel, keeps hyphens not preceded by a
vowel, and applies the fixed irregular-spelling correction table (the
standalone word `uta` becomes `futa`). -/
theorem preprocess_romaji_spec :
    (∀ (u v : Str) (c : Char), (∀ x ∈ u, x ∈ CONSONANTS) →
      (∀ x ∈ v, x ∈ CONSONANTS) → c ∈ VOWELS →
      preprocess_romaji (u ++ c :: '-' :: v) = u ++ c :: c :: v) ∧
    (∀ (u v : Str) (d : Char), (∀ x ∈ u, x ∈ CONSONANTS) →
      (∀ x ∈ v, x ∈ CONSONANTS) → d ∈ CONSONANTS →
      preprocess_romaji (u ++ d :: '-' :: v) = u ++ d :: '-' :: v) ∧
    (∀ (s : Str), (∀ x ∈ s, pyLowerChar x ∈ CONSONANTS ∧ ('A' ≤ x && x ≤ 'Z') = true) →
      preprocess_romaji s = s.map pyLowerChar) ∧
    (∀ (s : Str), (∀ x ∈ s, x ∈ CONSONANTS) →
      preprocess_romaji (s ++ [apos]) = s) ∧
    preprocess_romaji "uta".toList = "futa".toList ∧
    preprocess_romaji "utak".toList = "utak".toList ∧
    preprocess_romaji "uta uta".toList = "futa futa".toList := by
  have hconsfacts := consonant_facts
  have hvowfacts := vowel_facts
  refine ⟨?_, ?_, ?_, ?_, by decide, by decide, by decide⟩
  · intro u v c hu hv hc
    have hvc := hvowfacts c hc
    rw [preprocess_plain]
    · rw [expand_long_vowels_append u (c :: '-' :: v) hu
        (by intro h
            simp only [List.head?_cons, Option.some.injEq] at h
            exact hvc.2.2.2.2.2 h)]
      rw [expand_long_vowels, if_pos (by simp [hvc.2.2.1]), if_pos hvc.2.2.2.1]
      rw [expand_long_vowels_nohyphen v
        (fun x hx => (hconsfacts x (hv x hx)).2.2.2.2.2.1)]
      by_cases hcu : c = 'u'
      · rw [sub_uta_id]
        refine Or.inr ?_
        intro hmem
        simp only [List.mem_append, List.mem_cons] at hmem
        rcases hmem with hmem | hmem | hmem | hmem
        · exact (hconsfacts _ (hu _ hmem)).2.2.2.2.2.2.2 rfl
        · rw [hcu] at hmem; exact absurd hmem (by decide)
        · rw [hcu] at hmem; exact absurd hmem (by decide)
        · exact (hconsfacts _ (hv _ hmem)).2.2.2.2.2.2.2 rfl
      · rw [sub_uta_id]
        refine Or.inl ?_
        intro hmem
        simp only [List.mem_append, List.mem_cons] at hmem
        rcases hmem with hmem | hmem | hmem | hmem
        · exact (hconsfacts _ (hu _ hmem)).2.2.2.2.2.2.1 rfl
        · exact hcu hmem.symm
        · exact hcu hmem.symm
        · exact (hconsfacts _ (hv _ hmem)).2.2.2.2.2.2.1 rfl
    · intro x hx
      simp only [List.mem_append, List.mem_cons] at hx
      rcases hx with hx | rfl | rfl | hx
      · exact (hconsfacts x (hu x hx)).2.1
      · exact hvc.2.1
      · decide
      · exact (hconsfacts x (hv x hx)).2.1
    · intro x hx
      simp only [List.mem_append, List.mem_cons] at hx
      rcases hx with hx | rfl | rfl | hx
      · exact (hconsfacts x (hu x hx)).1
      · exact hvc.1
      · decide
      · exact (hconsfacts x (hv x hx)).1
    · intro x hx
      simp only [List.mem_append, List.mem_cons] at hx
      rcases hx with hx | rfl | rfl | hx
      · exact (hconsfacts x (hu x hx)).2.2.2.2.1
      · exact hvc.2.2.2.2.1
      · decide
      · exact (hconsfacts x (hv x hx)).2.2.2.2.1
  · intro u v d hu hv hd
    have hdc := hconsfacts d hd
    rw [preprocess_plain]
    · rw [expand_long_vowels_append u (d :: '-' :: v) hu
        (by intro h
            simp only [List.head?_cons, Option.some.injEq] at h
            exact hdc.2.2.2.2.2.1 h)]
      rw [expand_long_vowels, if_pos (by simp [hdc.2.2.1]),
        if_neg (by rw [hdc.2.2.2.1]; simp)]
      rw [expand_long_vowels_nohyphen v
        (fun x hx => (hconsfacts x (hv x hx)).2.2.2.2.2.1)]
      rw [sub_uta_id]
      refine Or.inl ?_
      intro hmem
      simp only [List.mem_append, List.mem_cons] at hmem
      rcases hmem with hmem | hmem | hmem | hmem
      · exact (hconsfacts _ (hu _ hmem)).2.2.2.2.2.2.1 rfl
      · exact hdc.2.2.2.2.2.2.1 hmem.symm
      · exact absurd hmem (by decide)
      · exact (hconsfacts _ (hv _ hmem)).2.2.2.2.2.2.1 rfl
    · intro x hx
      simp only [List.mem_append, List.mem_cons] at hx
      rcases hx with hx | rfl | rfl | hx
      · exact (hconsfacts x (hu x hx)).2.1
      · exact hdc.2.1
      · decide
      · exact (hconsfacts x (hv x hx)).2.1
    · intro x hx
      simp only [List.mem_append, List.mem_cons] at hx
      rcases hx with hx | rfl | rfl | hx
      · exact (hconsfacts x (hu x hx)).1
      · exact hdc.1
      · decide
      · exact (hconsfacts x (hv x hx)).1
    · intro x hx
      simp only [List.mem_append, List.mem_cons] at hx
      rcases hx with hx | rfl | rfl | hx
      · exact (hconsfacts x (hu x hx)).2.2.2.2.1
      · exact hdc.2.2.2.2.1
      · decide
      · exact (hconsfacts x (hv x hx)).2.2.2.2.1
  · intro s hs
    rw [preprocess_nolast s
      (fun x hx => by
        rcases List.mem_map.1 hx with ⟨y, hy, hyx⟩
        rw [← hyx]
        exact (hconsfacts _ (hs y hy).1).1)
      (fun x hx => by
        rcases List.mem_map.1 hx with ⟨y, hy, hyx⟩
        rw [← hyx]
        exact (hconsfacts _ (hs y hy).1).2.2.2.2.1)]
    rw [expand_long_vowels_nohyphen _ (fun x hx => by
      rcases List.mem_map.1 hx with ⟨y, hy, hyx⟩
      rw [← hyx]
      exact (hconsfacts _ (hs y hy).1).2.2.2.2.2.1)]
    rw [sub_uta_id]
    refine Or.inl ?_
    intro hmem
    rcases List.mem_map.1 hmem with ⟨y, hy, hlow⟩
    exact (hconsfacts _ (hs y hy).1).2.2.2.2.2.2.1 hlow
  · intro s hs
    have hmap : (s ++ [apos]).map pyLowerChar = s ++ [apos] :=
      map_pyLower_id _ (fun x hx => by
        rcases List.mem_append.1 hx with hx | hx
        · exact (hconsfacts x (hs x hx)).2.1
        · rw [List.mem_singleton.1 hx]; decide)
    have hstrip : pyStrip (s ++ [apos]) = s ++ [apos] :=
      pyStrip_id _ (fun x hx => by
        rcases List.mem_append.1 hx with hx | hx
        · exact (hconsfacts x (hs x hx)).1
        · rw [List.mem_singleton.1 hx]; decide)
    unfold preprocess_romaji
    rw [hmap, hstrip]
    have hif : (if (s ++ [apos]).getLast? = some apos
        then pyStrip (s ++ [apos]).dropLast else s ++ [apos]) = pyStrip s := by
      rw [List.getLast?_concat, if_pos rfl, List.dropLast_concat]
    simp only [hif]
    rw [pyStrip_id _ (fun x hx => (hconsfacts x (hs x hx)).1)]
    rw [expand_long_vowels_nohyphen _
      (fun x hx => (hconsfacts x (hs x hx)).2.2.2.2.2.1)]
    rw [sub_uta_id]
    exact Or.inl (fun hmem => (hconsfacts _ (hs _ hmem)).2.2.2.2.2.2.1 rfl)

/-- C8 witness: a non-trailing vowel-hyphen expansion computed through the
amended statement. -/
theorem preprocess_romaji_spec_witness :
    preprocess_romaji ("ko-kj".toList) = "kookj".toList := by
  have h := preprocess_romaji_spec.1 ['k'] ['k', 'j'] 'o'
    (by decide) (by decide) (by decide)
  exact h

/-! ### Passthrough of unrecognized sequences (for C4) -/

/-- A character on which the converter is provably inert: an ASCII
digit, a circled digit or number symbol (U+2460-U+24B5, stopping before
the cased circled letters), kana, or a CJK ideograph.  Each of these is
uncased (so `str.lower` keeps it) and not whitespace (so `str.strip`
keeps it), is not an ASCII letter (so it cannot start any table
syllable, geminate, or nasal) and is not an apostrophe. -/
def isOpaqueChar (c : Char) : Bool :=
  (48 ≤ c.toNat && c.toNat ≤ 57) || (0x2460 ≤ c.toNat && c.toNat ≤ 0x24b5) ||
  (0x3041 ≤ c.toNat && c.toNat ≤ 0x30ff) || (0x4e00 ≤ c.toNat && c.toNat ≤ 0x9fff)

theorem char_le_toNat {a b : Char} : a ≤ b ↔ a.toNat ≤ b.toNat := Iff.rfl

set_option maxRecDepth 4000 in
theorem roma_keys_lower : ∀ p ∈ ROMA_HIRA_MAP,
    (match p.1.toList with
     | c :: _ => ('a' ≤ c && c ≤ 'z')
     | [] => false) = true := by decide

theorem roma_lookup_head_none (c : Char) (cs : Str)
    (h : ('a' ≤ c && c ≤ 'z') = false) : roma_lookup (c :: cs) = none := by
  unfold roma_lookup
  cases hf : ROMA_HIRA_MAP.find? (fun p => p.1.toList == c :: cs) with
  | none => rfl
  | some p =>
    exfalso
    have hp := List.find?_some hf
    have hmem := List.mem_of_find?_eq_some hf
    have hkey := roma_keys_lower p hmem
    have hkeq : p.1.toList = c :: cs := by simpa using hp
    rw [hkeq] at hkey
    simp only [h] at hkey
    exact Bool.false_ne_true hkey

theorem contains_consonants_false (c : Char)
    (h : ('a' ≤ c && c ≤ 'z') = false) : CONSONANTS.contains c = false := by
  by_contra hcon
  have hc : CONSONANTS.contains c = true := by
    cases hx : CONSONANTS.contains c
    · exact absurd hx hcon
    · rfl
  have hmem : c ∈ CONSONANTS := by simpa using hc
  have := (consonant_facts c hmem).2.2.1
  rw [h] at this
  exact Bool.false_ne_true this

theorem opaque_facts (c : Char) (h : isOpaqueChar c = true) :
    isPySpace c = false ∧ ('a' ≤ c && c ≤ 'z') = false ∧
    CONSONANTS.contains c = false ∧ c ≠ 'n' ∧ c ≠ 'm' ∧ c ≠ apos ∧
    ('A' ≤ c && c ≤ 'Z') = false := by
  have ht : ((48 ≤ c.toNat ∧ c.toNat ≤ 57) ∨
      (0x2460 ≤ c.toNat ∧ c.toNat ≤ 0x24b5)) ∨
      ((0x3041 ≤ c.toNat ∧ c.toNat ≤ 0x30ff) ∨
      (0x4e00 ≤ c.toNat ∧ c.toNat ≤ 0x9fff)) := by
    have := h
    simp only [isOpaqueChar, Bool.or_eq_true, Bool.and_eq_true,
      decide_eq_true_eq] at this
    tauto
  have hlow : ('a' ≤ c && c ≤ 'z') = false := by
    rw [Bool.eq_false_iff]
    intro hx
    simp only [Bool.and_eq_true, decide_eq_true_eq] at hx
    have h1 := char_le_toNat.1 hx.1
    have h2 := char_le_toNat.1 hx.2
    have ha : ('a' : Char).toNat = 97 := rfl
    have hz : ('z' : Char).toNat = 122 := rfl
    omega
  have hup : ('A' ≤ c && c ≤ 'Z') = false := by
    rw [Bool.eq_false_iff]
    intro hx
    simp only [Bool.and_eq_true, decide_eq_true_eq] at hx
    have h1 := char_le_toNat.1 hx.1
    have h2 := char_le_toNat.1 hx.2
    have ha : ('A' : Char).toNat = 65 := rfl
    have hz : ('Z' : Char).toNat = 90 := rfl
    omega
  have hsp : isPySpace c = false := by
    rw [Bool.eq_false_iff]
    intro hx
    simp only [isPySpace, Bool.or_eq_true, Bool.and_eq_true,
      decide_eq_true_eq] at hx
    omega
  refine ⟨hsp, hlow, contains_consonants_false c hlow, ?_, ?_, ?_, hup⟩
  · rintro rfl
    have hn : ('n' : Char).toNat = 110 := rfl
    omega
  · rintro rfl
    have hm : ('m' : Char).toNat = 109 := rfl
    omega
  · rintro rfl
    have hap : apos.toNat = 39 := rfl
    omega

theorem roma_step1_opaque (prev : Option Char) (c : Char) (rest : Str)
    (h : isOpaqueChar c = true) : roma_step1 prev c rest = [c] := by
  obtain ⟨h1, h2, h3, h4, h5, h6, h7⟩ := opaque_facts c h
  have hn : decide (c = 'n') = false := decide_eq_false h4
  have hm : decide (c = 'm') = false := decide_eq_false h5
  unfold roma_step1
  rw [roma_lookup_head_none c [] h2]
  rw [if_neg (by rw [h3]; simp)]
  rw [if_neg (by rw [hn, hm]; simp)]
  rw [if_neg h6]

theorem roma_loop_opaque (fuel : Nat) :
    ∀ (prev : Option Char) (s : Str), (∀ c ∈ s, isOpaqueChar c = true) →
      s.length ≤ fuel → roma_loop fuel prev s = s := by
  induction fuel with
  | zero =>
    intro prev s h hlen
    have : s = [] := List.length_eq_zero.1 (Nat.le_zero.1 hlen)
    subst this
    rfl
  | succ fuel ih =>
    intro prev s h hlen
    cases s with
    | nil => rfl
    | cons c rest =>
      obtain ⟨h1, h2, h3, h4, h5, h6, h7⟩ := opaque_facts c (h c (by simp))
      have hrest : ∀ x ∈ rest, isOpaqueChar x = true :=
        fun x hx => h x (by simp [hx])
      have hrlen : rest.length ≤ fuel := by
        simp only [List.length_cons] at hlen; omega
      have hstep := roma_step1_opaque prev c rest (h c (by simp))
      have htl := ih (some c) rest hrest hrlen
      cases rest with
      | nil =>
        rw [roma_loop, h1, if_neg (by simp)]
        rw [hstep, htl]
        rfl
      | cons d rest2 =>
        cases rest2 with
        | nil =>
          rw [roma_loop, h1, if_neg (by simp)]
          rw [roma_lookup_head_none c [d] h2, hstep, htl]
          rfl
        | cons e rest3 =>
          rw [roma_loop, h1, if_neg (by simp)]
          rw [roma_lookup_head_none c [d, e] h2,
            roma_lookup_head_none c [d] h2, hstep, htl]
          rfl

/-! ## Data model (`core/ruby/models.py`) and the dictionary index

`LDDC/core/ruby/dictionary.py` is not among the sources.  Modelled from
the spec: the Dictionary Index is a read-only table of words, each with
an ordered list of candidate hiragana readings, supporting
longest-first prefix-match enumeration (`find_all_prefix_matches`) and
exact lookup (`find_word`).  The structure bundles the spec's data
invariants: words are non-empty, readings are non-empty hiragana
strings. -/

/-- `Token` from `core/ruby/models.py`.  `stop` is the field called
`end` in the source (a reserved word here). -/
structure Token where
  text : Str
  char_type : CharType
  start : Nat
  stop : Nat
  group_id : Option Nat := none
deriving DecidableEq, Repr

/-- Modelled from the spec: the Dictionary Index (`dictionary.py` is not
under the sources), a finite word → readings table with the invariants
stated in the spec. -/
structure JpDict where
  entries : List (Str × List Str)
  words_ne : ∀ p ∈ entries, p.1 ≠ []
  readings_wf : ∀ p ∈ entries, ∀ r ∈ p.2, r ≠ [] ∧ ∀ c ∈ r, isHira c = true

/-- Stable insertion into a list sorted by word length, descending. -/
def insertByLenDesc (x : Str × List Str) :
    List (Str × List Str) → List (Str × List Str)
  | [] => [x]
  | y :: ys =>
    if y.1.length < x.1.length then x :: y :: ys else y :: insertByLenDesc x ys

/-- Stable sort by word length, descending (longest first). -/
def sortByLenDesc (l : List (Str × List Str)) : List (Str × List Str) :=
  l.foldl (fun acc x => insertByLenDesc x acc) []

/-- Modelled from the spec: `find_all_prefix_matches(JP_VOCAB_TRIE, text)`
— all dictionary words that are a prefix of `text`, longest first. -/
def find_all_prefix_matches (d : JpDict) (s : Str) : List (Str × List Str) :=
  sortByLenDesc (d.entries.filter (fun p => p.1.isPrefixOf s))

/-- Modelled from the spec: `find_word(JP_VOCAB_TRIE, word)` — the exact
readings of `word`, or nothing ( `[]` stands for Python's `None`). -/
def find_word (d : JpDict) (w : Str) : List Str :=
  match d.entries.find? (fun p => p.1 == w) with
  | some p => p.2
  | none => []

theorem mem_insertByLenDesc (x z : Str × List Str) :
    ∀ (l : List (Str × List Str)), z ∈ insertByLenDesc x l ↔ z = x ∨ z ∈ l := by
  intro l
  induction l with
  | nil => simp [insertByLenDesc]
  | cons y ys ih =>
    by_cases h : y.1.length < x.1.length
    · simp [insertByLenDesc, h]
    · simp only [insertByLenDesc, if_neg h, List.mem_cons, ih]
      tauto

theorem mem_sortByLenDesc (l : List (Str × List Str)) (z : Str × List Str) :
    z ∈ sortByLenDesc l ↔ z ∈ l := by
  suffices h : ∀ (acc : List (Str × List Str)),
      z ∈ l.foldl (fun acc x => insertByLenDesc x acc) acc ↔ z ∈ acc ∨ z ∈ l by
    have := h []
    simpa [sortByLenDesc] using this
  induction l with
  | nil => intro acc; simp
  | cons y ys ih =>
    intro acc
    simp only [List.foldl_cons, ih, mem_insertByLenDesc, List.mem_cons]
    tauto

theorem mem_find_all_prefix_matches (d : JpDict) (s : Str)
    (p : Str × List Str) (h : p ∈ find_all_prefix_matches d s) :
    p ∈ d.entries ∧ p.1 ≠ [] ∧ p.1.isPrefixOf s := by
  rw [find_all_prefix_matches, mem_sortByLenDesc] at h
  have hmem := List.mem_of_mem_filter h
  have hpre := List.of_mem_filter h
  exact ⟨hmem, d.words_ne p hmem, by simpa using hpre⟩

theorem find_word_wf (d : JpDict) (w : Str) (r : Str) (h : r ∈ find_word d w) :
    r ≠ [] ∧ ∀ c ∈ r, isHira c = true := by
  unfold find_word at h
  cases hf : d.entries.find? (fun p => p.1 == w) with
  | none => rw [hf] at h; simp at h
  | some p =>
    rw [hf] at h
    exact d.readings_wf p (List.mem_of_find?_eq_some hf) r h

/-! ## Tokenizer (`_tokenize_orig_line` in `core/ruby/__init__.py`) -/

/-- Maximal runs of characters of one `get_char_type` class (the inner
decomposition loop of `_tokenize_orig_line`).  Computed by a right fold;
maximal same-class runs are direction-independent, so this equals the
left-to-right scan of the source. -/
def runsOf : Str → List Str
  | [] => []
  | c :: rest =>
    match runsOf rest with
    | [] => [[c]]
    | r :: rs =>
      match r with
      | [] => [c] :: rs
      | x :: _ =>
        if get_char_type x = get_char_type c then (c :: r) :: rs
        else [c] :: r :: rs

/-- Tokens for the decomposed runs of one dictionary match, all sharing
`group_id = gid`, starting at position `pos`. -/
def tokensOfRuns (pos gid : Nat) : List Str → List Token
  | [] => []
  | r :: rs =>
    match r with
    | [] => tokensOfRuns pos gid rs
    | c :: _ =>
      Token.mk r (get_char_type c) pos (pos + r.length) (some gid) ::
      tokensOfRuns (pos + r.length) gid rs

/-- The scanning loop of `_tokenize_orig_line`: greedy longest dictionary
match (decomposed into same-class runs sharing a fresh `group_id`),
falling back to one maximal same-class run with no `group_id`.  `fuel`
bounds the number of iterations; every iteration consumes at least one
character, so any `fuel ≥ s.length` computes the full loop. -/
def tokenize_loop (d : JpDict) (fuel : Nat) (s : Str) (i gid : Nat) :
    List Token :=
  match fuel with
  | 0 => []
  | fuel + 1 =>
    match s with
    | [] => []
    | c :: rest =>
      match find_all_prefix_matches d (c :: rest) with
      | m :: _ =>
        tokensOfRuns i (gid + 1) (runsOf m.1) ++
        tokenize_loop d fuel ((c :: rest).drop m.1.length) (i + m.1.length)
          (gid + 1)
      | [] =>
        let run := rest.takeWhile (fun x => get_char_type x = get_char_type c)
        Token.mk (c :: run) (get_char_type c) i (i + run.length + 1) none ::
        tokenize_loop d fuel (rest.drop run.length) (i + run.length + 1) gid

/-- The merge pass of `_tokenize_orig_line`: adjacent `OTHER` tokens
without a `group_id` are fused.  Computed by a right fold; fusing a
maximal run of such tokens is associative, so this equals the
left-to-right merge of the source. -/
def merge_other : List Token → List Token
  | [] => []
  | t :: ts =>
    match merge_other ts with
    | [] => [t]
    | u :: us =>
      if t.char_type = CharType.OTHER ∧ u.char_type = CharType.OTHER ∧
         t.group_id = none ∧ u.group_id = none then
        Token.mk (t.text ++ u.text) CharType.OTHER t.start u.stop none :: us
      else t :: u :: us

/-- `_tokenize_orig_line` from `core/ruby/__init__.py`. -/
def tokenize_orig_line (d : JpDict) (s : Str) : List Token :=
  merge_other (tokenize_loop d s.length s 0 0)

/-! ## Tokenizer invariants (C6) -/

/-- The token list starting at offset `o` tiles the range up to `n`:
each token starts where the previous one stopped, is non-degenerate, and
its width equals its text length; the last token stops exactly at `n`. -/
def TokensSeq (o : Nat) : List Token → Nat → Prop
  | [], n => o = n
  | t :: ts, n =>
    t.start = o ∧ t.stop = t.start + t.text.length ∧ t.text ≠ [] ∧
    TokensSeq t.stop ts n

theorem TokensSeq_append {o m n : Nat} :
    ∀ {A B : List Token}, TokensSeq o A m → TokensSeq m B n →
      TokensSeq o (A ++ B) n := by
  intro A
  induction A generalizing o with
  | nil =>
    intro B hA hB
    simp only [TokensSeq] at hA
    subst hA
    simpa using hB
  | cons t ts ih =>
    intro B hA hB
    obtain ⟨h1, h2, h3, h4⟩ := hA
    exact ⟨h1, h2, h3, ih h4 hB⟩

theorem runsOf_flatten : ∀ (s : Str), (runsOf s).flatten = s := by
  intro s
  induction s with
  | nil => rfl
  | cons c rest ih =>
    simp only [runsOf]
    cases hr : runsOf rest with
    | nil =>
      rw [hr] at ih
      simp at ih
      simp [ih]
    | cons r rs =>
      rw [hr] at ih
      cases r with
      | nil =>
        simp only [List.flatten] at ih ⊢
        simpa using ih
      | cons x xr =>
        by_cases hx : get_char_type x = get_char_type c
        · simp only [if_pos hx, List.flatten_cons] at ih ⊢
          simp [← ih]
        · simp only [if_neg hx, List.flatten_cons] at ih ⊢
          simp [← ih]

theorem runsOf_ne : ∀ (s : Str), ∀ r ∈ runsOf s, r ≠ [] := by
  intro s
  induction s with
  | nil => intro r hr; simp [runsOf] at hr
  | cons c rest ih =>
    intro r hr
    simp only [runsOf] at hr
    cases hrr : runsOf rest with
    | nil =>
      rw [hrr] at hr
      simp at hr
      simp [hr]
    | cons r0 rs =>
      rw [hrr] at hr
      cases r0 with
      | nil =>
        rcases List.mem_cons.1 hr with rfl | hmem
        · simp
        · exact ih r (by rw [hrr]; simp [hmem])
      | cons x xr =>
        by_cases hx : get_char_type x = get_char_type c <;>
          simp only [if_pos, if_neg, hx] at hr
        · rcases List.mem_cons.1 hr with rfl | hmem
          · simp
          · exact ih r (by rw [hrr]; simp [hmem])
        · rcases List.mem_cons.1 hr with rfl | hmem
          · simp
          · exact ih r (by rw [hrr]; simp [hmem])

theorem tokensOfRuns_seq (gid : Nat) :
    ∀ (rs : List Str) (pos : Nat), (∀ r ∈ rs, r ≠ []) →
      TokensSeq pos (tokensOfRuns pos gid rs) (pos + rs.flatten.length) := by
  intro rs
  induction rs with
  | nil => intro pos h; simp [tokensOfRuns, TokensSeq]
  | cons r rs ih =>
    intro pos h
    cases hr : r with
    | nil => exact absurd hr (h r (by simp))
    | cons c cr =>
      simp only [tokensOfRuns]
      refine ⟨rfl, rfl, by simp, ?_⟩
      have h2 := ih (pos + (c :: cr).length) (fun x hx => h x (by simp [hx]))
      have harith : pos + ((c :: cr) :: rs).flatten.length =
          pos + (c :: cr).length + rs.flatten.length := by
        simp only [List.flatten_cons, List.length_append]
        omega
      rw [harith]
      exact h2

theorem tokensOfRuns_gid (gid : Nat) :
    ∀ (rs : List Str) (pos : Nat), ∀ t ∈ tokensOfRuns pos gid rs,
      t.group_id = some gid := by
  intro rs
  induction rs with
  | nil => intro pos t ht; simp [tokensOfRuns] at ht
  | cons r rs ih =>
    intro pos t ht
    cases r with
    | nil => exact ih pos t ht
    | cons c cr =>
      rcases List.mem_cons.1 ht with rfl | hmem
      · rfl
      · exact ih _ t hmem

theorem tokenize_loop_seq (d : JpDict) :
    ∀ (fuel : Nat) (s : Str) (i gid : Nat), s.length ≤ fuel →
      TokensSeq i (tokenize_loop d fuel s i gid) (i + s.length) := by
  intro fuel
  induction fuel with
  | zero =>
    intro s i gid hlen
    have : s = [] := List.length_eq_zero.1 (Nat.le_zero.1 hlen)
    subst this
    simp [tokenize_loop, TokensSeq]
  | succ fuel ih =>
    intro s i gid hlen
    cases s with
    | nil => simp [tokenize_loop, TokensSeq]
    | cons c rest =>
      rw [tokenize_loop]
      cases hm : find_all_prefix_matches d (c :: rest) with
      | cons m ms =>
        obtain ⟨hmem, hne, hpre⟩ :=
          mem_find_all_prefix_matches d (c :: rest) m (by rw [hm]; simp)
        have hlen_m : m.1.length ≤ (c :: rest).length :=
          (List.IsPrefix.length_le (by simpa using hpre))
        have hm1 : 1 ≤ m.1.length := List.length_pos.2 hne
        have hA : TokensSeq i (tokensOfRuns i (gid + 1) (runsOf m.1))
            (i + m.1.length) := by
          have := tokensOfRuns_seq (gid + 1) (runsOf m.1) i (runsOf_ne m.1)
          rwa [runsOf_flatten m.1] at this
        have hB := ih ((c :: rest).drop m.1.length) (i + m.1.length) (gid + 1)
          (by simp only [List.length_drop]
              simp only [List.length_cons] at hlen ⊢
              omega)
        have hdrop : ((c :: rest).drop m.1.length).length =
            (c :: rest).length - m.1.length := by simp
        rw [hdrop] at hB
        have := TokensSeq_append hA hB
        have harith : i + m.1.length + ((c :: rest).length - m.1.length) =
            i + (c :: rest).length := by omega
        rwa [harith] at this
      | nil =>
        refine ⟨rfl, by simp; omega, by simp, ?_⟩
        have hrun : (rest.takeWhile
            (fun x => get_char_type x = get_char_type c)).length ≤ rest.length :=
          (List.takeWhile_sublist _).length_le
        have hB := ih (rest.drop (rest.takeWhile
            (fun x => get_char_type x = get_char_type c)).length)
          (i + (rest.takeWhile
            (fun x => get_char_type x = get_char_type c)).length + 1) gid
          (by simp only [List.length_drop]
              simp only [List.length_cons] at hlen
              omega)
        simp only [List.length_drop] at hB
        have harith : i + (rest.takeWhile
            (fun x => get_char_type x = get_char_type c)).length + 1 +
            (rest.length - (rest.takeWhile
              (fun x => get_char_type x = get_char_type c)).length) =
            i + (c :: rest).length := by
          simp only [List.length_cons]
          omega
        rwa [harith] at hB

/-- The block structure of the tokenizer's output relative to the group
counter `g`: runs of tokens sharing one fresh `group_id` (strictly above
the counter at their creation), interleaved with tokens carrying no
`group_id`. -/
inductive Blocks : Nat → List Token → Prop
  | nil (g : Nat) : Blocks g []
  | group (g g' : Nat) (ts rest : List Token) :
      g < g' → (∀ t ∈ ts, t.group_id = some g') →
      Blocks g' rest → Blocks g (ts ++ rest)
  | single (g : Nat) (t : Token) (rest : List Token) :
      t.group_id = none → Blocks g rest → Blocks g (t :: rest)

theorem blocks_gid_lt {g : Nat} {l : List Token} (h : Blocks g l) :
    ∀ t ∈ l, ∀ h', t.group_id = some h' → g < h' := by
  induction h with
  | nil => intro t ht; simp at ht
  | group g g' ts rest hlt hall hrest ih =>
    intro t ht h' hgid
    rcases List.mem_append.1 ht with ht | ht
    · rw [hall t ht] at hgid
      obtain rfl : g' = h' := by simpa using hgid
      exact hlt
    · exact lt_trans hlt (ih t ht h' hgid)
  | single g t rest hnone hrest ih =>
    intro u hu h' hgid
    rcases List.mem_cons.1 hu with rfl | hu
    · rw [hnone] at hgid; simp at hgid
    · exact ih u hu h' hgid

theorem blocks_le {g g' : Nat} {l : List Token} (hle : g ≤ g')
    (h : Blocks g' l) : Blocks g l := by
  induction h generalizing g with
  | nil => exact Blocks.nil g
  | group g0 g1 ts rest hlt hall hrest ih =>
    exact Blocks.group g g1 ts rest (lt_of_le_of_lt hle hlt) hall hrest
  | single g0 t rest hnone hrest ih =>
    exact Blocks.single g t rest hnone (ih hle)

theorem blocks_cons_none {g : Nat} {x : Token} {l : List Token}
    (h : Blocks g (x :: l)) (hx : x.group_id = none) : Blocks g l := by
  generalize hm : x :: l = m at h
  induction h generalizing x l with
  | nil => simp at hm
  | group g0 g1 ts rest hlt hall hrest ih =>
    cases ts with
    | nil =>
      simp only [List.nil_append] at hm
      exact blocks_le (le_of_lt hlt) (ih hx hm)
    | cons t0 ts' =>
      simp only [List.cons_append, List.cons.injEq] at hm
      obtain ⟨rfl, h2⟩ := hm
      rw [hall x (by simp)] at hx
      simp at hx
  | single g0 t rest hnone hrest ih =>
    obtain ⟨rfl, rfl⟩ : t = x ∧ rest = l := by
      constructor <;> [injection hm with h1 _; injection hm with _ h2] <;>
        simp_all
    exact hrest

theorem tokenize_loop_blocks (d : JpDict) :
    ∀ (fuel : Nat) (s : Str) (i gid : Nat),
      Blocks gid (tokenize_loop d fuel s i gid) := by
  intro fuel
  induction fuel with
  | zero => intro s i gid; exact Blocks.nil gid
  | succ fuel ih =>
    intro s i gid
    cases s with
    | nil => exact Blocks.nil gid
    | cons c rest =>
      rw [tokenize_loop]
      cases hm : find_all_prefix_matches d (c :: rest) with
      | cons m ms =>
        exact Blocks.group gid (gid + 1) _ _ (by omega)
          (fun t ht => tokensOfRuns_gid (gid + 1) (runsOf m.1) i t ht)
          (ih _ _ _)
      | nil =>
        exact Blocks.single gid _ _ rfl (ih _ _ _)

theorem merge_other_cons (t : Token) (ts : List Token) :
    merge_other (t :: ts) =
      match merge_other ts with
      | [] => [t]
      | u :: us =>
        if t.char_type = CharType.OTHER ∧ u.char_type = CharType.OTHER ∧
           t.group_id = none ∧ u.group_id = none then
          Token.mk (t.text ++ u.text) CharType.OTHER t.start u.stop none :: us
        else t :: u :: us := rfl

theorem merge_other_ne (l : List Token) (h : l ≠ []) : merge_other l ≠ [] := by
  cases l with
  | nil => exact absurd rfl h
  | cons t ts =>
    rw [merge_other_cons]
    cases hmr : merge_other ts with
    | nil => simp
    | cons u us =>
      by_cases hc : t.char_type = CharType.OTHER ∧ u.char_type = CharType.OTHER ∧
          t.group_id = none ∧ u.group_id = none
      · simp [hc]
      · simp [hc]

theorem merge_other_cons_some (t : Token) (l : List Token) (g' : Nat)
    (h : t.group_id = some g') : merge_other (t :: l) = t :: merge_other l := by
  rw [merge_other_cons]
  cases hmr : merge_other l with
  | nil => rfl
  | cons u us =>
    have hc : ¬(t.char_type = CharType.OTHER ∧ u.char_type = CharType.OTHER ∧
        t.group_id = none ∧ u.group_id = none) := by
      rintro ⟨-, -, hnone, -⟩
      rw [h] at hnone
      exact Option.some_ne_none g' hnone
    simp [hc]

theorem merge_other_append_group (ts : List Token) (g' : Nat)
    (hall : ∀ t ∈ ts, t.group_id = some g') (rest : List Token) :
    merge_other (ts ++ rest) = ts ++ merge_other rest := by
  induction ts with
  | nil => rfl
  | cons x ts' ih =>
    rw [List.cons_append,
      merge_other_cons_some x (ts' ++ rest) g' (hall x (by simp)),
      ih (fun t ht => hall t (by simp [ht]))]
    rfl

theorem merge_other_blocks {g : Nat} {l : List Token} (h : Blocks g l) :
    Blocks g (merge_other l) := by
  induction h with
  | nil => exact Blocks.nil _
  | group g0 g1 ts rest hlt hall hrest ih =>
    rw [merge_other_append_group ts g1 hall rest]
    exact Blocks.group g0 g1 ts (merge_other rest) hlt hall ih
  | single g0 t rest hnone hrest ih =>
    cases hmr : merge_other rest with
    | nil =>
      have hred : merge_other (t :: rest) = [t] := by
        rw [merge_other_cons, hmr]
      rw [hred]
      exact Blocks.single g0 t [] hnone (Blocks.nil g0)
    | cons u us =>
      rw [hmr] at ih
      by_cases hc : t.char_type = CharType.OTHER ∧ u.char_type = CharType.OTHER ∧
          t.group_id = none ∧ u.group_id = none
      · have hred : merge_other (t :: rest) =
            Token.mk (t.text ++ u.text) CharType.OTHER t.start u.stop none :: us := by
          rw [merge_other_cons, hmr]; simp [hc]
        rw [hred]
        exact Blocks.single g0 _ us rfl (blocks_cons_none ih hc.2.2.2)
      · have hred : merge_other (t :: rest) = t :: u :: us := by
          rw [merge_other_cons, hmr]; simp [hc]
        rw [hred]
        exact Blocks.single g0 t (u :: us) hnone ih

theorem merge_other_seq :
    ∀ (l : List Token) (o n : Nat), TokensSeq o l n →
      TokensSeq o (merge_other l) n := by
  intro l
  induction l with
  | nil => intro o n h; exact h
  | cons t ts ih =>
    intro o n h
    obtain ⟨h1, h2, h3, h4⟩ := h
    cases hmr : merge_other ts with
    | nil =>
      have hts : ts = [] := by
        by_contra hne
        exact merge_other_ne ts hne hmr
      subst hts
      have hred : merge_other [t] = [t] := rfl
      rw [hred]
      simp only [TokensSeq] at h4
      exact ⟨h1, h2, h3, h4⟩
    | cons u us =>
      have ihts := ih t.stop n h4
      rw [hmr] at ihts
      obtain ⟨hu1, hu2, hu3, hu4⟩ := ihts
      by_cases hc : t.char_type = CharType.OTHER ∧ u.char_type = CharType.OTHER ∧
          t.group_id = none ∧ u.group_id = none
      · have hred : merge_other (t :: ts) =
            Token.mk (t.text ++ u.text) CharType.OTHER t.start u.stop none :: us := by
          rw [merge_other_cons, hmr]; simp [hc]
        rw [hred]
        refine ⟨h1, ?_, by simp [h3], hu4⟩
        simp only [List.length_append]
        omega
      · have hred : merge_other (t :: ts) = t :: u :: us := by
          rw [merge_other_cons, hmr]; simp [hc]
        rw [hred]
        exact ⟨h1, h2, h3, hu1, hu2, hu3, hu4⟩

theorem blocks_convex {g : Nat} {l : List Token} (h : Blocks g l) :
    ∀ g0 : Nat, ∃ pre mid post,
      l = pre ++ mid ++ post ∧ (∀ t ∈ mid, t.group_id = some g0) ∧
      (∀ t ∈ pre ++ post, t.group_id ≠ some g0) := by
  induction h with
  | nil => exact fun g0 => ⟨[], [], [], rfl, by simp, by simp⟩
  | group g1 g' ts rest hlt hall hrest ih =>
    intro g0
    by_cases hg : g0 = g'
    · subst hg
      refine ⟨[], ts, rest, by simp, hall, ?_⟩
      intro t ht hgid
      rcases List.mem_append.1 ht with ht | ht
      · simp at ht
      · have := blocks_gid_lt hrest t ht g0 hgid
        omega
    · obtain ⟨p, m, q, heq, hmid, hout⟩ := ih g0
      have heq2 : ts ++ rest = (ts ++ p) ++ m ++ q := by rw [heq]; simp
      refine ⟨ts ++ p, m, q, heq2, hmid, ?_⟩
      intro t ht hgid
      rcases List.mem_append.1 ht with ht | ht
      · rcases List.mem_append.1 ht with ht | ht
        · rw [hall t ht] at hgid
          exact hg (Option.some.inj hgid).symm
        · exact hout t (by simp [ht]) hgid
      · exact hout t (by simp [ht]) hgid
  | single g1 t rest hnone hrest ih =>
    intro g0
    obtain ⟨p, m, q, heq, hmid, hout⟩ := ih g0
    have heq2 : t :: rest = (t :: p) ++ m ++ q := by rw [heq]; simp
    refine ⟨t :: p, m, q, heq2, hmid, ?_⟩
    intro u hu hgid
    rcases List.mem_append.1 hu with hu | hu
    · rcases List.mem_cons.1 hu with rfl | hu
      · rw [hnone] at hgid; simp at hgid
      · exact hout u (by simp [hu]) hgid
    · exact hout u (by simp [hu]) hgid

/-- C6: for every normalized line text, one tokenization pass yields an
ordered, gap-free, non-overlapping token list — the first token starts
at offset 0, every token starts where the previous one stopped, spans
exactly its text, and the last token stops at the input length — and for
every group id the tokens carrying it form one contiguous run of the
list. -/
theorem tokenize_orig_line_spec (d : JpDict) (s : Str) :
    TokensSeq 0 (tokenize_orig_line d s) s.length ∧
    ∀ g : Nat, ∃ pre mid post,
      tokenize_orig_line d s = pre ++ mid ++ post ∧
      (∀ t ∈ mid, t.group_id = some g) ∧
      (∀ t ∈ pre ++ post, t.group_id ≠ some g) := by
  constructor
  · have := tokenize_loop_seq d s.length s 0 0 le_rfl
    simpa [tokenize_orig_line] using merge_other_seq _ 0 s.length (by simpa using this)
  · exact blocks_convex (merge_other_blocks (tokenize_loop_blocks d s.length s 0 0))

/-! ## Rule library (`core/ruby/rules.py`) -/

/-- `VOWEL_MAP` from `core/ruby/rules.py`: kana → vowel class. -/
def VOWEL_MAP : List (Char × Char) := [
  ('あ', 'あ'), ('か', 'あ'), ('さ', 'あ'), ('た', 'あ'), ('な', 'あ'), ('は', 'あ'),
  ('ま', 'あ'), ('や', 'あ'), ('ら', 'あ'), ('わ', 'あ'),
  ('が', 'あ'), ('ざ', 'あ'), ('だ', 'あ'), ('ば', 'あ'), ('ぱ', 'あ'), ('ゃ', 'あ'),
  ('ぁ', 'あ'), ('ゎ', 'あ'),
  ('い', 'い'), ('き', 'い'), ('し', 'い'), ('ち', 'い'), ('に', 'い'), ('ひ', 'い'),
  ('み', 'い'), ('り', 'い'),
  ('ぎ', 'い'), ('じ', 'い'), ('ぢ', 'い'), ('び', 'い'), ('ぴ', 'い'), ('ぃ', 'い'),
  ('う', 'う'), ('く', 'う'), ('す', 'う'), ('つ', 'う'), ('ぬ', 'う'), ('ふ', 'う'),
  ('む', 'う'), ('ゆ', 'う'), ('る', 'う'),
  ('ぐ', 'う'), ('ず', 'う'), ('づ', 'う'), ('ぶ', 'う'), ('ぷ', 'う'), ('ゅ', 'う'),
  ('ぅ', 'う'),
  ('え', 'え'), ('け', 'え'), ('せ', 'え'), ('て', 'え'), ('ね', 'え'), ('へ', 'え'),
  ('め', 'え'), ('れ', 'え'),
  ('げ', 'え'), ('ぜ', 'え'), ('で', 'え'), ('べ', 'え'), ('ぺ', 'え'), ('ぇ', 'え'),
  ('お', 'お'), ('こ', 'お'), ('そ', 'お'), ('と', 'お'), ('の', 'お'), ('ほ', 'お'),
  ('も', 'お'), ('よ', 'お'), ('ろ', 'お'), ('を', 'お'),
  ('ご', 'お'), ('ぞ', 'お'), ('ど', 'お'), ('ぼ', 'お'), ('ぽ', 'お'), ('ょ', 'お'),
  ('ぉ', 'お')]

/-- `VOWEL_MAP.get(prev_char)`. -/
def vowel_map_get (c : Char) : Option Char :=
  (VOWEL_MAP.find? (fun p => p.1 = c)).map (fun p => p.2)

/-- The previous-token context used by `_handle_long_vowel` when `ー`
starts the anchor: the last character of the preceding token's text,
converted to hiragana (`tokens.index(current_token)` with the
`ValueError` → no-context fallback of the source). -/
def hlv_context (tokens : List Token) (current : Token) : Option Char :=
  match tokens.indexOf? current with
  | some idx =>
    if 0 < idx then
      match tokens[idx - 1]? with
      | some pt =>
        match pt.text.getLast? with
        | some lastc => some ((katakana_to_hiragana [lastc]).headD lastc)
        | none => none
      | none => none
    else none
  | none => none

/-- The character-by-character loop of `_handle_long_vowel`; `prev` is
the previous character of the original anchor. -/
def handle_long_vowel_go (tokens : List Token) (current : Token)
    (prev : Option Char) : Str → Str
  | [] => []
  | c :: rest =>
    if c ≠ 'ー' then c :: handle_long_vowel_go tokens current (some c) rest
    else
      match (match prev with
             | some p => some p
             | none => hlv_context tokens current).bind vowel_map_get with
      | some v => v :: handle_long_vowel_go tokens current (some c) rest
      | none => 'ー' :: handle_long_vowel_go tokens current (some c) rest

/-- `_handle_long_vowel` from `core/ruby/rules.py`. -/
def handle_long_vowel (anchor : Str) (tokens : List Token) (current : Token) :
    Str :=
  if !anchor.contains 'ー' then anchor
  else handle_long_vowel_go tokens current none anchor

/-- `RuleType`/`MatchRule.content` from `core/ruby/models.py` as a closed
sum: a plain substitution or a context-aware function rule. -/
inductive RuleContent where
  | subst (frm toS : Str)
  | func (f : Str → List Token → Token → Str)

/-- `MatchRule` from `core/ruby/models.py`; `introduced_chars` is used
only through membership, so a character list models the set. -/
structure MatchRule where
  name : String
  cost : Int
  content : RuleContent
  introduced_chars : Str

def COST_EQUIVALENT : Int := 0
def COST_COMMON_VARIANT : Int := 1
def COST_RARE_VARIANT : Int := 2

/-- `_create_substitution_rules` from `core/ruby/rules.py`. -/
def create_substitution_rules (pairs : List (Str × Str)) (base_name : String)
    (cost_a_to_b cost_b_to_a : Int) : List MatchRule :=
  pairs.flatMap (fun p =>
    [MatchRule.mk (base_name ++ "_" ++ String.mk p.1 ++ "_to_" ++ String.mk p.2)
       cost_a_to_b (RuleContent.subst p.1 p.2) p.2,
     MatchRule.mk (base_name ++ "_" ++ String.mk p.2 ++ "_to_" ++ String.mk p.1)
       cost_b_to_a (RuleContent.subst p.2 p.1) p.1])

def o_dan : Str := (VOWEL_MAP.filter (fun p => p.2 = 'お')).map (fun p => p.1)

def e_dan : Str := (VOWEL_MAP.filter (fun p => p.2 = 'え')).map (fun p => p.1)

def long_vowel_pairs : List (Str × Str) :=
  o_dan.map (fun c => ([c, 'う'], [c, 'お'])) ++
  e_dan.map (fun c => ([c, 'い'], [c, 'え']))

def long_vowel_rules : List MatchRule :=
  create_substitution_rules long_vowel_pairs "long_vowel"
    COST_EQUIVALENT COST_EQUIVALENT

def small_to_large_pairs : List (Str × Str) := [
  ("ぁ".toList, "あ".toList), ("ぃ".toList, "い".toList), ("ぅ".toList, "う".toList),
  ("ぇ".toList, "え".toList), ("ぉ".toList, "お".toList),
  ("ゃ".toList, "や".toList), ("ゅ".toList, "ゆ".toList), ("ょ".toList, "よ".toList),
  ("っ".toList, "つ".toList), ("ゎ".toList, "わ".toList)]

def kana_variation_rules : List MatchRule :=
  create_substitution_rules small_to_large_pairs "kana_variation"
    COST_COMMON_VARIANT COST_RARE_VARIANT

def voicing_pairs : List (Str × Str) := [
  ("か".toList, "が".toList), ("き".toList, "ぎ".toList), ("く".toList, "ぐ".toList),
  ("け".toList, "げ".toList), ("こ".toList, "ご".toList),
  ("さ".toList, "ざ".toList), ("し".toList, "じ".toList), ("す".toList, "ず".toList),
  ("せ".toList, "ぜ".toList), ("そ".toList, "ぞ".toList),
  ("た".toList, "だ".toList), ("ち".toList, "ぢ".toList), ("つ".toList, "づ".toList),
  ("て".toList, "で".toList), ("と".toList, "ど".toList),
  ("は".toList, "ば".toList), ("ひ".toList, "び".toList), ("ふ".toList, "ぶ".toList),
  ("へ".toList, "べ".toList), ("ほ".toList, "ぼ".toList),
  ("は".toList, "ぱ".toList), ("ひ".toList, "ぴ".toList), ("ふ".toList, "ぷ".toList),
  ("へ".toList, "ぺ".toList), ("ほ".toList, "ぽ".toList),
  ("ば".toList, "ぱ".toList), ("び".toList, "ぴ".toList), ("ぶ".toList, "ぷ".toList),
  ("べ".toList, "ぺ".toList), ("ぼ".toList, "ぽ".toList)]

def voicing_rules : List MatchRule :=
  create_substitution_rules voicing_pairs "voicing"
    COST_RARE_VARIANT COST_RARE_VARIANT

/-- `ALL_RULES` from `core/ruby/rules.py`, in source order. -/
def ALL_RULES : List MatchRule :=
  [MatchRule.mk "particle_ha_to_wa" COST_EQUIVALENT
     (RuleContent.subst "は".toList "わ".toList) "わ".toList,
   MatchRule.mk "particle_he_to_e" COST_EQUIVALENT
     (RuleContent.subst "へ".toList "え".toList) "え".toList,
   MatchRule.mk "particle_wo_to_o" COST_EQUIVALENT
     (RuleContent.subst "を".toList "お".toList) "お".toList] ++
  create_substitution_rules [("づ".toList, "ず".toList), ("ぢ".toList, "じ".toList)]
    "homophone" COST_EQUIVALENT COST_EQUIVALENT ++
  long_vowel_rules ++
  create_substitution_rules [("でぃ".toList, "ぢ".toList), ("でゅ".toList, "づ".toList)]
    "special_reading" COST_EQUIVALENT COST_EQUIVALENT ++
  [MatchRule.mk "long_vowel_expand" COST_EQUIVALENT
     (RuleContent.func handle_long_vowel) "あいうえお".toList] ++
  [MatchRule.mk "sokuon_omission" COST_COMMON_VARIANT
     (RuleContent.subst "っ".toList []) [],
   MatchRule.mk "sokuon_to_tsu" COST_COMMON_VARIANT
     (RuleContent.subst "っ".toList "つ".toList) "つ".toList,
   MatchRule.mk "hatsuon_omission" COST_COMMON_VARIANT
     (RuleContent.subst "ん".toList []) []] ++
  kana_variation_rules ++
  [MatchRule.mk "long_vowel_omission" COST_RARE_VARIANT
     (RuleContent.subst "ー".toList []) []] ++
  voicing_rules

/-! ## VariantRuleEngine (`_generate_variants` in `core/ruby/_logic.py`) -/

/-- Python `str.replace(frm, to)`: replace every non-overlapping
occurrence, left to right.  `fuel` bounds the number of scan steps; each
step consumes at least one character when `frm` is non-empty (every rule
of `ALL_RULES` has a non-empty pattern), so `fuel = s.length` computes
the full replacement. -/
def replace_fuel (frm toS : Str) : Nat → Str → Str
  | 0, s => s
  | _, [] => []
  | fuel + 1, c :: rest =>
    if frm.isPrefixOf (c :: rest) then
      toS ++ replace_fuel frm toS fuel ((c :: rest).drop frm.length)
    else c :: replace_fuel frm toS fuel rest

/-- Python `text.replace(frm, to)` (for non-empty `frm`). -/
def py_replace (s frm toS : Str) : Str :=
  if frm = [] then s else replace_fuel frm toS s.length s

/-- Python `frm in text`: substring test. -/
def is_sub_of (frm : Str) : Str → Bool
  | [] => frm == []
  | c :: rest => frm.isPrefixOf (c :: rest) || is_sub_of frm rest

/-- A `(variant text, cost, applied rule names)` entry; the list keeps
Python's dict insertion order. -/
abbrev VarEntry := Str × Int × List String

def lookup_var (t : Str) (l : List VarEntry) : Bool := l.any (fun e => e.1 == t)

/-- The result of applying one rule to one variant text (`text.replace`
for a substitution, the transform call for a function rule). -/
def apply_rule_text (tokens : List Token) (current : Token)
    (rule : MatchRule) (t : Str) : Str :=
  match rule.content with
  | RuleContent.subst frm toS => py_replace t frm toS
  | RuleContent.func f => f t tokens current

/-- The body of the inner `for text, (cost, reasons) in variants.items()`
loop of `_generate_variants`, building `new_variants` in insertion
order. -/
def var_step (tokens : List Token) (current : Token) (rule : MatchRule)
    (variants acc : List VarEntry) (e : VarEntry) : List VarEntry :=
  match rule.content with
  | RuleContent.subst frm toS =>
    if is_sub_of frm e.1 then
      if !lookup_var (py_replace e.1 frm toS) variants &&
         !lookup_var (py_replace e.1 frm toS) acc then
        acc ++ [(py_replace e.1 frm toS, e.2.1 + rule.cost, e.2.2 ++ [rule.name])]
      else acc
    else acc
  | RuleContent.func f =>
    if f e.1 tokens current ≠ e.1 &&
       !lookup_var (f e.1 tokens current) variants &&
       !lookup_var (f e.1 tokens current) acc then
      acc ++ [(f e.1 tokens current, e.2.1 + rule.cost, e.2.2 ++ [rule.name])]
    else acc

/-- One pass of the rule loop in `_generate_variants`: apply `rule` to
every variant collected so far, adding newly produced distinct strings
(`variants.update(new_variants)` appends in insertion order). -/
def apply_rule_pass (tokens : List Token) (current : Token)
    (variants : List VarEntry) (rule : MatchRule) : List VarEntry :=
  variants ++ variants.foldl (var_step tokens current rule variants) []

/-- Stable insertion into a list sorted by cost, ascending (Python's
stable `sorted(result, key=lambda x: x[1])`). -/
def insert_by_cost (x : VarEntry) : List VarEntry → List VarEntry
  | [] => [x]
  | y :: ys => if x.2.1 < y.2.1 then x :: y :: ys else y :: insert_by_cost x ys

def sort_by_cost (l : List VarEntry) : List VarEntry :=
  l.foldl (fun acc x => insert_by_cost x acc) []

/-- The rule pre-filter of `_generate_variants`: rules that introduce no
characters, or whose introduced characters meet the match target. -/
def applicable_rules (hira_for_match : Str) : List MatchRule :=
  ALL_RULES.filter (fun r =>
    r.introduced_chars = [] || r.introduced_chars.any (fun c => hira_for_match.contains c))

/-- `_generate_variants` from `core/ruby/_logic.py`. -/
def generate_variants (base : Str) (tokens : List Token) (current : Token)
    (hira_for_match : Str) : List VarEntry :=
  let variants := (applicable_rules hira_for_match).foldl
    (apply_rule_pass tokens current) [(base, 0, ["base"])]
  sort_by_cost (variants.map (fun e => (e.1, e.2.1, e.2.2.drop 1)))

/-! ## VariantRuleEngine invariants (C7) -/

theorem mem_insert_by_cost (x z : VarEntry) :
    ∀ (l : List VarEntry), z ∈ insert_by_cost x l ↔ z = x ∨ z ∈ l := by
  intro l
  induction l with
  | nil => simp [insert_by_cost]
  | cons y ys ih =>
    by_cases h : x.2.1 < y.2.1
    · simp [insert_by_cost, h]
    · simp only [insert_by_cost, if_neg h, List.mem_cons, ih]
      tauto

theorem mem_sort_by_cost (l : List VarEntry) (z : VarEntry) :
    z ∈ sort_by_cost l ↔ z ∈ l := by
  suffices h : ∀ (acc : List VarEntry),
      z ∈ l.foldl (fun acc x => insert_by_cost x acc) acc ↔ z ∈ acc ∨ z ∈ l by
    simpa [sort_by_cost] using h []
  induction l with
  | nil => intro acc; simp
  | cons y ys ih =>
    intro acc
    simp only [List.foldl_cons, ih, mem_insert_by_cost, List.mem_cons]
    tauto

theorem insert_by_cost_sorted (x : VarEntry) (l : List VarEntry)
    (h : l.Pairwise (fun a b : VarEntry => a.2.1 ≤ b.2.1)) :
    (insert_by_cost x l).Pairwise (fun a b : VarEntry => a.2.1 ≤ b.2.1) := by
  induction l with
  | nil => simp [insert_by_cost]
  | cons y ys ih =>
    rw [List.pairwise_cons] at h
    by_cases hlt : x.2.1 < y.2.1
    · rw [insert_by_cost, if_pos hlt, List.pairwise_cons]
      refine ⟨?_, List.pairwise_cons.2 h⟩
      intro z hz
      rcases List.mem_cons.1 hz with rfl | hz
      · omega
      · have := h.1 z hz
        omega
    · rw [insert_by_cost, if_neg hlt, List.pairwise_cons]
      refine ⟨?_, ih h.2⟩
      intro z hz
      rcases (mem_insert_by_cost x z ys).1 hz with rfl | hz
      · omega
      · exact h.1 z hz

theorem sort_by_cost_sorted (l : List VarEntry) :
    (sort_by_cost l).Pairwise (fun a b : VarEntry => a.2.1 ≤ b.2.1) := by
  suffices h : ∀ (acc : List VarEntry),
      acc.Pairwise (fun a b : VarEntry => a.2.1 ≤ b.2.1) →
      (l.foldl (fun acc x => insert_by_cost x acc) acc).Pairwise
        (fun a b : VarEntry => a.2.1 ≤ b.2.1) by
    exact h [] (by simp)
  induction l with
  | nil => intro acc hacc; simpa using hacc
  | cons y ys ih =>
    intro acc hacc
    exact ih _ (insert_by_cost_sorted y acc hacc)

theorem var_step_subst (tokens : List Token) (current : Token)
    (rule : MatchRule) (frm toS : Str)
    (hc : rule.content = RuleContent.subst frm toS)
    (variants acc : List VarEntry) (e : VarEntry) :
    var_step tokens current rule variants acc e =
      if is_sub_of frm e.1 = true then
        if (!lookup_var (py_replace e.1 frm toS) variants &&
            !lookup_var (py_replace e.1 frm toS) acc) = true then
          acc ++ [(py_replace e.1 frm toS, e.2.1 + rule.cost, e.2.2 ++ [rule.name])]
        else acc
      else acc := by
  unfold var_step
  rw [hc]

theorem var_step_func (tokens : List Token) (current : Token)
    (rule : MatchRule) (f : Str → List Token → Token → Str)
    (hc : rule.content = RuleContent.func f)
    (variants acc : List VarEntry) (e : VarEntry) :
    var_step tokens current rule variants acc e =
      if (decide (f e.1 tokens current ≠ e.1) &&
          !lookup_var (f e.1 tokens current) variants &&
          !lookup_var (f e.1 tokens current) acc) = true then
        acc ++ [(f e.1 tokens current, e.2.1 + rule.cost, e.2.2 ++ [rule.name])]
      else acc := by
  unfold var_step
  rw [hc]

theorem var_step_mem (tokens : List Token) (current : Token)
    (rule : MatchRule) (variants acc : List VarEntry) (e z : VarEntry)
    (hz : z ∈ var_step tokens current rule variants acc e) :
    z ∈ acc ∨ z = (apply_rule_text tokens current rule e.1,
      e.2.1 + rule.cost, e.2.2 ++ [rule.name]) := by
  cases hc : rule.content with
  | subst frm toS =>
    rw [var_step_subst tokens current rule frm toS hc] at hz
    by_cases h1 : is_sub_of frm e.1 = true
    · rw [if_pos h1] at hz
      by_cases h2 : (!lookup_var (py_replace e.1 frm toS) variants &&
          !lookup_var (py_replace e.1 frm toS) acc) = true
      · rw [if_pos h2] at hz
        rcases List.mem_append.1 hz with hz | hz
        · exact Or.inl hz
        · simp only [List.mem_singleton] at hz
          subst hz
          exact Or.inr (by simp [apply_rule_text, hc])
      · rw [if_neg h2] at hz; exact Or.inl hz
    · rw [if_neg h1] at hz; exact Or.inl hz
  | func f =>
    rw [var_step_func tokens current rule f hc] at hz
    by_cases h1 : (decide (f e.1 tokens current ≠ e.1) &&
        !lookup_var (f e.1 tokens current) variants &&
        !lookup_var (f e.1 tokens current) acc) = true
    · rw [if_pos h1] at hz
      rcases List.mem_append.1 hz with hz | hz
      · exact Or.inl hz
      · simp only [List.mem_singleton] at hz
        subst hz
        exact Or.inr (by simp [apply_rule_text, hc])
    · rw [if_neg h1] at hz; exact Or.inl hz

theorem foldl_var_step_mem (tokens : List Token) (current : Token)
    (rule : MatchRule) (variants : List VarEntry) :
    ∀ (l acc : List VarEntry),
      ∀ z ∈ l.foldl (var_step tokens current rule variants) acc,
        z ∈ acc ∨ ∃ e ∈ l, z = (apply_rule_text tokens current rule e.1,
          e.2.1 + rule.cost, e.2.2 ++ [rule.name]) := by
  intro l
  induction l with
  | nil => intro acc z hz; exact Or.inl hz
  | cons e l' ih =>
    intro acc z hz
    rcases ih _ z hz with hz' | ⟨e0, he0, heq⟩
    · rcases var_step_mem tokens current rule variants acc e z hz' with h | h
      · exact Or.inl h
      · exact Or.inr ⟨e, by simp, h⟩
    · exact Or.inr ⟨e0, by simp [he0], heq⟩

theorem apply_rule_pass_mem (tokens : List Token) (current : Token)
    (variants : List VarEntry) (rule : MatchRule) (z : VarEntry)
    (hz : z ∈ apply_rule_pass tokens current variants rule) :
    z ∈ variants ∨ ∃ e ∈ variants,
      z = (apply_rule_text tokens current rule e.1,
        e.2.1 + rule.cost, e.2.2 ++ [rule.name]) := by
  unfold apply_rule_pass at hz
  rcases List.mem_append.1 hz with hz | hz
  · exact Or.inl hz
  · rcases foldl_var_step_mem tokens current rule variants variants [] z hz with h | h
    · simp at h
    · exact Or.inr h

theorem apply_rule_pass_superset (tokens : List Token) (current : Token)
    (variants : List VarEntry) (rule : MatchRule) (z : VarEntry)
    (hz : z ∈ variants) : z ∈ apply_rule_pass tokens current variants rule := by
  unfold apply_rule_pass
  exact List.mem_append.2 (Or.inl hz)

/-- The chain of single rule applications deriving one variant text. -/
def chain_apply (tokens : List Token) (current : Token)
    (rs : List MatchRule) (base : Str) : Str :=
  rs.foldl (fun t r => apply_rule_text tokens current r t) base

theorem chain_apply_append (tokens : List Token) (current : Token)
    (rs : List MatchRule) (r : MatchRule) (base : Str) :
    chain_apply tokens current (rs ++ [r]) base =
      apply_rule_text tokens current r (chain_apply tokens current rs base) := by
  simp [chain_apply, List.foldl_append]

/-- A variant entry derived from `base` by at most one application of
each rule of `processed`, in order. -/
def Derived (tokens : List Token) (current : Token) (base : Str)
    (processed : List MatchRule) (e : VarEntry) : Prop :=
  ∃ rs : List MatchRule, rs.Sublist processed ∧
    e.1 = chain_apply tokens current rs base ∧
    e.2.1 = (rs.map MatchRule.cost).sum ∧
    e.2.2 = "base" :: rs.map MatchRule.name

theorem derived_weaken (tokens : List Token) (current : Token) (base : Str)
    (p q : List MatchRule) (hpq : p.Sublist q) (e : VarEntry)
    (h : Derived tokens current base p e) : Derived tokens current base q e := by
  obtain ⟨rs, hsub, h1, h2, h3⟩ := h
  exact ⟨rs, hsub.trans hpq, h1, h2, h3⟩

theorem rules_fold_derived (tokens : List Token) (current : Token) (base : Str) :
    ∀ (rules : List MatchRule) (pre : List MatchRule)
      (variants : List VarEntry),
      (∀ e ∈ variants, Derived tokens current base pre e) →
      ∀ z ∈ rules.foldl (apply_rule_pass tokens current) variants,
        Derived tokens current base (pre ++ rules) z := by
  intro rules
  induction rules with
  | nil =>
    intro pre variants hvar z hz
    simpa using hvar z hz
  | cons r rules' ih =>
    intro pre variants hvar z hz
    simp only [List.foldl_cons] at hz
    have hstep : ∀ e ∈ apply_rule_pass tokens current variants r,
        Derived tokens current base (pre ++ [r]) e := by
      intro e he
      rcases apply_rule_pass_mem tokens current variants r e he with he' | ⟨e0, he0, heq⟩
      · exact derived_weaken tokens current base pre (pre ++ [r])
          (by simp) e (hvar e he')
      · obtain ⟨rs, hsub, h1, h2, h3⟩ := hvar e0 he0
        refine ⟨rs ++ [r], ?_, ?_, ?_, ?_⟩
        · exact List.Sublist.append hsub (List.Sublist.refl [r])
        · rw [heq, chain_apply_append, ← h1]
        · rw [heq]
          simp only [List.map_append, List.sum_append, List.map_cons,
            List.map_nil, List.sum_cons, List.sum_nil]
          rw [← h2]
          omega
        · rw [heq]
          simp only [List.map_append, List.map_cons, List.map_nil]
          rw [h3]
          simp
    have := ih (pre ++ [r]) _ hstep z hz
    rwa [List.append_assoc, List.singleton_append] at this

theorem rules_fold_superset (tokens : List Token) (current : Token) :
    ∀ (rules : List MatchRule) (variants : List VarEntry),
      ∀ z ∈ variants, z ∈ rules.foldl (apply_rule_pass tokens current) variants := by
  intro rules
  induction rules with
  | nil => intro variants z hz; simpa using hz
  | cons r rules' ih =>
    intro variants z hz
    simp only [List.foldl_cons]
    exact ih _ z (apply_rule_pass_superset tokens current variants r z hz)

set_option maxRecDepth 8000 in
theorem all_rules_cost_nonneg : ∀ r ∈ ALL_RULES, 0 ≤ r.cost := by decide

set_option maxRecDepth 8000 in
theorem all_rules_names_nodup : (ALL_RULES.map MatchRule.name).Nodup := by decide

/-- C7: for every base anchor, token context and match target,
`_generate_variants` returns a list sorted in ascending order of cost,
in which every entry has cost ≥ 0, the unmodified base anchor appears
with cost 0 and an empty rule trail, and every entry is derived from the
base anchor by applying a sublist of the applicable rules — each
(pairwise distinctly named) rule at most once, in rule-table order, not
iterated to a fixpoint. -/
theorem generate_variants_spec (base : Str) (tokens : List Token)
    (current : Token) (target : Str) :
    (generate_variants base tokens current target).Pairwise
      (fun a b : VarEntry => a.2.1 ≤ b.2.1) ∧
    (∀ e ∈ generate_variants base tokens current target, 0 ≤ e.2.1) ∧
    (base, 0, ([] : List String)) ∈ generate_variants base tokens current target ∧
    (∀ e ∈ generate_variants base tokens current target,
      ∃ rs : List MatchRule, rs.Sublist (applicable_rules target) ∧
        e.1 = chain_apply tokens current rs base ∧
        e.2.1 = (rs.map MatchRule.cost).sum ∧
        e.2.2 = rs.map MatchRule.name) ∧
    (ALL_RULES.map MatchRule.name).Nodup := by
  have hderiv : ∀ z ∈ (applicable_rules target).foldl
      (apply_rule_pass tokens current) [(base, 0, ["base"])],
      Derived tokens current base (applicable_rules target) z := by
    have h0 : ∀ e ∈ ([(base, 0, ["base"])] : List VarEntry),
        Derived tokens current base [] e := by
      intro e he
      simp only [List.mem_singleton] at he
      subst he
      exact ⟨[], by simp, rfl, rfl, rfl⟩
    have := rules_fold_derived tokens current base (applicable_rules target)
      [] [(base, 0, ["base"])] h0
    simpa using this
  have hmem_res : ∀ z, z ∈ generate_variants base tokens current target ↔
      ∃ e ∈ (applicable_rules target).foldl (apply_rule_pass tokens current)
        [(base, 0, ["base"])], z = (e.1, e.2.1, e.2.2.drop 1) := by
    intro z
    unfold generate_variants
    simp only [mem_sort_by_cost, List.mem_map]
    constructor
    · rintro ⟨e, he, rfl⟩; exact ⟨e, he, rfl⟩
    · rintro ⟨e, he, rfl⟩; exact ⟨e, he, rfl⟩
  refine ⟨?_, ?_, ?_, ?_, all_rules_names_nodup⟩
  · unfold generate_variants
    exact sort_by_cost_sorted _
  · intro e he
    rcases (hmem_res e).1 he with ⟨e0, he0, rfl⟩
    obtain ⟨rs, hsub, h1, h2, h3⟩ := hderiv e0 he0
    simp only
    rw [h2]
    apply List.sum_nonneg
    intro x hx
    rcases List.mem_map.1 hx with ⟨r, hr, rfl⟩
    have hr2 : r ∈ applicable_rules target := hsub.subset hr
    have hr3 : r ∈ ALL_RULES := List.mem_of_mem_filter hr2
    exact all_rules_cost_nonneg r hr3
  · apply (hmem_res _).2
    refine ⟨(base, 0, ["base"]), ?_, rfl⟩
    exact rules_fold_superset tokens current (applicable_rules target)
      [(base, 0, ["base"])] _ (by simp)
  · intro e he
    rcases (hmem_res e).1 he with ⟨e0, he0, rfl⟩
    obtain ⟨rs, hsub, h1, h2, h3⟩ := hderiv e0 he0
    exact ⟨rs, hsub, h1, h2, by rw [h3]; simp⟩

/-- C7 witness at a concrete input. -/
theorem generate_variants_spec_witness :
    ("は".toList, 0, ([] : List String)) ∈
      generate_variants "は".toList [] (Token.mk [] CharType.OTHER 0 0 none)
        "わ".toList :=
  (generate_variants_spec "は".toList [] (Token.mk [] CharType.OTHER 0 0 none)
    "わ".toList).2.2.1

/-! ## AlignmentEngine (`core/ruby/_logic.py`) -/

/-- Python truthiness of `t.strip()`: `true` when the string is all
whitespace (so `not t.strip()` holds). -/
def strip_empty (s : Str) : Bool := s.all isPySpace

/-- Index of the first occurrence of `sub` in `s` (`0`-based), if any. -/
def first_occ (sub : Str) : Str → Option Nat
  | [] => if sub = [] then some 0 else none
  | c :: rest =>
    if sub.isPrefixOf (c :: rest) then some 0
    else (first_occ sub rest).map (· + 1)

/-- Python `s.find(sub, start, stop)`: the lowest index of `sub` fully
inside the slice `s[start:stop]`, or nothing. -/
def py_find (s sub : Str) (start stop : Nat) : Option Nat :=
  (first_occ sub ((s.drop start).take (stop - start))).map (· + start)

/-- `_handle_kana_token` from `core/ruby/_logic.py`: synchronize a kana
token against the hiragana stream, returning the advanced index (or the
unchanged index on a sync failure). -/
def handle_kana_token (token : Token) (hira_for_match : Str)
    (hira_match_idx : Nat) (tokens : List Token) : Nat :=
  let anchor_hira := (katakana_to_hiragana token.text).filter (fun c => !isPySpace c)
  let variants := generate_variants anchor_hira tokens token
    (hira_for_match.drop hira_match_idx)
  match variants.find? (fun v => v.1.isPrefixOf (hira_for_match.drop hira_match_idx)) with
  | some v => hira_match_idx + v.1.length
  | none => hira_match_idx

/-- The `is_in_parens` test of `_find_next_anchor`: kana at index `i`
sits inside a `kanji(…)` annotation. -/
def in_parens_check (stream : List Token) (i : Nat) : Bool :=
  decide (1 < i) &&
  (stream[i - 2]?.any (fun a => a.char_type == CharType.KANJI)) &&
  (stream[i - 1]?.any (fun b => b.text == "(".toList)) &&
  decide (i + 1 < stream.length) &&
  (stream[i + 1]?.any (fun e => e.text == ")".toList))

/-- The scan of `_find_next_anchor`; `fuel ≥ stream.length - i` computes
the full loop. -/
def find_next_anchor_loop (stream : List Token) : Nat → Nat → Option Token
  | 0, _ => none
  | fuel + 1, i =>
    match stream[i]? with
    | none => none
    | some t =>
      if t.char_type = CharType.HIRAGANA ∨ t.char_type = CharType.KATAKANA then
        if in_parens_check stream i then
          find_next_anchor_loop stream fuel (i + 1)
        else some t
      else find_next_anchor_loop stream fuel (i + 1)

/-- `_find_next_anchor` from `core/ruby/_logic.py`. -/
def find_next_anchor (start_idx : Nat) (stream : List Token) : Option Token :=
  find_next_anchor_loop stream stream.length start_idx

/-- Stable insertion into a list of strings sorted by length,
descending. -/
def insert_str_len_desc (x : Str) : List Str → List Str
  | [] => [x]
  | y :: ys =>
    if y.length < x.length then x :: y :: ys else y :: insert_str_len_desc x ys

/-- Python's stable `list.sort(key=len, reverse=True)`. -/
def sort_str_len_desc (l : List Str) : List Str :=
  l.foldl (fun acc x => insert_str_len_desc x acc) []

/-- Python `reading[:-k]` for `k = len(anchor)`: an empty result when
`k = 0`, otherwise the reading without its last `k` characters. -/
def py_drop_right (r : Str) (k : Nat) : Str :=
  if k = 0 then [] else r.take (r.length - k)

/-- `_select_best_reading` from `core/ruby/_logic.py`: among the
readings that literally prefix the remaining hiragana, pick the longest
(the loop of the source returns on its first iteration), stripping a
trailing okurigana anchor when applicable.  Returns the reading to
assign and the number of hiragana characters consumed. -/
def select_best_reading (readings : List Str) (hira_for_match : Str)
    (next_anchor : Option Token) : Option (Str × Nat) :=
  let possible := readings.filter (fun r => r.isPrefixOf hira_for_match)
  if possible = [] then none
  else
    match sort_str_len_desc possible with
    | [] => none
    | r :: _ =>
      match next_anchor with
      | some na =>
        if (katakana_to_hiragana na.text).isSuffixOf r ∧
           r ≠ katakana_to_hiragana na.text then
          some (py_drop_right r (katakana_to_hiragana na.text).length, r.length)
        else some (r, r.length)
      | none => some (r, r.length)

/-- The "annotatable character count" of a block:
`sum(len(t.text) for t in block if t.char_type == KANJI or (OTHER and t.text.strip()))`. -/
def punctuated_len (block : List Token) : Nat :=
  (block.map (fun t =>
    if t.char_type = CharType.KANJI ∨
       (t.char_type = CharType.OTHER ∧ strip_empty t.text = false) then
      t.text.length
    else 0)).sum

/-- `next((t for t in reversed(block) if t.text.strip()), None)`. -/
def last_meaningful_token (block : List Token) : Option Token :=
  block.reverse.find? (fun t => !strip_empty t.text)

/-- A candidate anchor match inside `_handle_kanji_block`:
`(pos, cost, fuzzy_text, score, original_anchor_text)` in the source. -/
structure BestMatch where
  pos : Nat
  cost : Int
  fuzzy : Str
  score : Rat
  orig_anchor : Str

/-- The length-ratio penalty term of the anchor score (floats of the
source modelled as exact rationals). -/
def ratio_penalty (plen ruby_len : Nat) : Rat :=
  if 0 < plen ∧ 0 < ruby_len then
    if (ruby_len : Rat) / (plen : Rat) > 5 ∨ (ruby_len : Rat) / (plen : Rat) < 1 / 4 then
      50
    else |(ruby_len : Rat) / (plen : Rat) - 2| * 5
  else if ruby_len = 0 ∧ 0 < plen then 10
  else 0

/-- The full anchor score: skipped-token penalty, fuzzy-rule cost,
length-ratio penalty and the position tie-break. -/
def match_score (skipped : Nat) (cost : Int) (plen ruby_len pos : Nat) : Rat :=
  (skipped : Rat) * 100 + (cost : Rat) + ratio_penalty plen ruby_len +
  (pos : Rat) * (1 / 100)

/-- `if anchor_best and (overall is None or anchor_best.score < overall.score)`. -/
def merge_overall (overall anchor_best : Option BestMatch) : Option BestMatch :=
  match anchor_best with
  | none => overall
  | some ab =>
    match overall with
    | none => some ab
    | some ov => if ab.score < ov.score then some ab else some ov

/-- The inner `while True: pos = hira_for_match.find(...)` loop of
`_handle_kanji_block`, scoring every occurrence of one fuzzy variant.
`fuel ≥ hira.length + 1` computes the full loop (`search_pos` strictly
increases). -/
def scan_positions (hira : Str) (window plen skipped : Nat) (cost : Int)
    (fuzzy orig_anchor : Str) : Nat → Nat → Option BestMatch → Option BestMatch
  | 0, _, best => best
  | fuel + 1, search_pos, best =>
    match py_find hira fuzzy search_pos (search_pos + window) with
    | none => best
    | some pos =>
      let score := match_score skipped cost plen pos pos
      let best' :=
        match best with
        | none => some (BestMatch.mk pos cost fuzzy score orig_anchor)
        | some b =>
          if score < b.score then some (BestMatch.mk pos cost fuzzy score orig_anchor)
          else some b
      scan_positions hira window plen skipped cost fuzzy orig_anchor fuel (pos + 1) best'

/-- Score all fuzzy variants of one anchor (the middle loop of
`_handle_kanji_block`). -/
def score_variants (hira : Str) (window plen skipped : Nat)
    (orig_anchor : Str) (variants : List VarEntry) : Option BestMatch :=
  variants.foldl (fun best v =>
    scan_positions hira window plen skipped v.2.1 v.1 orig_anchor
      (hira.length + 1) 0 best) none

/-- Length of the run of tokens sharing `group_id = some g` at the head
of the list (the `while ... group_id == group_id` collection loops). -/
def count_group_run (g : Nat) : List Token → Nat
  | [] => 0
  | t :: ts => if t.group_id = some g then 1 + count_group_run g ts else 0

/-- The anchor-search loop of `_handle_kanji_block`: walk the token
stream from `start_search`, collecting the best-scoring match over kana
anchors and dictionary-word anchors.  `fuel ≥ stream length + 1`
computes the full loop. -/
def anchor_scan (d : JpDict) (full : List Token) (hira : Str)
    (window plen start_search : Nat) :
    Nat → Nat → Option BestMatch → Option BestMatch
  | 0, _, overall => overall
  | fuel + 1, cursor, overall =>
    match full[cursor]? with
    | none => overall
    | some t =>
      if t.char_type = CharType.HIRAGANA ∨ t.char_type = CharType.KATAKANA then
        let orig := katakana_to_hiragana t.text
        let anchor_best := score_variants hira window plen
          (cursor + 1 - start_search) orig (generate_variants orig full t hira)
        anchor_scan d full hira window plen start_search fuel (cursor + 1)
          (merge_overall overall anchor_best)
      else
        match t.group_id with
        | some g =>
          let cnt := count_group_run g (full.drop (cursor + 1))
          let gtext := ((full.drop cursor).take (1 + cnt)).flatMap (fun u => u.text)
          let readings := find_word d gtext
          if readings ≠ [] then
            let anchor_best := score_variants hira window plen
              (cursor + 1 + cnt - start_search) gtext
              (readings.map (fun r => (r, (0 : Int), ["dict_match"])))
            anchor_scan d full hira window plen start_search fuel (cursor + 1 + cnt)
              (merge_overall overall anchor_best)
          else
            anchor_scan d full hira window plen start_search fuel (cursor + 1 + cnt)
              overall
        | none =>
          anchor_scan d full hira window plen start_search fuel (cursor + 1) overall

/-- Python `max(l, key=len)`: the first entry of maximal length. -/
def max_by_len (l : List Str) : Str :=
  match l with
  | [] => []
  | x :: xs => xs.foldl (fun best r => if best.length < r.length then r else best) x

/-- The anchor search of `_handle_kanji_block`: the overall best match
over the token stream, starting just after the block's last token. -/
def kanji_block_overall (d : JpDict) (block : List Token)
    (hira_for_match : Str) (full : List Token) : Option BestMatch :=
  match block.getLast? with
  | none => none
  | some last_tok =>
    let start_search :=
      match full.indexOf? last_tok with
      | some idx => idx + 1
      | none => full.length
    anchor_scan d full hira_for_match (punctuated_len block * 5 + 10)
      (punctuated_len block) start_search (full.length + 1) start_search none

/-- `_handle_kanji_block` from `core/ruby/_logic.py`.  The caller always
passes a non-empty block (`block[-1]` in the source); an empty block
yields no span. -/
def handle_kanji_block (d : JpDict) (block : List Token) (hira_for_match : Str)
    (full : List Token) : List (Nat × Nat × Str) :=
  match block.getLast? with
  | none => []
  | some _ =>
    if block.all (fun t => t.char_type = CharType.OTHER &&
        t.text.all (fun c => is_latin [c] || isPySpace c)) then []
    else
      let plen := punctuated_len block
      match kanji_block_overall d block hira_for_match full with
      | some m =>
        let found_pos :=
          if 0 < m.pos ∧ hira_for_match[m.pos - 1]? = some 'っ' ∧
             ¬("っ".toList.isPrefixOf m.fuzzy = true) ∧
             "っ".toList.isPrefixOf m.orig_anchor = true then
            m.pos - 1
          else m.pos
        let ruby := hira_for_match.take found_pos
        if ruby ≠ [] then
          if 0 < plen ∧ (ruby.length : Rat) / (plen : Rat) > 5 then []
          else
            match last_meaningful_token block with
            | some lt =>
              match block.head? with
              | some b0 => [(b0.start, lt.stop, ruby)]
              | none => []
            | none => []
        else []
      | none =>
        let block_text := pyStrip (block.flatMap (fun t => t.text))
        if block_text = [] then []
        else
          let tail_fallback : List (Nat × Nat × Str) :=
            if hira_for_match ≠ [] then
              match last_meaningful_token block with
              | some lt =>
                if 0 < plen ∧ (hira_for_match.length : Rat) / (plen : Rat) > 5 then []
                else
                  match block.head? with
                  | some b0 => [(b0.start, lt.stop, hira_for_match)]
                  | none => []
              | none => []
            else []
          let readings := find_word d block_text
          if readings ≠ [] then
            let possible := readings.filter (fun r => is_sub_of r hira_for_match)
            if possible ≠ [] then
              match last_meaningful_token block with
              | some lt =>
                match block.head? with
                | some b0 => [(b0.start, lt.stop, max_by_len possible)]
                | none => []
              | none => tail_fallback
            else tail_fallback
          else tail_fallback

/-- The token walk of `_align_and_generate_ruby_for_word`: split the
word's reading at each embedded kana sub-token, assigning the pieces to
the kanji/OTHER runs between them; on a failed kana anchor the remaining
reading goes to the remaining kanji tokens and the walk aborts. -/
def align_loop (reading : Str) : List Token → Nat → List Token →
    List (Nat × Nat × Str)
  | [], rc, blk =>
    match blk.head?, blk.getLast? with
    | some b0, some bl =>
      if reading.drop rc ≠ [] then [(b0.start, bl.stop, reading.drop rc)] else []
    | _, _ => []
  | t :: rest, rc, blk =>
    if t.char_type = CharType.KANJI ∨ t.char_type = CharType.OTHER then
      align_loop reading rest rc (blk ++ [t])
    else if t.char_type = CharType.HIRAGANA ∨ t.char_type = CharType.KATAKANA then
      match blk.head?, blk.getLast? with
      | some b0, some bl =>
        match py_find reading (katakana_to_hiragana t.text) rc reading.length with
        | some pos =>
          let ruby_text := (reading.drop rc).take (pos - rc)
          let spans := if ruby_text ≠ [] then [(b0.start, bl.stop, ruby_text)] else []
          let rc' :=
            if (katakana_to_hiragana t.text).isPrefixOf (reading.drop pos) then
              pos + (katakana_to_hiragana t.text).length
            else pos
          spans ++ align_loop reading rest rc' []
        | none =>
          let remaining := (t :: rest).filter (fun u =>
            u.char_type = CharType.KANJI ∨ u.char_type = CharType.OTHER)
          if reading.drop rc ≠ [] then
            match remaining.head?, remaining.getLast? with
            | some r0, some rl => [(r0.start, rl.stop, reading.drop rc)]
            | _, _ => []
          else []
      | _, _ =>
        let rc' :=
          if (katakana_to_hiragana t.text).isPrefixOf (reading.drop rc) then
            rc + (katakana_to_hiragana t.text).length
          else rc
        align_loop reading rest rc' []
    else align_loop reading rest rc blk

/-- The body shared by the general cases of
`_align_and_generate_ruby_for_word`. -/
def align_word_body (grouped : List Token) (reading : Str) :
    List (Nat × Nat × Str) :=
  if katakana_to_hiragana (grouped.flatMap (fun t => t.text)) = reading then []
  else align_loop reading grouped 0 []

/-- `_align_and_generate_ruby_for_word` from `core/ruby/_logic.py`. -/
def align_and_generate_ruby_for_word (grouped : List Token) (reading : Str) :
    List (Nat × Nat × Str) :=
  match grouped with
  | [t] =>
    if t.char_type = CharType.KANJI ∨ t.char_type = CharType.OTHER then
      if reading ≠ [] then [(t.start, t.stop, reading)] else []
    else align_word_body grouped reading
  | _ => align_word_body grouped reading

/-- The block-extension loop of strategy B in `generate_ruby_for_chunk`:
extend the KANJI/OTHER block, absorbing dictionary groups that are not
"true anchors" (no reading of theirs occurs in the next 100 characters
of the remaining hiragana).  `fuel ≥ stream length` computes the full
loop. -/
def find_block_end (d : JpDict) (stream : List Token) (hira : Str)
    (hira_idx : Nat) : Nat → Nat → Nat
  | 0, be => be
  | fuel + 1, be =>
    match stream[be + 1]? with
    | none => be
    | some nt =>
      if nt.char_type ≠ CharType.KANJI ∧ nt.char_type ≠ CharType.OTHER then be
      else
        match nt.group_id with
        | some g =>
          let cnt := count_group_run g (stream.drop (be + 2))
          let readings := find_word d
            (((stream.drop (be + 1)).take (1 + cnt)).flatMap (fun u => u.text))
          if readings ≠ [] ∧ readings.any (fun r =>
              is_sub_of r ((hira.drop hira_idx).take 100)) then be
          else find_block_end d stream hira hira_idx fuel (be + 1)
        | none => find_block_end d stream hira hira_idx fuel (be + 1)

/-- Branch 1 of the cursor loop of `generate_ruby_for_chunk`: a kanji
token followed by a parenthesized kana annotation (and possibly an
okurigana token).  Returns the emitted span together with the new
cursor and hiragana index, or nothing when the pattern or the prefix
checks fail. -/
def annotated_check (stream : List Token) (hira : Str)
    (cursor hira_idx : Nat) (t : Token) :
    Option (List (Nat × Nat × Str) × Nat × Nat) :=
  if t.char_type = CharType.KANJI then
    match stream[cursor + 1]?, stream[cursor + 2]?, stream[cursor + 3]? with
    | some tp1, some hint, some tp3 =>
      if tp1.text = "(".toList ∧
         (hint.char_type = CharType.HIRAGANA ∨ hint.char_type = CharType.KATAKANA) ∧
         tp3.text = ")".toList then
        let hint_hira := katakana_to_hiragana hint.text
        let okuOpt : Option Str :=
          match stream[cursor + 4]? with
          | some t4 =>
            if t4.char_type = CharType.HIRAGANA ∨ t4.char_type = CharType.KATAKANA then
              some (katakana_to_hiragana t4.text)
            else none
          | none => none
        match okuOpt with
        | some oku_hira =>
          if hint_hira.isPrefixOf (hira.drop hira_idx) ∧
             oku_hira.isPrefixOf (hira.drop (hira_idx + hint_hira.length)) then
            let final_ruby := (hira.drop hira_idx).take
              (hint_hira.length + oku_hira.length)
            some ([(t.start, t.stop, final_ruby)], cursor + 5,
              hira_idx + final_ruby.length)
          else if hint_hira.isPrefixOf (hira.drop hira_idx) then
            some ([(t.start, t.stop, hint_hira)], cursor + 4,
              hira_idx + hint_hira.length)
          else none
        | none =>
          if hint_hira.isPrefixOf (hira.drop hira_idx) then
            some ([(t.start, t.stop, hint_hira)], cursor + 4,
              hira_idx + hint_hira.length)
          else none
      else none
    | _, _, _ => none
  else none

/-- Strategy A of the cursor loop: a dictionary-grouped word aligned to
a selected reading.  Returns the word's spans with the new cursor and
hiragana index, or nothing when the word has no reading fitting the
remaining hiragana. -/
def strategy_a (d : JpDict) (stream : List Token) (hira : Str)
    (cursor hira_idx : Nat) (t : Token) :
    Option (List (Nat × Nat × Str) × Nat × Nat) :=
  match t.group_id with
  | some g =>
    let cnt := count_group_run g (stream.drop (cursor + 1))
    let grouped := (stream.drop cursor).take (1 + cnt)
    let readings := find_word d (grouped.flatMap (fun u => u.text))
    if readings ≠ [] then
      match select_best_reading readings (hira.drop hira_idx)
          (find_next_anchor (cursor + 1 + cnt) stream) with
      | some (reading, consumed) =>
        some (align_and_generate_ruby_for_word grouped reading,
          cursor + 1 + cnt, hira_idx + consumed)
      | none => none
    else none
  | none => none

/-- The cursor loop of `generate_ruby_for_chunk`, dispatching on the
current token: pre-annotated `kanji(kana)` patterns, kana
synchronization, symbols, dictionary strategy A, and anchor-search
strategy B.  `fuel ≥ stream length + 1` computes the full loop (the
cursor strictly increases). -/
def chunk_loop (d : JpDict) (stream : List Token) (hira : Str) :
    Nat → Nat → Nat → List (Nat × Nat × Str)
  | 0, _, _ => []
  | fuel + 1, cursor, hira_idx =>
    match stream[cursor]? with
    | none => []
    | some t =>
      match annotated_check stream hira cursor hira_idx t with
      | some (spans, c', h') => spans ++ chunk_loop d stream hira fuel c' h'
      | none =>
        if t.char_type = CharType.HIRAGANA ∨ t.char_type = CharType.KATAKANA then
          chunk_loop d stream hira fuel (cursor + 1)
            (handle_kana_token t hira hira_idx stream)
        else if t.char_type = CharType.SYMBOL ∨ strip_empty t.text = true then
          chunk_loop d stream hira fuel (cursor + 1) hira_idx
        else
          match strategy_a d stream hira cursor hira_idx t with
          | some (spans, c', h') => spans ++ chunk_loop d stream hira fuel c' h'
          | none =>
            let block_end := find_block_end d stream hira hira_idx
              stream.length cursor
            let token_block := (stream.drop cursor).take (block_end + 1 - cursor)
            let block_results := handle_kanji_block d token_block
              (hira.drop hira_idx) stream
            block_results ++ chunk_loop d stream hira fuel (block_end + 1)
              (hira_idx + (block_results.map (fun r => r.2.2.length)).sum)

/-- `generate_ruby_for_chunk` from `core/ruby/_logic.py`. -/
def generate_ruby_for_chunk (d : JpDict) (tokens : List Token)
    (hira_for_match : Str) : List (Nat × Nat × Str) :=
  chunk_loop d tokens hira_for_match (tokens.length + 1) 0 0

/-! ## `process_line` and the divider matcher (`core/ruby/_logic.py`) -/

/-- The chunk-divider placeholder of `core/ruby/_logic.py`. -/
def PLACEHOLDER : Char := '█'

/-- Backtracking helper for one `\s*` gap of the divider pattern: try
gap widths `j, j-1, …, 0` (greedy first), calling the continuation `f`
on the rest. -/
def try_gaps (f : Str → Option Nat) (rest : Str) : Nat → Option Nat
  | 0 => (f rest).map (fun k => 1 + k)
  | j + 1 =>
    match (f (rest.drop (j + 1))).map (fun k => 1 + (j + 1) + k) with
    | some v => some v
    | none => try_gaps f rest j

/-- Match the pattern `re.escape(c1) \s* re.escape(c2) \s* …` (built by
`process_line` from a divider token's characters) at the head of `s`,
case-insensitively; returns the length of the match. -/
def match_lits : Str → Str → Option Nat
  | [], _ => some 0
  | c :: cs, s =>
    match s with
    | [] => none
    | x :: rest =>
      if pyLowerChar x = pyLowerChar c then
        match cs with
        | [] => some 1
        | _ :: _ => try_gaps (match_lits cs) rest (rest.takeWhile isPySpace).length
      else none

/-- Leftmost occurrence of the divider pattern in `s` (as `re.search`):
the start position and the matched length. -/
def search_lits_aux (lits : Str) : Str → Nat → Option (Nat × Nat)
  | s, p =>
    match match_lits lits s with
    | some k => some (p, k)
    | none =>
      match s with
      | [] => none
      | _ :: rest => search_lits_aux lits rest (p + 1)

/-- `re.search` of the divider pattern over the whole string. -/
def search_lits (lits s : Str) : Option (Nat × Nat) :=
  search_lits_aux lits s 0

/-- The divider-identification loop of `process_line`: SYMBOL tokens
always divide when their pattern occurs in the romanization; non-blank
OTHER tokens divide when their space-stripped pattern occurs.  The
matched text is replaced (leftmost occurrence, once) by `PLACEHOLDER`
and the token's start offset is recorded. -/
def process_token_dividers : List Token → Str → List Nat → Str × List Nat
  | [], roma, divs => (roma, divs)
  | t :: ts, roma, divs =>
    if t.char_type = CharType.SYMBOL ∧ strip_empty t.text = false then
      match search_lits t.text roma with
      | some (p, k) =>
        process_token_dividers ts
          (roma.take p ++ [PLACEHOLDER] ++ roma.drop (p + k)) (divs ++ [t.start])
      | none => process_token_dividers ts roma divs
    else if t.char_type = CharType.OTHER ∧ strip_empty t.text = false then
      match search_lits (t.text.filter (fun c => c ≠ ' ')) roma with
      | some (p, k) =>
        process_token_dividers ts
          (roma.take p ++ [PLACEHOLDER] ++ roma.drop (p + k)) (divs ++ [t.start])
      | none => process_token_dividers ts roma divs
    else process_token_dividers ts roma divs

/-- Split the token list at the dividing tokens (which belong to no
chunk), keeping only non-empty chunks. -/
def build_token_chunks (tokens : List Token) (divs : List Nat) : List (List Token) :=
  let step := tokens.foldl (fun (acc : List (List Token) × List Token) t =>
    if t.start ∈ divs then
      (if acc.2 ≠ [] then acc.1 ++ [acc.2] else acc.1, [])
    else (acc.1, acc.2 ++ [t])) ([], [])
  if step.2 ≠ [] then step.1 ++ [step.2] else step.1

/-- `process_line` from `core/ruby/_logic.py`: mark hard dividers in the
romanization, convert to hiragana, split both sides into chunks, and
process each chunk (falling back to whole-line processing on a chunk
count mismatch). -/
def process_line (d : JpDict) (roma_text : Str) (tokens : List Token) :
    List (Nat × Nat × Str) :=
  let pr := process_token_dividers tokens roma_text []
  let hira_chunks := (roma_to_hiragana pr.1).splitOn PLACEHOLDER |>.filter
    (fun c => strip_empty c = false)
  let token_chunks := build_token_chunks tokens pr.2
  if hira_chunks.length ≠ token_chunks.length then
    generate_ruby_for_chunk d tokens ((roma_to_hiragana roma_text).filter isHira)
  else
    (token_chunks.zip hira_chunks).flatMap (fun p =>
      generate_ruby_for_chunk d p.1 (p.2.filter isHira))

/-! ## `generate_ruby` (`core/ruby/__init__.py`) -/

/-- Split a string at runs of one or more spaces (`re.split(r" +", s)`),
also returning the separator runs (`re.finditer(r" +", s)`). -/
def split_space_runs : Str → List Str × List Str
  | [] => ([[]], [])
  | c :: rest =>
    let step := split_space_runs rest
    if c = ' ' then
      if rest.head? = some ' ' then
        match step.2 with
        | sep :: seps => (step.1, (c :: sep) :: seps)
        | [] => ([] :: step.1, [[c]])
      else ([] :: step.1, [c] :: step.2)
    else
      match step.1 with
      | seg :: segs => ((c :: seg) :: segs, step.2)
      | [] => ([[c]], step.2)

/-- `re.split(r" +", s)`. -/
def re_split_spaces (s : Str) : List Str := (split_space_runs s).1

/-- The separator runs of `re.finditer(r" +", s)`, in order. -/
def space_seps (s : Str) : List Str := (split_space_runs s).2

/-- Re-glue single-space-separated segments: keeps only splits at
separators of two or more spaces. -/
def glue_segs (first : Str) : List Str → List Str → List Str
  | [], _ => [first]
  | sep :: seps, segs =>
    match segs with
    | s2 :: rest =>
      if 2 ≤ sep.length then first :: glue_segs s2 seps rest
      else glue_segs (first ++ sep ++ s2) seps rest
    | [] => [first]

/-- `re.split(r" \x7b2,\x7d", s)`: split only at runs of two or more
spaces. -/
def re_split_two_spaces (s : Str) : List Str :=
  match split_space_runs s with
  | (seg :: segs, seps) => glue_segs seg seps segs
  | ([], _) => [[]]

/-- The per-segment loop of `generate_ruby`: process each
(original segment, romanization segment) pair and shift the returned
spans by the running normalized offset (segment lengths plus separator
lengths). -/
def seg_loop (d : JpDict) : List (Str × Str) → List Str → Nat →
    List (Nat × Nat × Str)
  | [], _, _ => []
  | (os, rs) :: rest, seps, off =>
    let spans := (process_line d rs (tokenize_orig_line d os)).map
      (fun sp => (sp.1 + off, sp.2.1 + off, sp.2.2))
    spans ++ seg_loop d rest (seps.drop 1)
      (off + os.length + (match seps.head? with | some sep => sep.length | none => 0))

/-- `generate_ruby` in normalized coordinates: the body of
`core/ruby/__init__.py`'s `generate_ruby` before the final
`to_original_indices` mapping.  `nc` is the per-character NFKC
normalization (Modelled from the spec: NFKC maps each character to a
replacement string; the joined `FSLyricsLine` word texts are taken as
the input strings directly). -/
def generate_ruby_norm (nc : Char → List Char) (d : JpDict)
    (orig_raw roma_raw : Str) : List (Nat × Nat × Str) :=
  let orig := (build_map nc orig_raw 0).1
  let roma := roma_raw.flatMap nc
  if contains_Kanji orig = false then []
  else if pyStrip roma = [] then []
  else
    let orig_segs := re_split_spaces orig
    let roma_segs := re_split_two_spaces roma
    if 1 < orig_segs.length ∧ orig_segs.length = roma_segs.length then
      seg_loop d (orig_segs.zip roma_segs) (space_seps orig) 0
    else
      process_line d roma (tokenize_orig_line d orig)

/-- Map one normalized-coordinate span back to original coordinates
through the index map. -/
def to_orig_span (origLen : Nat) (mp : List Nat) (sp : Nat × Nat × Str) :
    Nat × Nat × Str :=
  ((to_original_indices origLen mp sp.1 sp.2.1).1,
   (to_original_indices origLen mp sp.1 sp.2.1).2, sp.2.2)

/-- `generate_ruby` from `core/ruby/__init__.py`: the normalized-space
pipeline followed by the `IndexMapper.to_original_indices` conversion of
every span (the source converts each span as it is produced; mapping
the final list pointwise is the same function). -/
def generate_ruby (nc : Char → List Char) (d : JpDict)
    (orig_raw roma_raw : Str) : List (Nat × Nat × Str) :=
  (generate_ruby_norm nc d orig_raw roma_raw).map
    (to_orig_span orig_raw.length (build_map nc orig_raw 0).2)

/-! ## Concrete instances used to evaluate the pipeline -/

/-- The identity normalization: every character maps to itself. -/
def nfkc_id : Char → List Char := fun c => [c]

/-- The empty dictionary index. -/
def emptyDict : JpDict := ⟨[], by simp, by simp⟩

/-- A dictionary whose single word has an implausibly long reading (six
characters for one kanji). -/
def longReadDict : JpDict :=
  ⟨[("亜".toList, ["ああああああ".toList])], by decide, by decide⟩

/-- A single-kanji token, as the tokenizer would emit for `"亜"`. -/
def kanjiTok : Token := Token.mk "亜".toList CharType.KANJI 0 1 none

/-- A dictionary providing a reading for the anchor word `株`. -/
def anchorDict : JpDict := ⟨[("株".toList, ["かぶ".toList])], by decide, by decide⟩

/-- A dictionary-grouped token following `kanjiTok` in a stream. -/
def groupTok : Token := Token.mk "株".toList CharType.KANJI 1 2 (some 1)

/-- A normalization mapping `㍿` to `株式会社` (its NFKC expansion) and
every other character to itself. -/
def nfkc_sq : Char → List Char := fun c =>
  if c = '㍿' then "株式会社".toList else [c]

/-- A dictionary with readings for the two halves of `株式会社`. -/
def companyDict : JpDict :=
  ⟨[("株式".toList, ["かぶしき".toList]), ("会社".toList, ["がいしゃ".toList])],
   by decide, by decide⟩

/-! ## C3: emptiness laws -/

/-- C3: `generate_ruby` returns the empty list whenever the normalized
original line contains no kanji character, and whenever the normalized
romanization is blank or whitespace-only. -/
theorem generate_ruby_empty_laws (nc : Char → List Char) (d : JpDict)
    (orig roma : Str) :
    (contains_Kanji (build_map nc orig 0).1 = false →
      generate_ruby nc d orig roma = []) ∧
    (pyStrip (roma.flatMap nc) = [] → generate_ruby nc d orig roma = []) := by
  constructor
  · intro h
    simp [generate_ruby, generate_ruby_norm, h]
  · intro h
    by_cases hk : contains_Kanji (build_map nc orig 0).1 = false
    · simp [generate_ruby, generate_ruby_norm, hk]
    · simp [generate_ruby, generate_ruby_norm, hk, h]

/-! ## C4: totality and literal passthrough -/

/-- C4: the romanization converter never fails: a string of characters
on which every rule is inert (digits, circled digit symbols, kana, CJK
ideographs — all uncased, non-whitespace, and consumable by no table
entry) passes through literally, and `generate_ruby` likewise returns a
plain value on empty input and on a romanization with no discernible
structure. -/
theorem roma_to_hiragana_passthrough (s : Str)
    (h : ∀ c ∈ s, isOpaqueChar c = true) :
    roma_to_hiragana s = s ∧
    generate_ruby nfkc_id emptyDict [] [] = [] ∧
    generate_ruby nfkc_id emptyDict "亜".toList "zzz".toList =
      [(0, 1, "っっ".toList)] := by
  have hof : ∀ c ∈ s, isPySpace c = false ∧ ('a' ≤ c && c ≤ 'z') = false ∧
      CONSONANTS.contains c = false ∧ c ≠ 'n' ∧ c ≠ 'm' ∧ c ≠ apos ∧
      ('A' ≤ c && c ≤ 'Z') = false :=
    fun c hc => opaque_facts c (h c hc)
  have hup : ∀ c ∈ s, ('A' ≤ c && c ≤ 'Z') = false :=
    fun c hc => (hof c hc).2.2.2.2.2.2
  have hws : ∀ c ∈ s, isPySpace c = false :=
    fun c hc => (hof c hc).1
  have hap : ∀ c ∈ s, c ≠ apos :=
    fun c hc => (hof c hc).2.2.2.2.2.1
  have hlow : ∀ c ∈ s, ('a' ≤ c && c ≤ 'z') = false :=
    fun c hc => (hof c hc).2.1
  have hpre : preprocess_romaji s = s := by
    rw [preprocess_plain s hup hws hap, expand_long_vowels_id s hlow,
      sub_uta_id false s]
    left
    intro hu
    have := hlow 'u' hu
    simp at this
  refine ⟨?_, by decide, by decide⟩
  unfold roma_to_hiragana
  rw [hpre]
  exact roma_loop_opaque s.length none s h (Nat.le_refl _)

/-- C4 witness at a concrete input: circled digits pass through. -/
theorem roma_to_hiragana_passthrough_witness :
    roma_to_hiragana "①②".toList = "①②".toList :=
  (roma_to_hiragana_passthrough "①②".toList (by decide)).1

/-! ## C5: the length-ratio guard of the block handler -/

/-- C5 (counterexample): the dictionary-fallback path of
`_handle_kanji_block` (taken when the anchor search finds nothing) has
no ratio check: with the block's annotatable character count 1, a
six-character dictionary reading is emitted as a span even though its
ruby-to-source ratio 6 exceeds 5. -/
theorem handle_kanji_block_ratio_cex :
    punctuated_len [kanjiTok] = 1 ∧
    handle_kanji_block longReadDict [kanjiTok] "んああああああ".toList [kanjiTok] =
      [(0, 1, "ああああああ".toList)] ∧
    5 * punctuated_len [kanjiTok] < ("ああああああ".toList : Str).length := by
  exact ⟨by decide, by decide, by decide⟩

/-- C5 (amended): the ratio guard holds on the anchor-search path: when
the anchor search succeeds (`kanji_block_overall` finds a best match)
and the block's annotatable character count is positive, every span the
block handler emits has ruby-to-source ratio at most 5.  When the
anchor search fails, the dictionary fallback can exceed the bound. -/
theorem handle_kanji_block_ratio_spec (d : JpDict) (block : List Token)
    (hira : Str) (full : List Token)
    (hm : (kanji_block_overall d block hira full).isSome = true)
    (hp : 0 < punctuated_len block) :
    ∀ sp ∈ handle_kanji_block d block hira full,
      (sp.2.2.length : Rat) / (punctuated_len block : Rat) ≤ 5 := by
  intro sp hsp
  unfold handle_kanji_block at hsp
  cases hgl : block.getLast? with
  | none =>
    rw [hgl] at hsp
    simp at hsp
  | some lt0 =>
    rw [hgl] at hsp
    by_cases hall : block.all (fun t => t.char_type = CharType.OTHER &&
        t.text.all (fun c => is_latin [c] || isPySpace c)) = true
    · rw [if_pos hall] at hsp
      simp at hsp
    · rw [if_neg hall] at hsp
      cases ho : kanji_block_overall d block hira full with
      | none => rw [ho] at hm; simp at hm
      | some m =>
        rw [ho] at hsp
        simp only at hsp
        by_cases hr : hira.take (if 0 < m.pos ∧ hira[m.pos - 1]? = some 'っ' ∧
            ¬("っ".toList.isPrefixOf m.fuzzy = true) ∧
            "っ".toList.isPrefixOf m.orig_anchor = true then m.pos - 1
            else m.pos) ≠ []
        · rw [if_pos hr] at hsp
          by_cases hrat : 0 < punctuated_len block ∧
              ((hira.take (if 0 < m.pos ∧ hira[m.pos - 1]? = some 'っ' ∧
                ¬("っ".toList.isPrefixOf m.fuzzy = true) ∧
                "っ".toList.isPrefixOf m.orig_anchor = true then m.pos - 1
                else m.pos)).length : Rat) / (punctuated_len block : Rat) > 5
          · rw [if_pos hrat] at hsp
            simp at hsp
          · rw [if_neg hrat] at hsp
            cases hlm : last_meaningful_token block with
            | none => rw [hlm] at hsp; simp at hsp
            | some ltm =>
              rw [hlm] at hsp
              cases hhd : block.head? with
              | none => rw [hhd] at hsp; simp at hsp
              | some b0 =>
                rw [hhd] at hsp
                simp only [List.mem_singleton] at hsp
                subst hsp
                exact le_of_not_lt (fun hgt => hrat ⟨hp, hgt⟩)
        · rw [if_neg hr] at hsp
          simp at hsp

/-- C5 witness: a concrete block where the anchor search succeeds and
the emitted span respects the ratio bound. -/
theorem handle_kanji_block_ratio_spec_witness :
    (((0, 1, "み".toList) : Nat × Nat × Str).2.2.length : Rat) /
      (punctuated_len [kanjiTok] : Rat) ≤ 5 :=
  handle_kanji_block_ratio_spec anchorDict [kanjiTok] "みかぶ".toList
    [kanjiTok, groupTok] (by decide) (by decide) (0, 1, "み".toList) (by decide)

/-! ## Span validity and non-overlap (C1, C2)

The pipeline invariant: every function that emits spans produces a
list of ordered, pairwise non-overlapping spans `(s, e, reading)` with
`lo ≤ s < e ≤ hi` and a non-empty all-hiragana reading, provided its
token inputs are ascending and well-formed and its hiragana input is
pure hiragana. -/

/-- Ascending well-formed token lists: non-empty text, positive width,
and every later token starts at or after this one's stop. -/
def TokAsc : List Token → Prop
  | [] => True
  | t :: ts => t.text ≠ [] ∧ t.start < t.stop ∧
      (∀ u ∈ ts, t.stop ≤ u.start) ∧ TokAsc ts

theorem TokAsc_mem : ∀ {l : List Token}, TokAsc l →
    ∀ t ∈ l, t.text ≠ [] ∧ t.start < t.stop := by
  intro l h
  induction l with
  | nil => simp
  | cons a l ih =>
    obtain ⟨h1, h2, h3, h4⟩ := h
    intro t ht
    rcases List.mem_cons.1 ht with rfl | ht
    · exact ⟨h1, h2⟩
    · exact ih h4 t ht

theorem TokAsc_sublist : ∀ {l l' : List Token}, List.Sublist l' l →
    TokAsc l → TokAsc l' := by
  intro l l' hsub
  induction hsub with
  | slnil => intro h; trivial
  | cons a hsub ih =>
    intro h
    exact ih h.2.2.2
  | cons₂ a hsub ih =>
    intro h
    obtain ⟨h1, h2, h3, h4⟩ := h
    exact ⟨h1, h2, fun u hu => h3 u (hsub.subset hu), ih h4⟩

theorem TokAsc_append_le : ∀ {l1 l2 : List Token}, TokAsc (l1 ++ l2) →
    ∀ a ∈ l1, ∀ b ∈ l2, a.stop ≤ b.start := by
  intro l1
  induction l1 with
  | nil => simp
  | cons t ts ih =>
    intro l2 h a ha b hb
    obtain ⟨h1, h2, h3, h4⟩ := h
    rcases List.mem_cons.1 ha with rfl | ha
    · exact h3 b (by simp [hb])
    · exact ih h4 a ha b hb

theorem TokAsc_head_le : ∀ {l : List Token}, TokAsc l → ∀ {b0 : Token},
    l.head? = some b0 → ∀ t ∈ l, b0.start ≤ t.start := by
  intro l h b0 hh t ht
  cases l with
  | nil => simp at hh
  | cons a l =>
    obtain rfl : a = b0 := by simpa using hh
    obtain ⟨h1, h2, h3, h4⟩ := h
    rcases List.mem_cons.1 ht with rfl | ht
    · exact Nat.le_refl _
    · exact Nat.le_trans (Nat.le_of_lt h2) (h3 t ht)

theorem TokAsc_le_last : ∀ {l : List Token}, TokAsc l → ∀ {bl : Token},
    l.getLast? = some bl → ∀ t ∈ l, t.stop ≤ bl.stop := by
  intro l h bl hl t ht
  rcases List.getLast?_eq_some_iff.1 hl with ⟨l', rfl⟩
  rcases List.mem_append.1 ht with ht | ht
  · exact Nat.le_trans (TokAsc_append_le h t ht bl (by simp))
      (Nat.le_of_lt (TokAsc_mem h bl (by simp)).2)
  · obtain rfl : t = bl := by simpa using ht
    exact Nat.le_refl _

theorem TokensSeq_bounds : ∀ {l : List Token} {o n : Nat}, TokensSeq o l n →
    o ≤ n ∧ ∀ t ∈ l, o ≤ t.start ∧ t.stop ≤ n := by
  intro l
  induction l with
  | nil =>
    intro o n h
    simp only [TokensSeq] at h
    subst h
    simp
  | cons t ts ih =>
    intro o n h
    obtain ⟨h1, h2, h3, h4⟩ := h
    obtain ⟨hle, hmem⟩ := ih h4
    have hw : 0 < t.text.length := List.length_pos.2 h3
    constructor
    · omega
    · intro u hu
      rcases List.mem_cons.1 hu with rfl | hu
      · omega
      · have := hmem u hu
        omega

theorem TokensSeq_asc : ∀ {l : List Token} {o n : Nat}, TokensSeq o l n →
    TokAsc l := by
  intro l
  induction l with
  | nil => intro o n _; trivial
  | cons t ts ih =>
    intro o n h
    obtain ⟨h1, h2, h3, h4⟩ := h
    have hw : 0 < t.text.length := List.length_pos.2 h3
    refine ⟨h3, by omega, ?_, ih h4⟩
    intro u hu
    exact (TokensSeq_bounds h4).2 u hu |>.1

/-- Ordered, non-overlapping spans within `[lo, hi]` with non-empty
all-hiragana readings. -/
inductive OkSpans : Nat → Nat → List (Nat × Nat × Str) → Prop
  | nil {lo hi : Nat} : OkSpans lo hi []
  | cons {lo hi : Nat} {sp : Nat × Nat × Str} {rest : List (Nat × Nat × Str)} :
      lo ≤ sp.1 → sp.1 < sp.2.1 → sp.2.1 ≤ hi → sp.2.2 ≠ [] →
      (∀ c ∈ sp.2.2, isHira c = true) → OkSpans sp.2.1 hi rest →
      OkSpans lo hi (sp :: rest)

theorem OkSpans_cons_inv {lo hi : Nat} {sp : Nat × Nat × Str}
    {rest : List (Nat × Nat × Str)} (h : OkSpans lo hi (sp :: rest)) :
    lo ≤ sp.1 ∧ sp.1 < sp.2.1 ∧ sp.2.1 ≤ hi ∧ sp.2.2 ≠ [] ∧
      (∀ c ∈ sp.2.2, isHira c = true) ∧ OkSpans sp.2.1 hi rest := by
  cases h with
  | cons a1 a2 a3 a4 a5 a6 => exact ⟨a1, a2, a3, a4, a5, a6⟩

theorem OkSpans_mono : ∀ {l : List (Nat × Nat × Str)} {lo hi lo' hi' : Nat},
    OkSpans lo hi l → lo' ≤ lo → hi ≤ hi' → OkSpans lo' hi' l := by
  intro l
  induction l with
  | nil => intro lo hi lo' hi' _ _ _; exact OkSpans.nil
  | cons sp rest ih =>
    intro lo hi lo' hi' h h1 h2
    obtain ⟨a1, a2, a3, a4, a5, a6⟩ := OkSpans_cons_inv h
    exact OkSpans.cons (Nat.le_trans h1 a1) a2 (Nat.le_trans a3 h2) a4 a5
      (ih a6 (Nat.le_refl _) h2)

theorem OkSpans_single {lo hi s e : Nat} {txt : Str} (h1 : lo ≤ s)
    (h2 : s < e) (h3 : e ≤ hi) (h4 : txt ≠ [])
    (h5 : ∀ c ∈ txt, isHira c = true) : OkSpans lo hi [(s, e, txt)] :=
  OkSpans.cons h1 h2 h3 h4 h5 OkSpans.nil

theorem OkSpans_append : ∀ {l1 l2 : List (Nat × Nat × Str)} {lo mid hi : Nat},
    OkSpans lo mid l1 → OkSpans mid hi l2 → lo ≤ mid → mid ≤ hi →
    OkSpans lo hi (l1 ++ l2) := by
  intro l1
  induction l1 with
  | nil =>
    intro l2 lo mid hi _ h2 hlm _
    exact OkSpans_mono h2 hlm (Nat.le_refl _)
  | cons sp rest ih =>
    intro l2 lo mid hi h1 h2 hlm hmh
    obtain ⟨a1, a2, a3, a4, a5, a6⟩ := OkSpans_cons_inv h1
    exact OkSpans.cons a1 a2 (Nat.le_trans a3 hmh) a4 a5 (ih a6 h2 a3 hmh)

theorem OkSpans_mem : ∀ {l : List (Nat × Nat × Str)} {lo hi : Nat},
    OkSpans lo hi l → ∀ sp ∈ l, lo ≤ sp.1 ∧ sp.1 < sp.2.1 ∧ sp.2.1 ≤ hi ∧
      sp.2.2 ≠ [] ∧ ∀ c ∈ sp.2.2, isHira c = true := by
  intro l
  induction l with
  | nil => simp
  | cons sp0 rest ih =>
    intro lo hi h sp hsp
    obtain ⟨a1, a2, a3, a4, a5, a6⟩ := OkSpans_cons_inv h
    rcases List.mem_cons.1 hsp with rfl | hsp
    · exact ⟨a1, a2, a3, a4, a5⟩
    · have := ih a6 sp hsp
      exact ⟨Nat.le_trans (Nat.le_trans a1 (Nat.le_of_lt a2)) this.1, this.2⟩

theorem OkSpans_pairwise : ∀ {l : List (Nat × Nat × Str)} {lo hi : Nat},
    OkSpans lo hi l → l.Pairwise (fun a b => a.2.1 ≤ b.1) := by
  intro l
  induction l with
  | nil => intro lo hi _; exact List.Pairwise.nil
  | cons sp rest ih =>
    intro lo hi h
    obtain ⟨a1, a2, a3, a4, a5, a6⟩ := OkSpans_cons_inv h
    exact List.Pairwise.cons (fun b hb => (OkSpans_mem a6 b hb).1) (ih a6)

theorem OkSpans_shift (off : Nat) :
    ∀ {l : List (Nat × Nat × Str)} {lo hi : Nat}, OkSpans lo hi l →
    OkSpans (lo + off) (hi + off)
      (l.map (fun sp => (sp.1 + off, sp.2.1 + off, sp.2.2))) := by
  intro l
  induction l with
  | nil => intro lo hi _; exact OkSpans.nil
  | cons sp rest ih =>
    intro lo hi h
    obtain ⟨a1, a2, a3, a4, a5, a6⟩ := OkSpans_cons_inv h
    obtain ⟨s, e, txt⟩ := sp
    have b1 : lo ≤ s := a1
    have b2 : s < e := a2
    have b3 : e ≤ hi := a3
    refine OkSpans.cons ?_ ?_ ?_ a4 a5 ?_
    · show lo + off ≤ s + off
      omega
    · show s + off < e + off
      omega
    · show e + off ≤ hi + off
      omega
    · show OkSpans (e + off) (hi + off)
        (rest.map (fun sp => (sp.1 + off, sp.2.1 + off, sp.2.2)))
      exact ih a6

/-! ### Helper facts about the block handler's ingredients -/

theorem head?_mem {l : List Token} {b0 : Token} (h : l.head? = some b0) :
    b0 ∈ l := by
  cases l with
  | nil => simp at h
  | cons a l =>
    obtain rfl : a = b0 := by simpa using h
    simp

theorem last_meaningful_token_mem {block : List Token} {lt : Token}
    (h : last_meaningful_token block = some lt) : lt ∈ block := by
  unfold last_meaningful_token at h
  exact List.mem_reverse.1 (List.mem_of_find?_eq_some h)

theorem foldl_max_mem : ∀ (xs : List Str) (x : Str),
    xs.foldl (fun best r => if best.length < r.length then r else best) x ∈
      x :: xs := by
  intro xs
  induction xs with
  | nil => simp
  | cons y ys ih =>
    intro x
    simp only [List.foldl_cons]
    by_cases hxy : x.length < y.length
    · rw [if_pos hxy]
      exact List.mem_cons_of_mem x (ih y)
    · rw [if_neg hxy]
      rcases List.mem_cons.1 (ih x) with h | h
      · rw [h]
        simp
      · simp [h]

theorem max_by_len_mem : ∀ (l : List Str), l ≠ [] → max_by_len l ∈ l := by
  intro l hl
  cases l with
  | nil => exact absurd rfl hl
  | cons x xs => exact foldl_max_mem xs x

theorem mem_insert_str_len_desc (x z : Str) :
    ∀ (l : List Str), z ∈ insert_str_len_desc x l ↔ z = x ∨ z ∈ l := by
  intro l
  induction l with
  | nil => simp [insert_str_len_desc]
  | cons y ys ih =>
    unfold insert_str_len_desc
    by_cases hxy : y.length < x.length
    · rw [if_pos hxy]
      simp
    · rw [if_neg hxy]
      simp only [List.mem_cons, ih]
      tauto

theorem mem_sort_str_len_desc (z : Str) (l : List Str)
    (h : z ∈ sort_str_len_desc l) : z ∈ l := by
  unfold sort_str_len_desc at h
  suffices haux : ∀ (l acc : List Str),
      z ∈ l.foldl (fun acc x => insert_str_len_desc x acc) acc →
      z ∈ l ∨ z ∈ acc by
    rcases haux l [] h with h | h
    · exact h
    · simp at h
  intro l
  induction l with
  | nil => intro acc h; simp at h; exact Or.inr h
  | cons x xs ih =>
    intro acc h
    simp only [List.foldl_cons] at h
    rcases ih _ h with h | h
    · exact Or.inl (by simp [h])
    · rcases (mem_insert_str_len_desc x z acc).1 h with rfl | h
      · exact Or.inl (by simp)
      · exact Or.inr h

theorem select_best_reading_mem {readings : List Str} {hira : Str}
    {na : Option Token} {rd : Str} {k : Nat}
    (h : select_best_reading readings hira na = some (rd, k)) :
    ∃ r ∈ readings, ∀ c ∈ rd, c ∈ r := by
  unfold select_best_reading at h
  by_cases hp : readings.filter (fun r => r.isPrefixOf hira) = []
  · rw [if_pos hp] at h
    simp at h
  · rw [if_neg hp] at h
    cases hs : sort_str_len_desc (readings.filter (fun r => r.isPrefixOf hira)) with
    | nil => rw [hs] at h; simp at h
    | cons r rest =>
      rw [hs] at h
      have hr : r ∈ readings := by
        have := mem_sort_str_len_desc r _ (by rw [hs]; simp)
        exact (List.mem_filter.1 this).1
      refine ⟨r, hr, ?_⟩
      cases na with
      | none =>
        simp only [Option.some.injEq, Prod.mk.injEq] at h
        rw [← h.1]
        exact fun c hc => hc
      | some t =>
        dsimp only at h
        by_cases hsuf : (katakana_to_hiragana t.text).isSuffixOf r ∧
            r ≠ katakana_to_hiragana t.text
        · rw [if_pos hsuf] at h
          simp only [Option.some.injEq, Prod.mk.injEq] at h
          rw [← h.1]
          unfold py_drop_right
          by_cases hz : (katakana_to_hiragana t.text).length = 0
          · rw [if_pos hz]
            simp
          · rw [if_neg hz]
            exact fun c hc => (List.take_sublist _ _).subset hc
        · rw [if_neg hsuf] at h
          simp only [Option.some.injEq, Prod.mk.injEq] at h
          rw [← h.1]
          exact fun c hc => hc

/-- A single block span `(head.start, last_meaningful.stop, txt)` is a
valid span list. -/
theorem block_span_ok {block : List Token} {lo hi : Nat} {b0 lt : Token}
    {txt : Str} (ha : TokAsc block)
    (hb : ∀ t ∈ block, lo ≤ t.start ∧ t.stop ≤ hi)
    (hhd : block.head? = some b0) (hlm : last_meaningful_token block = some lt)
    (htxt : txt ≠ []) (hh : ∀ c ∈ txt, isHira c = true) :
    OkSpans lo hi [(b0.start, lt.stop, txt)] := by
  have hltm : lt ∈ block := last_meaningful_token_mem hlm
  refine OkSpans_single (hb b0 (head?_mem hhd)).1 ?_ (hb lt hltm).2 htxt hh
  exact Nat.lt_of_le_of_lt (TokAsc_head_le ha hhd lt hltm)
    (TokAsc_mem ha lt hltm).2

/-- Every result of the block handler is empty or one span from the
block's head to its last meaningful token, whose text is drawn from the
hiragana stream or is a dictionary reading of the block text. -/
theorem handle_kanji_block_cases (d : JpDict) (block : List Token)
    (hira : Str) (full : List Token) :
    handle_kanji_block d block hira full = [] ∨
    ∃ b0 lt txt, block.head? = some b0 ∧
      last_meaningful_token block = some lt ∧
      handle_kanji_block d block hira full = [(b0.start, lt.stop, txt)] ∧
      txt ≠ [] ∧
      ((∀ c ∈ txt, c ∈ hira) ∨
        txt ∈ find_word d (pyStrip (block.flatMap (fun t => t.text)))) := by
  unfold handle_kanji_block
  cases hgl : block.getLast? with
  | none => exact Or.inl rfl
  | some lt0 =>
    by_cases hall : block.all (fun t => t.char_type = CharType.OTHER &&
        t.text.all (fun c => is_latin [c] || isPySpace c)) = true
    · rw [if_pos hall]
      exact Or.inl rfl
    · rw [if_neg hall]
      cases ho : kanji_block_overall d block hira full with
      | some m =>
        dsimp only
        by_cases hr : hira.take (if 0 < m.pos ∧ hira[m.pos - 1]? = some 'っ' ∧
            ¬("っ".toList.isPrefixOf m.fuzzy = true) ∧
            "っ".toList.isPrefixOf m.orig_anchor = true then m.pos - 1
            else m.pos) ≠ []
        · rw [if_pos hr]
          by_cases hrat : 0 < punctuated_len block ∧
              ((hira.take (if 0 < m.pos ∧ hira[m.pos - 1]? = some 'っ' ∧
                ¬("っ".toList.isPrefixOf m.fuzzy = true) ∧
                "っ".toList.isPrefixOf m.orig_anchor = true then m.pos - 1
                else m.pos)).length : Rat) / (punctuated_len block : Rat) > 5
          · rw [if_pos hrat]
            exact Or.inl rfl
          · rw [if_neg hrat]
            cases hlm : last_meaningful_token block with
            | none => exact Or.inl rfl
            | some ltm =>
              cases hhd : block.head? with
              | none => exact Or.inl rfl
              | some b0 =>
                refine Or.inr ⟨b0, ltm, _, rfl, rfl, rfl, hr, Or.inl ?_⟩
                intro c hc
                exact (List.take_sublist _ _).subset hc
        · rw [if_neg hr]
          exact Or.inl rfl
      | none =>
        dsimp only
        by_cases hbt : pyStrip (block.flatMap (fun t => t.text)) = []
        · rw [if_pos hbt]
          exact Or.inl rfl
        · rw [if_neg hbt]
          cases hlm : last_meaningful_token block with
          | none =>
            refine Or.inl ?_
            repeat' first | rfl | contradiction | split
          | some ltm =>
            cases hhd : block.head? with
            | none =>
              refine Or.inl ?_
              repeat' first | rfl | contradiction | split
            | some b0 =>
              by_cases hrd : find_word d
                  (pyStrip (block.flatMap (fun t => t.text))) ≠ []
              · rw [if_pos hrd]
                by_cases hpos : (find_word d (pyStrip (block.flatMap
                    (fun t => t.text)))).filter (fun r => is_sub_of r hira) ≠ []
                · rw [if_pos hpos]
                  have hmem : max_by_len ((find_word d (pyStrip (block.flatMap
                      (fun t => t.text)))).filter (fun r => is_sub_of r hira)) ∈
                      find_word d (pyStrip (block.flatMap (fun t => t.text))) :=
                    (List.mem_filter.1 (max_by_len_mem _ hpos)).1
                  exact Or.inr ⟨b0, ltm, _, rfl, rfl, rfl,
                    (find_word_wf d _ _ hmem).1, Or.inr hmem⟩
                · rw [if_neg hpos]
                  by_cases hh0 : hira ≠ []
                  · rw [if_pos hh0]
                    dsimp only
                    by_cases hrat2 : 0 < punctuated_len block ∧
                        (hira.length : Rat) / (punctuated_len block : Rat) > 5
                    · rw [if_pos hrat2]
                      exact Or.inl rfl
                    · rw [if_neg hrat2]
                      exact Or.inr ⟨b0, ltm, hira, rfl, rfl, rfl, hh0,
                        Or.inl (fun c hc => hc)⟩
                  · rw [if_neg hh0]
                    exact Or.inl rfl
              · rw [if_neg hrd]
                by_cases hh0 : hira ≠ []
                · rw [if_pos hh0]
                  dsimp only
                  by_cases hrat2 : 0 < punctuated_len block ∧
                      (hira.length : Rat) / (punctuated_len block : Rat) > 5
                  · rw [if_pos hrat2]
                    exact Or.inl rfl
                  · rw [if_neg hrat2]
                    exact Or.inr ⟨b0, ltm, hira, rfl, rfl, rfl, hh0,
                      Or.inl (fun c hc => hc)⟩
                · rw [if_neg hh0]
                  exact Or.inl rfl

theorem getLast?_mem {α : Type} {l : List α} {x : α} (h : l.getLast? = some x) :
    x ∈ l := by
  rcases List.getLast?_eq_some_iff.1 h with ⟨l', rfl⟩
  simp

/-- The block handler produces valid spans within the block's bounds. -/
theorem handle_kanji_block_ok {d : JpDict} {block : List Token} {hira : Str}
    {full : List Token} {lo hi : Nat} (ha : TokAsc block)
    (hb : ∀ t ∈ block, lo ≤ t.start ∧ t.stop ≤ hi)
    (hh : ∀ c ∈ hira, isHira c = true) :
    OkSpans lo hi (handle_kanji_block d block hira full) := by
  rcases handle_kanji_block_cases d block hira full with h |
    ⟨b0, lt, txt, hhd, hlm, heq, hne, hc⟩
  · rw [h]
    exact OkSpans.nil
  · rw [heq]
    refine block_span_ok ha hb hhd hlm hne ?_
    rcases hc with hc | hc
    · exact fun c hcm => hh c (hc c hcm)
    · exact fun c hcm => (find_word_wf d _ _ hc).2 c hcm

/-! ### The word aligner produces valid spans -/

theorem align_loop_ok (reading : Str) (hr : ∀ c ∈ reading, isHira c = true) :
    ∀ (ts blk : List Token) (rc lo hi : Nat),
      TokAsc (blk ++ ts) →
      (∀ u ∈ blk ++ ts, lo ≤ u.start ∧ u.stop ≤ hi) →
      OkSpans lo hi (align_loop reading ts rc blk) := by
  intro ts
  induction ts with
  | nil =>
    intro blk rc lo hi ha hb
    rw [List.append_nil] at ha hb
    unfold align_loop
    cases hhd : blk.head? with
    | none => exact OkSpans.nil
    | some b0 =>
      cases hgl : blk.getLast? with
      | none => exact OkSpans.nil
      | some bl =>
        dsimp only
        by_cases hrd : reading.drop rc ≠ []
        · rw [if_pos hrd]
          have hblm : bl ∈ blk := getLast?_mem hgl
          refine OkSpans_single (hb b0 (head?_mem hhd)).1 ?_ (hb bl hblm).2 hrd ?_
          · exact Nat.lt_of_le_of_lt (TokAsc_head_le ha hhd bl hblm)
              (TokAsc_mem ha bl hblm).2
          · exact fun c hc => hr c ((List.drop_sublist _ _).subset hc)
        · rw [if_neg hrd]
          exact OkSpans.nil
  | cons t rest ih =>
    intro blk rc lo hi ha hb
    have hshape : (blk ++ [t]) ++ rest = blk ++ t :: rest := by simp
    have hsubr : List.Sublist rest (blk ++ t :: rest) := by
      refine List.Sublist.trans ?_ (List.sublist_append_right blk (t :: rest))
      exact List.sublist_cons_self t rest
    have hascr : TokAsc ([] ++ rest) := by
      rw [List.nil_append]
      exact TokAsc_sublist hsubr ha
    have hbndr : ∀ u ∈ [] ++ rest, lo ≤ u.start ∧ u.stop ≤ hi := by
      intro u hu
      rw [List.nil_append] at hu
      exact hb u (hsubr.subset hu)
    unfold align_loop
    by_cases h1 : t.char_type = CharType.KANJI ∨ t.char_type = CharType.OTHER
    · rw [if_pos h1]
      refine ih (blk ++ [t]) rc lo hi ?_ ?_
      · rw [hshape]
        exact ha
      · intro u hu
        rw [hshape] at hu
        exact hb u hu
    · rw [if_neg h1]
      by_cases h2 : t.char_type = CharType.HIRAGANA ∨ t.char_type = CharType.KATAKANA
      · rw [if_pos h2]
        cases hhd : blk.head? with
        | none =>
          dsimp only
          exact ih [] _ lo hi hascr hbndr
        | some b0 =>
          cases hgl : blk.getLast? with
          | none =>
            dsimp only
            exact ih [] _ lo hi hascr hbndr
          | some bl =>
            dsimp only
            have hblm : bl ∈ blk := getLast?_mem hgl
            have hb0m : b0 ∈ blk := head?_mem hhd
            have hlo_bl : lo ≤ bl.stop :=
              Nat.le_trans (hb bl (by simp [hblm])).1
                (Nat.le_of_lt (TokAsc_mem ha bl (by simp [hblm])).2)
            have hble : ∀ u ∈ [] ++ rest, bl.stop ≤ u.start ∧ u.stop ≤ hi := by
              intro u hu
              rw [List.nil_append] at hu
              refine ⟨TokAsc_append_le ha bl hblm u (by simp [hu]),
                (hb u (hsubr.subset hu)).2⟩
            cases hpf : py_find reading (katakana_to_hiragana t.text) rc
                reading.length with
            | some pos =>
              dsimp only
              have hrec : OkSpans bl.stop hi (align_loop reading rest
                  (if (katakana_to_hiragana t.text).isPrefixOf (reading.drop pos)
                   then pos + (katakana_to_hiragana t.text).length else pos) []) :=
                ih [] _ bl.stop hi hascr hble
              by_cases hrt : (reading.drop rc).take (pos - rc) ≠ []
              · rw [if_pos hrt]
                refine OkSpans_append ?_ hrec hlo_bl ?_
                · refine OkSpans_single (hb b0 (by simp [hb0m])).1 ?_
                    (Nat.le_refl _) hrt ?_
                  · refine Nat.lt_of_le_of_lt (TokAsc_head_le ha ?_ bl
                      (by simp [hblm])) (TokAsc_mem ha bl (by simp [hblm])).2
                    cases blk with
                    | nil => simp at hhd
                    | cons a bs => simpa using hhd
                  · intro c hc
                    exact hr c ((List.drop_sublist _ _).subset
                      ((List.take_sublist _ _).subset hc))
                · exact (hb bl (by simp [hblm])).2
              · rw [if_neg hrt]
                rw [List.nil_append]
                exact OkSpans_mono hrec hlo_bl (Nat.le_refl _)
            | none =>
              dsimp only
              by_cases hrd : reading.drop rc ≠ []
              · rw [if_pos hrd]
                have hremsub : List.Sublist ((t :: rest).filter (fun u =>
                    decide (u.char_type = CharType.KANJI ∨
                      u.char_type = CharType.OTHER))) (blk ++ t :: rest) :=
                  List.Sublist.trans (List.filter_sublist _)
                    (List.sublist_append_right blk (t :: rest))
                have harem : TokAsc ((t :: rest).filter (fun u =>
                    decide (u.char_type = CharType.KANJI ∨
                      u.char_type = CharType.OTHER))) :=
                  TokAsc_sublist hremsub ha
                cases hr0 : ((t :: rest).filter (fun u =>
                    decide (u.char_type = CharType.KANJI ∨
                      u.char_type = CharType.OTHER))).head? with
                | none => exact OkSpans.nil
                | some r0 =>
                  cases hrl : ((t :: rest).filter (fun u =>
                      decide (u.char_type = CharType.KANJI ∨
                        u.char_type = CharType.OTHER))).getLast? with
                  | none => exact OkSpans.nil
                  | some rl =>
                    have hr0m := head?_mem hr0
                    have hrlm := getLast?_mem hrl
                    refine OkSpans_single (hb r0 (hremsub.subset hr0m)).1 ?_
                      (hb rl (hremsub.subset hrlm)).2 hrd ?_
                    · exact Nat.lt_of_le_of_lt (TokAsc_head_le harem hr0 rl hrlm)
                        (TokAsc_mem harem rl hrlm).2
                    · exact fun c hc => hr c ((List.drop_sublist _ _).subset hc)
              · rw [if_neg hrd]
                exact OkSpans.nil
      · rw [if_neg h2]
        have hsub2 : List.Sublist (blk ++ rest) (blk ++ t :: rest) :=
          List.Sublist.append_left (List.sublist_cons_self t rest) blk
        exact ih blk rc lo hi (TokAsc_sublist hsub2 ha)
          (fun u hu => hb u (hsub2.subset hu))

/-- `_align_and_generate_ruby_for_word` produces valid spans. -/
theorem align_word_ok {grouped : List Token} {reading : Str} {lo hi : Nat}
    (hr : ∀ c ∈ reading, isHira c = true) (ha : TokAsc grouped)
    (hb : ∀ u ∈ grouped, lo ≤ u.start ∧ u.stop ≤ hi) :
    OkSpans lo hi (align_and_generate_ruby_for_word grouped reading) := by
  have hbody : OkSpans lo hi (align_word_body grouped reading) := by
    unfold align_word_body
    by_cases he : katakana_to_hiragana (grouped.flatMap (fun t => t.text)) = reading
    · rw [if_pos he]
      exact OkSpans.nil
    · rw [if_neg he]
      exact align_loop_ok reading hr grouped [] 0 lo hi (by simpa using ha)
        (by simpa using hb)
  cases grouped with
  | nil => exact hbody
  | cons t ts =>
    cases ts with
    | nil =>
      unfold align_and_generate_ruby_for_word
      dsimp only
      by_cases h1 : t.char_type = CharType.KANJI ∨ t.char_type = CharType.OTHER
      · rw [if_pos h1]
        by_cases h2 : reading ≠ []
        · rw [if_pos h2]
          exact OkSpans_single (hb t (by simp)).1 (TokAsc_mem ha t (by simp)).2
            (hb t (by simp)).2 h2 hr
        · rw [if_neg h2]
          exact OkSpans.nil
      · rw [if_neg h1]
        exact hbody
    | cons t2 ts2 => exact hbody

/-! ### Chunk-loop helpers -/

theorem getElem?_mem_drop {l : List Token} {i : Nat} {t : Token}
    (h : l[i]? = some t) : t ∈ l.drop i := by
  have hlt : i < l.length := by
    by_contra hge
    rw [List.getElem?_eq_none (by omega)] at h
    simp at h
  rw [List.drop_eq_getElem_cons hlt]
  have : l[i] = t := by
    have := List.getElem?_eq_getElem hlt
    rw [this] at h
    simpa using h
  simp [this]

theorem drop_eq_cons {l : List Token} {i : Nat} {t : Token}
    (h : l[i]? = some t) : l.drop i = t :: l.drop (i + 1) := by
  have hlt : i < l.length := by
    by_contra hge
    rw [List.getElem?_eq_none (by omega)] at h
    simp at h
  rw [List.drop_eq_getElem_cons hlt]
  have : l[i] = t := by
    have := List.getElem?_eq_getElem hlt
    rw [this] at h
    simpa using h
  rw [this]

theorem mem_drop_mono {l : List Token} {u : Token} {a b : Nat} (hab : a ≤ b)
    (h : u ∈ l.drop b) : u ∈ l.drop a := by
  have heq : l.drop b = (l.drop a).drop (b - a) := by
    rw [List.drop_drop]
    congr 1
    omega
  rw [heq] at h
  exact List.mem_of_mem_drop h

theorem take_drop_split (l : List Token) (c k : Nat) :
    (l.drop c).take k ++ l.drop (c + k) = l.drop c := by
  have : l.drop (c + k) = (l.drop c).drop k := by
    rw [List.drop_drop]
  rw [this, List.take_append_drop]

theorem find_block_end_ge (d : JpDict) (stream : List Token) (hira : Str)
    (hidx : Nat) : ∀ (fuel be : Nat),
      be ≤ find_block_end d stream hira hidx fuel be := by
  intro fuel
  induction fuel with
  | zero => intro be; exact Nat.le_refl _
  | succ fuel ih =>
    intro be
    unfold find_block_end
    cases hs : stream[be + 1]? with
    | none => exact Nat.le_refl _
    | some nt =>
      dsimp only
      by_cases h1 : nt.char_type ≠ CharType.KANJI ∧ nt.char_type ≠ CharType.OTHER
      · rw [if_pos h1]
      · rw [if_neg h1]
        cases hg : nt.group_id with
        | some g =>
          dsimp only
          by_cases h2 : find_word d (((stream.drop (be + 1)).take
              (1 + count_group_run g (stream.drop (be + 2)))).flatMap
              (fun u => u.text)) ≠ [] ∧
              (find_word d (((stream.drop (be + 1)).take
                (1 + count_group_run g (stream.drop (be + 2)))).flatMap
                (fun u => u.text))).any (fun r =>
                  is_sub_of r ((hira.drop hidx).take 100))
          · rw [if_pos h2]
          · rw [if_neg h2]
            exact Nat.le_trans (by omega) (ih (be + 1))
        | none => exact Nat.le_trans (by omega) (ih (be + 1))

/-- A successful annotated-pattern check emits one span on the current
token with a non-empty reading drawn from the hiragana stream, and
advances the cursor by at least 4. -/
theorem annotated_check_some {stream : List Token} {hira : Str}
    {cursor hira_idx : Nat} {t : Token} {spans : List (Nat × Nat × Str)}
    {c' h' : Nat} (htxt : ∀ u ∈ stream, u.text ≠ [])
    (h : annotated_check stream hira cursor hira_idx t = some (spans, c', h')) :
    ∃ r, spans = [(t.start, t.stop, r)] ∧ r ≠ [] ∧ (∀ c ∈ r, c ∈ hira) ∧
      cursor + 4 ≤ c' := by
  unfold annotated_check at h
  by_cases h1 : t.char_type = CharType.KANJI
  · rw [if_pos h1] at h
    cases ha1 : stream[cursor + 1]? with
    | none => rw [ha1] at h; simp at h
    | some tp1 =>
      rw [ha1] at h
      cases ha2 : stream[cursor + 2]? with
      | none => rw [ha2] at h; simp at h
      | some hint =>
        rw [ha2] at h
        cases ha3 : stream[cursor + 3]? with
        | none => rw [ha3] at h; simp at h
        | some tp3 =>
          rw [ha3] at h
          dsimp only at h
          by_cases hcond : tp1.text = "(".toList ∧
              (hint.char_type = CharType.HIRAGANA ∨
                hint.char_type = CharType.KATAKANA) ∧ tp3.text = ")".toList
          · rw [if_pos hcond] at h
            have hhm : hint ∈ stream :=
              List.mem_of_mem_drop (getElem?_mem_drop ha2)
            have hhne : katakana_to_hiragana hint.text ≠ [] := by
              unfold katakana_to_hiragana
              simp only [ne_eq, List.map_eq_nil_iff]
              exact htxt hint hhm
            have hhlen : 0 < (katakana_to_hiragana hint.text).length :=
              List.length_pos.2 hhne
            have hint_alone : ∀ (hyp : (katakana_to_hiragana hint.text).isPrefixOf
                (hira.drop hira_idx) = true),
                ([(t.start, t.stop, katakana_to_hiragana hint.text)], cursor + 4,
                  hira_idx + (katakana_to_hiragana hint.text).length) =
                  (spans, c', h') →
                ∃ r, spans = [(t.start, t.stop, r)] ∧ r ≠ [] ∧
                  (∀ c ∈ r, c ∈ hira) ∧ cursor + 4 ≤ c' := by
              intro hyp heq
              simp only [Prod.mk.injEq] at heq
              refine ⟨katakana_to_hiragana hint.text, heq.1.symm, hhne, ?_,
                by omega⟩
              intro c hc
              have hpre := List.isPrefixOf_iff_prefix.1 hyp
              exact List.mem_of_mem_drop (hpre.subset hc)
            cases ha4 : stream[cursor + 4]? with
            | none =>
              rw [ha4] at h
              dsimp only at h
              by_cases hpre : (katakana_to_hiragana hint.text).isPrefixOf
                  (hira.drop hira_idx) = true
              · rw [if_pos hpre] at h
                exact hint_alone hpre (by simpa using h)
              · rw [if_neg hpre] at h
                simp at h
            | some t4 =>
              rw [ha4] at h
              dsimp only at h
              by_cases ht4 : t4.char_type = CharType.HIRAGANA ∨
                  t4.char_type = CharType.KATAKANA
              · rw [if_pos ht4] at h
                dsimp only at h
                by_cases hpre2 : (katakana_to_hiragana hint.text).isPrefixOf
                    (hira.drop hira_idx) = true ∧
                    (katakana_to_hiragana t4.text).isPrefixOf
                      (hira.drop (hira_idx +
                        (katakana_to_hiragana hint.text).length)) = true
                · rw [if_pos hpre2] at h
                  simp only [Option.some.injEq, Prod.mk.injEq] at h
                  refine ⟨(hira.drop hira_idx).take
                    ((katakana_to_hiragana hint.text).length +
                      (katakana_to_hiragana t4.text).length), h.1.symm, ?_, ?_,
                    by omega⟩
                  · have hdlen := (List.isPrefixOf_iff_prefix.1 hpre2.1).length_le
                    intro hnil
                    have := congrArg List.length hnil
                    simp only [List.length_take, List.length_nil] at this
                    omega
                  · intro c hc
                    exact List.mem_of_mem_drop
                      ((List.take_sublist _ _).subset hc)
                · rw [if_neg hpre2] at h
                  by_cases hpre : (katakana_to_hiragana hint.text).isPrefixOf
                      (hira.drop hira_idx) = true
                  · rw [if_pos hpre] at h
                    exact hint_alone hpre (by simpa using h)
                  · rw [if_neg hpre] at h
                    simp at h
              · rw [if_neg ht4] at h
                dsimp only at h
                by_cases hpre : (katakana_to_hiragana hint.text).isPrefixOf
                    (hira.drop hira_idx) = true
                · rw [if_pos hpre] at h
                  exact hint_alone hpre (by simpa using h)
                · rw [if_neg hpre] at h
                  simp at h
          · rw [if_neg hcond] at h
            simp at h
  · rw [if_neg h1] at h
    simp at h

/-- A successful strategy A aligns a grouped word against an
all-hiragana reading and advances the cursor past the group. -/
theorem strategy_a_some {d : JpDict} {stream : List Token} {hira : Str}
    {cursor hira_idx : Nat} {t : Token} {spans : List (Nat × Nat × Str)}
    {c' h' : Nat}
    (h : strategy_a d stream hira cursor hira_idx t = some (spans, c', h')) :
    ∃ cnt reading, spans = align_and_generate_ruby_for_word
        ((stream.drop cursor).take (1 + cnt)) reading ∧
      c' = cursor + 1 + cnt ∧ (∀ c ∈ reading, isHira c = true) := by
  unfold strategy_a at h
  cases hg : t.group_id with
  | none => rw [hg] at h; simp at h
  | some g =>
    rw [hg] at h
    dsimp only at h
    by_cases hrd : find_word d (((stream.drop cursor).take
        (1 + count_group_run g (stream.drop (cursor + 1)))).flatMap
        (fun u => u.text)) ≠ []
    · rw [if_pos hrd] at h
      cases hsel : select_best_reading (find_word d (((stream.drop cursor).take
          (1 + count_group_run g (stream.drop (cursor + 1)))).flatMap
          (fun u => u.text))) (hira.drop hira_idx)
          (find_next_anchor (cursor + 1 +
            count_group_run g (stream.drop (cursor + 1))) stream) with
      | none => rw [hsel] at h; simp at h
      | some p =>
        obtain ⟨reading, consumed⟩ := p
        rw [hsel] at h
        dsimp only at h
        simp only [Option.some.injEq, Prod.mk.injEq] at h
        refine ⟨count_group_run g (stream.drop (cursor + 1)), reading,
          h.1.symm, h.2.1.symm, ?_⟩
        obtain ⟨rr, hrrm, hsub⟩ := select_best_reading_mem hsel
        exact fun c hc => (find_word_wf d _ _ hrrm).2 c (hsub c hc)
    · rw [if_neg hrd] at h
      simp at h

/-- The chunk cursor loop produces valid, ordered, non-overlapping
spans within the stream's bounds. -/
theorem chunk_loop_ok (d : JpDict) (stream : List Token) (hira : Str)
    (hi : Nat) (hh : ∀ c ∈ hira, isHira c = true) (hasc : TokAsc stream)
    (hbnd : ∀ t ∈ stream, t.stop ≤ hi) :
    ∀ (fuel cursor hira_idx lo : Nat),
      (∀ t ∈ stream.drop cursor, lo ≤ t.start) →
      OkSpans lo hi (chunk_loop d stream hira fuel cursor hira_idx) := by
  have htext : ∀ u ∈ stream, u.text ≠ [] := fun u hu => (TokAsc_mem hasc u hu).1
  intro fuel
  induction fuel with
  | zero =>
    intro cursor hidx lo hlo
    exact OkSpans.nil
  | succ fuel ih =>
    intro cursor hidx lo hlo
    unfold chunk_loop
    cases hst : stream[cursor]? with
    | none => exact OkSpans.nil
    | some t =>
      have htmem_d : t ∈ stream.drop cursor := getElem?_mem_drop hst
      have htmem : t ∈ stream := List.mem_of_mem_drop htmem_d
      have hdropc : stream.drop cursor = t :: stream.drop (cursor + 1) :=
        drop_eq_cons hst
      have htasc : TokAsc (stream.drop cursor) :=
        TokAsc_sublist (List.drop_sublist _ _) hasc
      have hstop_le : ∀ u ∈ stream.drop (cursor + 1), t.stop ≤ u.start := by
        rw [hdropc] at htasc
        exact htasc.2.2.1
      dsimp only
      cases hann : annotated_check stream hira cursor hidx t with
      | some trip =>
        obtain ⟨spans, c', h'⟩ := trip
        obtain ⟨r, hspans, hrne, hrsub, hc'⟩ := annotated_check_some htext hann
        dsimp only
        subst hspans
        refine OkSpans_append
          (OkSpans_single (hlo t htmem_d) (TokAsc_mem hasc t htmem).2
            (Nat.le_refl _) hrne (fun c hc => hh c (hrsub c hc)))
          (ih c' h' t.stop ?_) ?_ (hbnd t htmem)
        · intro u hu
          exact hstop_le u (mem_drop_mono (by omega) hu)
        · exact Nat.le_trans (hlo t htmem_d)
            (Nat.le_of_lt (TokAsc_mem hasc t htmem).2)
      | none =>
        dsimp only
        by_cases h2 : t.char_type = CharType.HIRAGANA ∨
            t.char_type = CharType.KATAKANA
        · rw [if_pos h2]
          exact ih (cursor + 1) _ lo
            (fun u hu => hlo u (mem_drop_mono (by omega) hu))
        · rw [if_neg h2]
          by_cases h3 : t.char_type = CharType.SYMBOL ∨ strip_empty t.text = true
          · rw [if_pos h3]
            exact ih (cursor + 1) _ lo
              (fun u hu => hlo u (mem_drop_mono (by omega) hu))
          · rw [if_neg h3]
            cases hsa : strategy_a d stream hira cursor hidx t with
            | some trip =>
              obtain ⟨spans, c', h'⟩ := trip
              obtain ⟨cnt, reading, hspans, hc', hrd⟩ := strategy_a_some hsa
              dsimp only
              subst hspans
              subst hc'
              have hgsub : List.Sublist ((stream.drop cursor).take (1 + cnt))
                  stream :=
                List.Sublist.trans (List.take_sublist _ _) (List.drop_sublist _ _)
              have hgasc : TokAsc ((stream.drop cursor).take (1 + cnt)) :=
                TokAsc_sublist hgsub hasc
              have hgne : (stream.drop cursor).take (1 + cnt) ≠ [] := by
                rw [hdropc]
                have h1c : 1 + cnt = cnt + 1 := by omega
                rw [h1c]
                simp
              obtain ⟨gl, hgl⟩ : ∃ gl,
                  ((stream.drop cursor).take (1 + cnt)).getLast? = some gl := by
                cases hg2 : ((stream.drop cursor).take (1 + cnt)).getLast? with
                | none => exact absurd (List.getLast?_eq_none_iff.1 hg2) hgne
                | some gl => exact ⟨gl, rfl⟩
              have hglm : gl ∈ (stream.drop cursor).take (1 + cnt) :=
                getLast?_mem hgl
              have hmid_hi : gl.stop ≤ hi := hbnd gl (hgsub.subset hglm)
              have hbounds_g : ∀ u ∈ (stream.drop cursor).take (1 + cnt),
                  lo ≤ u.start ∧ u.stop ≤ gl.stop := by
                intro u hu
                exact ⟨hlo u ((List.take_sublist _ _).subset hu),
                  TokAsc_le_last hgasc hgl u hu⟩
              have hlo_mid : lo ≤ gl.stop :=
                Nat.le_trans (hbounds_g gl hglm).1
                  (Nat.le_of_lt (TokAsc_mem hgasc gl hglm).2)
              have hsplit : (stream.drop cursor).take (1 + cnt) ++
                  stream.drop (cursor + (1 + cnt)) = stream.drop cursor :=
                take_drop_split stream cursor (1 + cnt)
              have hrec_lo : ∀ u ∈ stream.drop (cursor + 1 + cnt),
                  gl.stop ≤ u.start := by
                intro u hu
                have hu' : u ∈ stream.drop (cursor + (1 + cnt)) := by
                  have harith : cursor + (1 + cnt) = cursor + 1 + cnt := by omega
                  rw [harith]
                  exact hu
                exact TokAsc_append_le (by rw [hsplit]; exact htasc) gl hglm u hu'
              exact OkSpans_append (align_word_ok hrd hgasc hbounds_g)
                (ih (cursor + 1 + cnt) h' gl.stop hrec_lo) hlo_mid hmid_hi
            | none =>
              dsimp only
              have hbege : cursor ≤ find_block_end d stream hira hidx
                  stream.length cursor := find_block_end_ge d stream hira hidx _ _
              set be := find_block_end d stream hira hidx stream.length cursor
                with hbe
              set block := (stream.drop cursor).take (be + 1 - cursor) with hblk
              have hbsub : List.Sublist block stream := by
                rw [hblk]
                exact List.Sublist.trans (List.take_sublist _ _)
                  (List.drop_sublist _ _)
              have hbasc : TokAsc block := TokAsc_sublist hbsub hasc
              have hbne : block ≠ [] := by
                rw [hblk, hdropc]
                have harith : be + 1 - cursor = (be - cursor) + 1 := by omega
                rw [harith]
                simp
              obtain ⟨bl, hbl⟩ : ∃ bl, block.getLast? = some bl := by
                cases hb2 : block.getLast? with
                | none => exact absurd (List.getLast?_eq_none_iff.1 hb2) hbne
                | some bl => exact ⟨bl, rfl⟩
              have hblm : bl ∈ block := getLast?_mem hbl
              have hmid_hi : bl.stop ≤ hi := hbnd bl (hbsub.subset hblm)
              have hbounds_b : ∀ u ∈ block, lo ≤ u.start ∧ u.stop ≤ bl.stop := by
                intro u hu
                refine ⟨hlo u ?_, TokAsc_le_last hbasc hbl u hu⟩
                rw [hblk] at hu
                exact (List.take_sublist _ _).subset hu
              have hlo_mid : lo ≤ bl.stop :=
                Nat.le_trans (hbounds_b bl hblm).1
                  (Nat.le_of_lt (TokAsc_mem hbasc bl hblm).2)
              have hsplit : block ++ stream.drop (cursor + (be + 1 - cursor)) =
                  stream.drop cursor := by
                rw [hblk]
                exact take_drop_split stream cursor (be + 1 - cursor)
              have hrec_lo : ∀ u ∈ stream.drop (be + 1), bl.stop ≤ u.start := by
                intro u hu
                have hu' : u ∈ stream.drop (cursor + (be + 1 - cursor)) := by
                  have harith : cursor + (be + 1 - cursor) = be + 1 := by omega
                  rw [harith]
                  exact hu
                exact TokAsc_append_le (by rw [hsplit]; exact htasc) bl hblm u hu'
              exact OkSpans_append
                (handle_kanji_block_ok hbasc hbounds_b
                  (fun c hc => hh c (List.mem_of_mem_drop hc)))
                (ih (be + 1) _ bl.stop hrec_lo) hlo_mid hmid_hi

/-- `generate_ruby_for_chunk` produces valid, ordered, non-overlapping
spans. -/
theorem generate_ruby_for_chunk_ok {d : JpDict} {tokens : List Token}
    {hira : Str} {lo hi : Nat} (hh : ∀ c ∈ hira, isHira c = true)
    (hasc : TokAsc tokens) (hbnd : ∀ t ∈ tokens, lo ≤ t.start ∧ t.stop ≤ hi) :
    OkSpans lo hi (generate_ruby_for_chunk d tokens hira) := by
  unfold generate_ruby_for_chunk
  exact chunk_loop_ok d tokens hira hi hh hasc (fun t ht => (hbnd t ht).2)
    (tokens.length + 1) 0 0 lo
    (fun t ht => (hbnd t (by simpa using ht)).1)

/-! ### `process_line` produces valid spans -/

/-- The concatenation of the token chunks is an order-preserving
selection from the token list. -/
theorem build_token_chunks_sublist (tokens : List Token) (divs : List Nat) :
    List.Sublist (build_token_chunks tokens divs).flatten tokens := by
  have haux : ∀ (ts : List Token) (chunks : List (List Token))
      (cur : List Token),
      List.Sublist
        ((ts.foldl (fun (acc : List (List Token) × List Token) t =>
          if t.start ∈ divs then
            (if acc.2 ≠ [] then acc.1 ++ [acc.2] else acc.1, [])
          else (acc.1, acc.2 ++ [t])) (chunks, cur)).1.flatten ++
         (ts.foldl (fun (acc : List (List Token) × List Token) t =>
          if t.start ∈ divs then
            (if acc.2 ≠ [] then acc.1 ++ [acc.2] else acc.1, [])
          else (acc.1, acc.2 ++ [t])) (chunks, cur)).2)
        ((chunks.flatten ++ cur) ++ ts) := by
    intro ts
    induction ts with
    | nil =>
      intro chunks cur
      simp
    | cons t rest ih =>
      intro chunks cur
      simp only [List.foldl_cons]
      by_cases hd : t.start ∈ divs
      · rw [if_pos hd]
        by_cases hcur : cur ≠ []
        · rw [if_pos hcur]
          refine List.Sublist.trans (ih (chunks ++ [cur]) []) ?_
          have heq : (chunks ++ [cur]).flatten ++ [] = chunks.flatten ++ cur := by
            simp
          rw [heq]
          exact List.Sublist.append_left (List.sublist_cons_self t rest) _
        · rw [if_neg hcur]
          have hcur0 : cur = [] := by
            by_contra hne
            exact hcur hne
          subst hcur0
          refine List.Sublist.trans (ih chunks []) ?_
          exact List.Sublist.append_left (List.sublist_cons_self t rest) _
      · rw [if_neg hd]
        refine List.Sublist.trans (ih chunks (cur ++ [t])) ?_
        have heq : (chunks.flatten ++ (cur ++ [t])) ++ rest =
            (chunks.flatten ++ cur) ++ t :: rest := by
          simp
        rw [heq]
  unfold build_token_chunks
  by_cases hs : (tokens.foldl (fun (acc : List (List Token) × List Token) t =>
      if t.start ∈ divs then
        (if acc.2 ≠ [] then acc.1 ++ [acc.2] else acc.1, [])
      else (acc.1, acc.2 ++ [t])) ([], [])).2 ≠ []
  · rw [if_pos hs]
    have h2 := haux tokens [] []
    simp only [List.flatten_nil, List.nil_append] at h2
    have heq : ((tokens.foldl (fun (acc : List (List Token) × List Token) t =>
        if t.start ∈ divs then
          (if acc.2 ≠ [] then acc.1 ++ [acc.2] else acc.1, [])
        else (acc.1, acc.2 ++ [t])) ([], [])).1 ++
        [(tokens.foldl (fun (acc : List (List Token) × List Token) t =>
        if t.start ∈ divs then
          (if acc.2 ≠ [] then acc.1 ++ [acc.2] else acc.1, [])
        else (acc.1, acc.2 ++ [t])) ([], [])).2]).flatten =
        (tokens.foldl (fun (acc : List (List Token) × List Token) t =>
        if t.start ∈ divs then
          (if acc.2 ≠ [] then acc.1 ++ [acc.2] else acc.1, [])
        else (acc.1, acc.2 ++ [t])) ([], [])).1.flatten ++
        (tokens.foldl (fun (acc : List (List Token) × List Token) t =>
        if t.start ∈ divs then
          (if acc.2 ≠ [] then acc.1 ++ [acc.2] else acc.1, [])
        else (acc.1, acc.2 ++ [t])) ([], [])).2 := by
      simp
    rw [heq]
    exact h2
  · rw [if_neg hs]
    have h2 := haux tokens [] []
    simp only [List.flatten_nil, List.nil_append] at h2
    exact List.Sublist.trans (List.sublist_append_left _ _) h2

/-- Chunked processing: the chunks' spans appended in order are valid,
ordered and non-overlapping, given that the concatenated chunk tokens
are ascending. -/
theorem chunks_spans_ok (d : JpDict) (hi : Nat) :
    ∀ (cl : List (List Token)) (hl : List Str) (lo : Nat),
      TokAsc cl.flatten →
      (∀ u ∈ cl.flatten, lo ≤ u.start ∧ u.stop ≤ hi) →
      OkSpans lo hi ((cl.zip hl).flatMap
        (fun p => generate_ruby_for_chunk d p.1 (p.2.filter isHira))) := by
  intro cl
  induction cl with
  | nil =>
    intro hl lo _ _
    exact OkSpans.nil
  | cons ts cl' ih =>
    intro hl lo hasc hbnd
    cases hl with
    | nil => exact OkSpans.nil
    | cons hstr hl' =>
      simp only [List.zip_cons_cons, List.flatMap_cons]
      rw [List.flatten_cons] at hasc hbnd
      have hsubl : List.Sublist ts (ts ++ cl'.flatten) :=
        List.sublist_append_left _ _
      have hsubr : List.Sublist cl'.flatten (ts ++ cl'.flatten) :=
        List.sublist_append_right _ _
      have hts_asc : TokAsc ts := TokAsc_sublist hsubl hasc
      have hcl_asc : TokAsc cl'.flatten := TokAsc_sublist hsubr hasc
      have hhira : ∀ c ∈ hstr.filter isHira, isHira c = true :=
        fun c hc => (List.mem_filter.1 hc).2
      cases hts : ts with
      | nil =>
        have hempty : generate_ruby_for_chunk d [] (hstr.filter isHira) = [] :=
          rfl
        rw [hempty, List.nil_append]
        refine ih hl' lo ?_ ?_
        · exact hcl_asc
        · intro u hu
          exact hbnd u (by simp [hu])
      | cons t0 ts0 =>
        rw [← hts]
        have htsne : ts ≠ [] := by
          rw [hts]
          simp
        obtain ⟨gl, hgl⟩ : ∃ gl, ts.getLast? = some gl := by
          cases hg2 : ts.getLast? with
          | none => exact absurd (List.getLast?_eq_none_iff.1 hg2) htsne
          | some gl => exact ⟨gl, rfl⟩
        have hglm : gl ∈ ts := getLast?_mem hgl
        have hmid_hi : gl.stop ≤ hi := (hbnd gl (by simp [hglm])).2
        have hbounds_ts : ∀ u ∈ ts, lo ≤ u.start ∧ u.stop ≤ gl.stop := by
          intro u hu
          exact ⟨(hbnd u (by simp [hu])).1, TokAsc_le_last hts_asc hgl u hu⟩
        have hlo_mid : lo ≤ gl.stop :=
          Nat.le_trans (hbounds_ts gl hglm).1
            (Nat.le_of_lt (TokAsc_mem hts_asc gl hglm).2)
        refine OkSpans_append
          (generate_ruby_for_chunk_ok hhira hts_asc hbounds_ts)
          (ih hl' gl.stop hcl_asc ?_) hlo_mid hmid_hi
        intro u hu
        exact ⟨TokAsc_append_le hasc gl hglm u hu, (hbnd u (by simp [hu])).2⟩

/-- `process_line` produces valid, ordered, non-overlapping spans
within the token bounds. -/
theorem process_line_ok {d : JpDict} {roma : Str} {tokens : List Token}
    {n : Nat} (hasc : TokAsc tokens) (hbnd : ∀ t ∈ tokens, t.stop ≤ n) :
    OkSpans 0 n (process_line d roma tokens) := by
  unfold process_line
  dsimp only
  split
  · exact generate_ruby_for_chunk_ok (fun c hc => (List.mem_filter.1 hc).2) hasc
      (fun t ht => ⟨Nat.zero_le _, hbnd t ht⟩)
  · have hsub := build_token_chunks_sublist tokens
      (process_token_dividers tokens roma []).2
    exact chunks_spans_ok d n _ _ 0 (TokAsc_sublist hsub hasc)
      (fun u hu => ⟨Nat.zero_le _, hbnd u (hsub.subset hu)⟩)

/-- The tokenizer's output tiles the input (shared with the C6
development). -/
theorem tokenize_tiles (d : JpDict) (s : Str) :
    TokensSeq 0 (tokenize_orig_line d s) s.length := by
  have := tokenize_loop_seq d s.length s 0 0 le_rfl
  simpa [tokenize_orig_line] using
    merge_other_seq _ 0 s.length (by simpa using this)

/-! ### The segment loop's offsets cover the normalized line -/

/-- The total normalized length consumed by the segment loop: each
segment's length plus the following separator's length, in the order
`seg_loop` consumes them. -/
def offs_len : List Str → List Str → Nat
  | [], _ => 0
  | s0 :: rest, seps =>
    s0.length + (match seps.head? with | some sep => sep.length | none => 0) +
      offs_len rest (seps.drop 1)

theorem split_space_runs_fst_ne : ∀ (s : Str), (split_space_runs s).1 ≠ [] := by
  intro s
  induction s with
  | nil => simp [split_space_runs]
  | cons c rest ih =>
    unfold split_space_runs
    dsimp only
    by_cases hc : c = ' '
    · rw [if_pos hc]
      by_cases hh : rest.head? = some ' '
      · rw [if_pos hh]
        cases hs2 : (split_space_runs rest).2 with
        | nil => simp
        | cons sep seps =>
          dsimp only
          exact ih
      · rw [if_neg hh]
        simp
    · rw [if_neg hc]
      cases hs1 : (split_space_runs rest).1 with
      | nil => simp
      | cons seg segs => simp

theorem split_space_runs_snd_ne : ∀ (s : Str), s.head? = some ' ' →
    (split_space_runs s).2 ≠ [] := by
  intro s hs
  cases s with
  | nil => simp at hs
  | cons c rest =>
    obtain rfl : c = ' ' := by simpa using hs
    unfold split_space_runs
    dsimp only
    rw [if_pos rfl]
    by_cases hh : rest.head? = some ' '
    · rw [if_pos hh]
      cases hs2 : (split_space_runs rest).2 with
      | nil => simp
      | cons sep seps => simp
    · rw [if_neg hh]
      simp

theorem split_space_runs_len : ∀ (s : Str),
    offs_len (split_space_runs s).1 (split_space_runs s).2 = s.length := by
  intro s
  induction s with
  | nil => rfl
  | cons c rest ih =>
    unfold split_space_runs
    dsimp only
    by_cases hc : c = ' '
    · rw [if_pos hc]
      by_cases hh : rest.head? = some ' '
      · rw [if_pos hh]
        have hne2 := split_space_runs_snd_ne rest hh
        cases hs2 : (split_space_runs rest).2 with
        | nil => exact absurd hs2 hne2
        | cons sep seps =>
          dsimp only
          have hne1 := split_space_runs_fst_ne rest
          cases hs1 : (split_space_runs rest).1 with
          | nil => exact absurd hs1 hne1
          | cons s0 segs =>
            rw [hs1, hs2] at ih
            simp only [offs_len, List.head?_cons, List.drop_succ_cons,
              List.drop_zero, List.length_cons] at ih ⊢
            omega
      · rw [if_neg hh]
        dsimp only
        simp only [offs_len, List.head?_cons, List.drop_succ_cons,
          List.drop_zero, List.length_cons, List.length_nil] at ih ⊢
        omega
    · rw [if_neg hc]
      have hne1 := split_space_runs_fst_ne rest
      cases hs1 : (split_space_runs rest).1 with
      | nil => exact absurd hs1 hne1
      | cons seg segs =>
        dsimp only
        rw [hs1] at ih
        simp only [offs_len, List.length_cons] at ih ⊢
        omega

theorem seg_loop_cons (d : JpDict) (os rs : Str) (rest : List (Str × Str))
    (seps : List Str) (off : Nat) :
    seg_loop d ((os, rs) :: rest) seps off =
      (process_line d rs (tokenize_orig_line d os)).map
        (fun sp => (sp.1 + off, sp.2.1 + off, sp.2.2)) ++
      seg_loop d rest (seps.drop 1)
        (off + os.length + (match seps.head? with
          | some sep => sep.length | none => 0)) := rfl

/-- The per-segment loop produces valid, ordered, non-overlapping spans
within the whole normalized line. -/
theorem seg_loop_ok (d : JpDict) (hi : Nat) :
    ∀ (ps : List (Str × Str)) (seps : List Str) (off : Nat),
      off + offs_len (ps.map Prod.fst) seps ≤ hi →
      OkSpans off hi (seg_loop d ps seps off) := by
  intro ps
  induction ps with
  | nil =>
    intro seps off _
    exact OkSpans.nil
  | cons p rest ih =>
    intro seps off hbound
    obtain ⟨os, rs⟩ := p
    rw [seg_loop_cons]
    simp only [List.map_cons, offs_len] at hbound
    have h1 : OkSpans 0 os.length (process_line d rs (tokenize_orig_line d os)) :=
      process_line_ok (TokensSeq_asc (tokenize_tiles d os))
        (fun t ht => ((TokensSeq_bounds (tokenize_tiles d os)).2 t ht).2)
    have h2 := OkSpans_shift off h1
    have hseg1 : OkSpans off (off + os.length)
        ((process_line d rs (tokenize_orig_line d os)).map
          (fun sp => (sp.1 + off, sp.2.1 + off, sp.2.2))) :=
      OkSpans_mono h2 (by omega) (by omega)
    have hrec : OkSpans (off + os.length) hi
        (seg_loop d rest (seps.drop 1)
          (off + os.length + (match seps.head? with
            | some sep => sep.length | none => 0))) :=
      OkSpans_mono (ih (seps.drop 1)
        (off + os.length + (match seps.head? with
          | some sep => sep.length | none => 0)) (by omega)) (by omega)
        (Nat.le_refl _)
    exact OkSpans_append hseg1 hrec (by omega) (by omega)

/-- The whole normalized-coordinate pipeline produces valid, ordered,
non-overlapping spans within the normalized line. -/
theorem generate_ruby_norm_ok (nc : Char → List Char) (d : JpDict)
    (orig roma : Str) :
    OkSpans 0 (build_map nc orig 0).1.length
      (generate_ruby_norm nc d orig roma) := by
  unfold generate_ruby_norm
  dsimp only
  by_cases h1 : contains_Kanji (build_map nc orig 0).1 = false
  · rw [if_pos h1]
    exact OkSpans.nil
  · rw [if_neg h1]
    by_cases h2 : pyStrip (roma.flatMap nc) = []
    · rw [if_pos h2]
      exact OkSpans.nil
    · rw [if_neg h2]
      split
      · next hseg =>
        refine seg_loop_ok d _ _ _ 0 ?_
        have hmap : ((re_split_spaces (build_map nc orig 0).1).zip
            (re_split_two_spaces (roma.flatMap nc))).map Prod.fst =
            re_split_spaces (build_map nc orig 0).1 :=
          List.map_fst_zip _ _ (Nat.le_of_eq hseg.2)
        rw [hmap]
        have := split_space_runs_len (build_map nc orig 0).1
        unfold re_split_spaces space_seps
        omega
      · exact process_line_ok
          (TokensSeq_asc (tokenize_tiles d (build_map nc orig 0).1))
          (fun t ht =>
            ((TokensSeq_bounds (tokenize_tiles d (build_map nc orig 0).1)).2
              t ht).2)

/-! ### Monotone lookup in the sorted index map -/

theorem sorted_getD_mono {mp : List Nat} (hs : List.Sorted (· ≤ ·) mp)
    {i j : Nat} (hij : i ≤ j) (hj : j < mp.length) :
    mp.getD i 0 ≤ mp.getD j 0 := by
  have hi : i < mp.length := Nat.lt_of_le_of_lt hij hj
  rw [List.getD_eq_getElem mp 0 hi, List.getD_eq_getElem mp 0 hj]
  rcases Nat.lt_or_ge i j with hltij | hge
  · exact List.pairwise_iff_getElem.1 hs i j hi hj hltij
  · have heq : i = j := by omega
    subst heq
    exact Nat.le_refl _

theorem getD_mem {mp : List Nat} {i : Nat} (h : i < mp.length) :
    mp.getD i 0 ∈ mp := by
  rw [List.getD_eq_getElem mp 0 h]
  exact List.getElem_mem h

/-! ## C1 and C2: validity and non-overlap of the returned spans -/

/-- C1: every span `generate_ruby` returns satisfies
`0 ≤ start < end ≤ len(original_line_text)` — with `start`, `end`
codepoint offsets into the original, pre-normalization line — and its
reading is a non-empty string of hiragana characters. -/
theorem generate_ruby_valid (nc : Char → List Char) (d : JpDict)
    (orig roma : Str) :
    ∀ sp ∈ generate_ruby nc d orig roma,
      sp.1 < sp.2.1 ∧ sp.2.1 ≤ orig.length ∧ sp.2.2 ≠ [] ∧
      ∀ c ∈ sp.2.2, isHira c = true := by
  intro sp hsp
  unfold generate_ruby at hsp
  obtain ⟨sp0, hsp0, rfl⟩ := List.mem_map.1 hsp
  obtain ⟨h0, hlt, hle, hne, hhira⟩ :=
    OkSpans_mem (generate_ruby_norm_ok nc d orig roma) sp0 hsp0
  have hmplen : (build_map nc orig 0).2.length =
      (build_map nc orig 0).1.length := build_map_snd_length nc orig 0
  have hmpne : (build_map nc orig 0).2 ≠ [] := by
    intro hcon
    have hz : (build_map nc orig 0).2.length = 0 := by
      rw [hcon]
      rfl
    omega
  unfold to_orig_span to_original_indices
  rw [if_neg hmpne]
  rw [if_neg (show ¬ sp0.1 ≥ (build_map nc orig 0).2.length by omega)]
  dsimp only
  rw [if_pos (show 0 < sp0.2.1 ∧ sp0.2.1 ≤ (build_map nc orig 0).2.length by
    omega)]
  refine ⟨?_, ?_, hne, hhira⟩
  · have hmono := sorted_getD_mono (build_map_snd_sorted nc orig 0)
      (show sp0.1 ≤ sp0.2.1 - 1 by omega)
      (show sp0.2.1 - 1 < (build_map nc orig 0).2.length by omega)
    omega
  · have hmem := build_map_snd_bounds nc orig 0 _
      (getD_mem (show sp0.2.1 - 1 < (build_map nc orig 0).2.length by omega))
    omega

set_option maxHeartbeats 4000000 in
/-- C1 witness at a concrete input: for the line `亜` romanized `a`,
the span `(0, 1, あ)` is returned and is valid. -/
theorem generate_ruby_valid_witness :
    (0 : Nat) < 1 ∧ 1 ≤ ("亜".toList : Str).length ∧ "あ".toList ≠ [] ∧
      ∀ c ∈ "あ".toList, isHira c = true :=
  generate_ruby_valid nfkc_id emptyDict "亜".toList "a".toList
    (0, 1, "あ".toList) (by decide)

set_option maxHeartbeats 12000000 in
/-- C2 (counterexample): with NFKC expanding `㍿` to `株式会社`, the two
returned spans are distinct triples whose original-coordinate intervals
are both `[0, 1)`: the spans overlap (the normalized spans `(0,2)` and
`(2,4)` both collapse onto the single original character). -/
theorem generate_ruby_overlap_cex :
    generate_ruby nfkc_sq companyDict "㍿".toList "kabushikigaisha".toList =
      [(0, 1, "かぶしき".toList), (0, 1, "がいしゃ".toList)] ∧
    "かぶしき".toList ≠ "がいしゃ".toList ∧ (0 : Nat) < 1 := by
  exact ⟨by decide, by decide, by decide⟩

/-- C2 (amended): in normalized coordinates the spans are ordered and
pairwise non-overlapping — each span ends at or before the next begins.
Mapping to original coordinates preserves this unless NFKC expands one
original character into several normalized ones, in which case distinct
normalized spans can collapse onto overlapping original ranges. -/
theorem generate_ruby_norm_nonoverlap (nc : Char → List Char) (d : JpDict)
    (orig roma : Str) :
    List.Pairwise (fun a b => a.2.1 ≤ b.1)
      (generate_ruby_norm nc d orig roma) :=
  OkSpans_pairwise (generate_ruby_norm_ok nc d orig roma)

end LDDC
